import Mathlib

/-!
Terms of the generics rewrite system (`lib/AST/RequirementMachine/Term.cpp`).

A shallow embedding of `MutableTerm::compare`, `MutableTerm::findSubTerm`,
`MutableTerm::rewriteSubTerm`, `MutableTerm::getRootProtocols`,
`MutableTerm::dump` and `Term::get`, together with the library algorithms
they call (`std::search`, `std::copy`, `SmallVector::erase`,
`llvm::FoldingSet`).

Iterators into the symbol vector are modelled as indices: `begin()` is `0`
and `end()` is `size()`.  Assertions are modelled as `Except.error`.
`MutableTerm.rewriteSubTerm` is the method on arguments that are objects of
their own; `MutableTerm.rewriteSubTermByRef` is the method on references that
may designate the term itself.

The last part embeds two string functions of `lib/Sema/TypeCheckMacros.cpp`,
`adjustMacroExpansionBufferName` and `expandMacroDefinition`, over texts as
lists of characters.
-/

namespace Rewriting

/-! ## Data model -/

/-- Modelled from the spec: the identity of a protocol declaration
(`const ProtocolDecl *`); the declaration itself lives outside `Term.cpp`. -/
abbrev ProtocolDecl := Nat

/-- Modelled from the spec: `Symbol::Kind`, the discriminant of a symbol
(declared in `Symbol.h`, which is not part of the sources). -/
inductive Kind where
  | Protocol
  | AssociatedType
  | GenericParam
  | Name
  | Layout
  | Superclass
  | ConcreteType
  deriving DecidableEq, Repr

/-- Modelled from the spec: `Symbol`, an immutable pre-uniqued value with a kind
and a kind-specific payload (declared in `Symbol.h`, which is not part of the
sources).  Symbols are uniqued, so `operator==` (pointer identity) coincides
with equality of kind and payload. -/
inductive Symbol where
  | Protocol (proto : ProtocolDecl)
  | AssociatedType (protos : List ProtocolDecl) (name : String)
  | GenericParam (index : Nat)
  | Name (name : String)
  | Layout (layout : Nat)
  | Superclass (type : Nat)
  | ConcreteType (type : Nat)
  deriving DecidableEq, Repr

/-- Modelled from the spec: `Symbol::getKind`. -/
def Symbol.getKind : Symbol → Kind
  | .Protocol _ => Kind.Protocol
  | .AssociatedType _ _ => Kind.AssociatedType
  | .GenericParam _ => Kind.GenericParam
  | .Name _ => Kind.Name
  | .Layout _ => Kind.Layout
  | .Superclass _ => Kind.Superclass
  | .ConcreteType _ => Kind.ConcreteType

/-- Modelled from the spec: `ProtocolGraph`, the external collaborator that
supplies the tie-break order between protocols (declared in `ProtocolGraph.h`,
which is not part of the sources). -/
structure ProtocolGraph where
  compareProtocols : ProtocolDecl → ProtocolDecl → Int

/-- The type of `Symbol::compare(other, graph)`.  Its body is in `Symbol.cpp`,
which is not part of the sources, so the comparator is a parameter of
everything that calls it. -/
abbrev SymbolCompare := Symbol → Symbol → ProtocolGraph → Int

/-- The class `MutableTerm`: an owned, mutable vector of symbols (`Symbols`). -/
structure MutableTerm where
  Symbols : List Symbol
  deriving DecidableEq, Repr

/-- The method `MutableTerm::size`. -/
def MutableTerm.size (t : MutableTerm) : Nat := t.Symbols.length

/-! ## Standard-library algorithms used by `Term.cpp` -/

/-- Outcome of one run of the inner loop of `std::search`. -/
inductive SearchScan where
  | matched
  | exhausted
  | mismatch
  deriving DecidableEq, Repr

/-- Inner loop of `std::search`, started at one candidate position: `it` walks
the rest of the range, `s_it` walks the pattern.  The pattern running out
means a match (`return first`), the range running out first means no
match is possible any more (`return last`), a differing pair ends the
attempt (`break`). -/
def searchScan : List Symbol → List Symbol → SearchScan
  | _, [] => SearchScan.matched
  | [], _ :: _ => SearchScan.exhausted
  | x :: it, y :: s_it => if x = y then searchScan it s_it else SearchScan.mismatch

/-- The algorithm `std::search(first, last, s_first, s_last)`: the outer loop tries every
candidate position in turn.  The first argument is the pattern, the second
the part of the range from `first` on, `first` and `last` are the
indices of the matching iterators. -/
def stdSearch (s : List Symbol) : List Symbol → Nat → Nat → Nat
  | [], first, last =>
    match searchScan [] s with
    | SearchScan.matched => first
    | _ => last
  | x :: rest, first, last =>
    match searchScan (x :: rest) s with
    | SearchScan.matched => first
    | SearchScan.exhausted => last
    | SearchScan.mismatch => stdSearch s rest (first + 1) last

/-- The algorithm `std::copy(first, last, d_first)` from another container: writes the
source symbols one by one into the buffer from index `d` on and returns
the buffer together with the index one past the last symbol written. -/
def stdCopy : List Symbol → List Symbol → Nat → List Symbol × Nat
  | [], buf, d => (buf, d)
  | x :: src, buf, d => stdCopy src (buf.set d x) (d + 1)

/-- The algorithm `std::copy(first, last, d_first)` inside one buffer, with `n = last - first`
symbols left to move: each step reads the symbol at `first` from the current
buffer and writes it at `d`. -/
def stdCopyWithin : Nat → List Symbol → Nat → Nat → List Symbol × Nat
  | 0, buf, _, d => (buf, d)
  | n + 1, buf, first, d =>
    match buf[first]? with
    | some x => stdCopyWithin n (buf.set d x) (first + 1) (d + 1)
    | none => stdCopyWithin n buf (first + 1) (d + 1)

/-! ## `MutableTerm` operations -/

/-- Loop of `MutableTerm::compare` over two terms of the same size; the two
lists are what is left of `*this` and `other` from index `i` on.  The index
is an `unsigned`, which the size of a term is taken to fit. -/
def compareLoop (symCompare : SymbolCompare) (graph : ProtocolGraph) :
    List Symbol → List Symbol → Except String Int
  | lhs :: ls, rhs :: rs =>
    let result := symCompare lhs rhs graph
    if result ≠ 0 then
      if lhs ≠ rhs then Except.ok result else Except.error "assert(lhs != rhs)"
    else if lhs = rhs then compareLoop symCompare graph ls rs
    else Except.error "assert(lhs == rhs)"
  | _, _ => Except.ok 0

/-- The method `MutableTerm::compare`: shortlex order on terms. -/
def MutableTerm.compare (symCompare : SymbolCompare) (t other : MutableTerm)
    (graph : ProtocolGraph) : Except String Int :=
  if t.size ≠ other.size then
    Except.ok (if t.size < other.size then -1 else 1)
  else compareLoop symCompare graph t.Symbols other.Symbols

/-- The method `MutableTerm::findSubTerm`: index of the start of `other` in `t`, or
`t.size` (that is `end()`) if there is none. -/
def MutableTerm.findSubTerm (t other : MutableTerm) : Nat :=
  if other.size > t.size then t.size
  else stdSearch other.Symbols t.Symbols 0 t.size

/-- The method `MutableTerm::rewriteSubTerm` called with `lhs` and `rhs` objects
other than the term itself, so that both keep their value during the call
(`rewriteSubTermByRef` is the method for any arguments): the returned pair is
the boolean result and the term after the call.  At the final assertion
`lhs.size ≤ oldSize` holds (an occurrence was found), so the unsigned
subtraction does not wrap. -/
def MutableTerm.rewriteSubTerm (t lhs rhs : MutableTerm) :
    Except String (Bool × MutableTerm) :=
  let found := t.findSubTerm lhs
  if found = t.size then Except.ok (false, t)
  else
    let oldSize := t.size
    if ¬ rhs.size ≤ lhs.size then Except.error "assert(rhs.size() <= lhs.size())"
    else
      let copied := stdCopy rhs.Symbols t.Symbols found
      let newIter := copied.2
      let oldIter := found + lhs.size
      let symbols :=
        if newIter ≠ oldIter then
          let moved := stdCopyWithin (copied.1.length - oldIter) copied.1 oldIter newIter
          moved.1.take moved.2
        else copied.1
      if symbols.length = oldSize - lhs.size + rhs.size then
        Except.ok (true, { Symbols := symbols })
      else Except.error "assert(size() == oldSize - lhs.size() + rhs.size())"

/-- An argument of type `const MutableTerm &` of a method of a term: the
reference designates the object the method is called on, or another object. -/
inductive TermRef where
  | receiver
  | object (m : MutableTerm)
  deriving DecidableEq, Repr

/-- The value read through a reference while the object the method is called on
holds `this`. -/
def TermRef.deref (this : MutableTerm) : TermRef → MutableTerm
  | .receiver => this
  | .object m => m

/-- The method `MutableTerm::rewriteSubTerm` with `lhs` and `rhs` the references they
are in the code: each of them may designate the term itself, and a read
through such a reference sees the term as it is at that point of the body.
The first `std::copy` reads `rhs` symbol by symbol, from the term itself when
`rhs` designates it; `found + lhs.size()` is read after that copy and the two
sizes of the final assertion after the erase.  The size read through `lhs`
there is at most `oldSize`, so the unsigned subtraction does not wrap. -/
def MutableTerm.rewriteSubTermByRef (t : MutableTerm) (lhs rhs : TermRef) :
    Except String (Bool × MutableTerm) :=
  let found := t.findSubTerm (lhs.deref t)
  if found = t.size then Except.ok (false, t)
  else
    let oldSize := t.size
    if ¬ (rhs.deref t).size ≤ (lhs.deref t).size then
      Except.error "assert(rhs.size() <= lhs.size())"
    else
      let copied :=
        match rhs with
        | .object m => stdCopy m.Symbols t.Symbols found
        | .receiver => stdCopyWithin t.size t.Symbols 0 found
      let newIter := copied.2
      let oldIter := found + (lhs.deref { Symbols := copied.1 }).size
      let symbols :=
        if newIter ≠ oldIter then
          let moved := stdCopyWithin (copied.1.length - oldIter) copied.1 oldIter newIter
          moved.1.take moved.2
        else copied.1
      let after : MutableTerm := { Symbols := symbols }
      if after.size = oldSize - (lhs.deref after).size + (rhs.deref after).size then
        Except.ok (true, after)
      else Except.error "assert(size() == oldSize - lhs.size() + rhs.size())"

/-- Modelled from the spec: `Symbol::getProtocols` (declared in `Symbol.h`,
which is not part of the sources): the protocol of a protocol symbol and the
owning protocols of an associated-type symbol.  Symbols of the other kinds
have no protocols and the function is not called on them. -/
def Symbol.getProtocols : Symbol → List ProtocolDecl
  | .Protocol proto => [proto]
  | .AssociatedType protos _ => protos
  | _ => []

/-- The method `MutableTerm::getRootProtocols`.  Reaching `llvm_unreachable` is
a failure.  The method reads `*begin()`, which an empty term does not have:
that call is outside the contract and is a failure too. -/
def MutableTerm.getRootProtocols (t : MutableTerm) : Except String (List ProtocolDecl) :=
  match t.Symbols with
  | [] => Except.error "*begin() of an empty term"
  | symbol :: _ =>
    match symbol.getKind with
    | Kind.Protocol => Except.ok symbol.getProtocols
    | Kind.AssociatedType => Except.ok symbol.getProtocols
    | Kind.GenericParam => Except.ok []
    | Kind.Name => Except.error "llvm_unreachable: Bad root symbol"
    | Kind.Layout => Except.error "llvm_unreachable: Bad root symbol"
    | Kind.Superclass => Except.error "llvm_unreachable: Bad root symbol"
    | Kind.ConcreteType => Except.error "llvm_unreachable: Bad root symbol"

/-- The type of `Symbol::dump`: the text it writes to the stream.  Its body is
in `Symbol.cpp`, which is not part of the sources, so it is a parameter of
everything that calls it. -/
abbrev SymbolDump := Symbol → String

/-- Loop of `MutableTerm::dump`: `first` is the flag of that name, the list is
what is left of `Symbols`, `out` is the text written to the stream so far. -/
def dumpLoop (symbolDump : SymbolDump) : Bool → List Symbol → String → String
  | _, [], out => out
  | first, symbol :: rest, out =>
    if !first then dumpLoop symbolDump false rest ((out ++ ".") ++ symbolDump symbol)
    else dumpLoop symbolDump false rest (out ++ symbolDump symbol)

/-- The method `MutableTerm::dump`: the text on the stream after the call. -/
def MutableTerm.dump (symbolDump : SymbolDump) (t : MutableTerm) (out : String) : String :=
  dumpLoop symbolDump true t.Symbols out

/-! ## Interning: `Term`, `Term::Storage` and the `RewriteContext`

Memory is explicit: the bump allocator of the context is the list of the
objects allocated so far, and the address of an object is its index in that
list.  A `Term` is a pointer, that is an address. -/

/-- The type of `Symbol::getOpaquePointer`.  Its body is in `Symbol.h`, which
is not part of the sources, so it is a parameter of everything that calls it.
Symbols are uniqued, so the function is injective; the theorems that rely on
this say so. -/
abbrev SymbolPointer := Symbol → Nat

/-- The class `llvm::FoldingSetNodeID`: the sequence of values added so far. -/
structure FoldingSetNodeID where
  Bits : List Nat
  deriving DecidableEq, Repr

/-- The method `FoldingSetNodeID::AddInteger`. -/
def FoldingSetNodeID.AddInteger (id : FoldingSetNodeID) (i : Nat) : FoldingSetNodeID :=
  { Bits := id.Bits ++ [i] }

/-- The method `FoldingSetNodeID::AddPointer`. -/
def FoldingSetNodeID.AddPointer (id : FoldingSetNodeID) (ptr : Nat) : FoldingSetNodeID :=
  { Bits := id.Bits ++ [ptr] }

/-- The struct `Term::Storage`: the field `Size` and the trailing objects, the
symbols stored behind it. -/
structure Storage where
  Size : Nat
  Trailing : List Symbol
  deriving DecidableEq, Repr

/-- The method `Storage::getElements`: the first `Size` trailing objects. -/
def Storage.getElements (storage : Storage) : List Symbol :=
  storage.Trailing.take storage.Size

/-- The method `Term::Storage::Profile`: adds the size, then the opaque pointer
of every symbol, to `id`. -/
def Storage.Profile (getOpaquePointer : SymbolPointer) (storage : Storage)
    (id : FoldingSetNodeID) : FoldingSetNodeID :=
  storage.getElements.foldl (fun id symbol => id.AddPointer (getOpaquePointer symbol))
    (id.AddInteger storage.Size)

/-- The class `Term`: a single pointer `Ptr` to the storage. -/
structure Term where
  Ptr : Nat
  deriving DecidableEq, Repr

/-- Modelled from the spec: `RewriteContext` (declared in `RewriteContext.h`,
which is not part of the sources) owns the bump allocator `Allocator` for term
storage and the deduplication table `Terms`, a folding set whose nodes are
the registered storages, given by their addresses. -/
structure RewriteContext where
  Allocator : List Storage
  Terms : List Nat
  deriving DecidableEq, Repr

/-- The context of a fresh session: nothing allocated, nothing registered. -/
def RewriteContext.empty : RewriteContext := { Allocator := [], Terms := [] }

/-- Dereferencing the pointer of a term in the memory of the context. -/
def RewriteContext.load (ctx : RewriteContext) (node : Nat) : Option Storage :=
  ctx.Allocator[node]?

/-- The method `FoldingSet::FindNodeOrInsertPos` on `ctx.Terms`: a registered
node whose profile equals `id`, if there is one. -/
def RewriteContext.FindNodeOrInsertPos (getOpaquePointer : SymbolPointer)
    (ctx : RewriteContext) (id : FoldingSetNodeID) : Option Nat :=
  ctx.Terms.find? (fun node =>
    match ctx.load node with
    | some storage => decide (storage.Profile getOpaquePointer { Bits := [] } = id)
    | none => false)

/-- Content of a slot of freshly allocated memory before it is written.  The
value is never read: `Term::get` writes every slot of a storage before the
storage is registered. -/
def uninitializedSymbol : Symbol := Symbol.GenericParam 0

/-- Loop of `Term::get` that copies the symbols into the new storage,
`term->getElements()[i] = mutableTerm[i]`, with `n = size - i` steps left. -/
def fillElements (mutableTerm : MutableTerm) : Nat → Nat → Storage → Storage
  | 0, _, term => term
  | n + 1, i, term =>
    match mutableTerm.Symbols[i]? with
    | some symbol =>
      fillElements mutableTerm n (i + 1) { term with Trailing := term.Trailing.set i symbol }
    | none => fillElements mutableTerm n (i + 1) term

/-- The lookup key that `Term::get` computes for `mutableTerm`: the size, then
the opaque pointer of every symbol.  The size is an `unsigned`, which the
size of a term is taken to fit. -/
def lookupKey (getOpaquePointer : SymbolPointer) (mutableTerm : MutableTerm) :
    FoldingSetNodeID :=
  mutableTerm.Symbols.foldl (fun id symbol => id.AddPointer (getOpaquePointer symbol))
    (FoldingSetNodeID.AddInteger { Bits := [] } mutableTerm.size)

/-- The function `Term::get`: the returned pair is the canonical term and the
context after the call.  On a miss the storage is allocated at the next free
address, constructed with `Size = size`, filled, and registered in `Terms`. -/
def Term.get (getOpaquePointer : SymbolPointer) (mutableTerm : MutableTerm)
    (ctx : RewriteContext) : Except String (Term × RewriteContext) :=
  let size := mutableTerm.size
  if ¬ size > 0 then Except.error "assert(size > 0): Term must have at least one symbol"
  else
    let id := lookupKey getOpaquePointer mutableTerm
    match ctx.FindNodeOrInsertPos getOpaquePointer id with
    | some term => Except.ok ({ Ptr := term }, ctx)
    | none =>
      let mem := ctx.Allocator.length
      let term := fillElements mutableTerm size 0
        { Size := size, Trailing := List.replicate size uninitializedSymbol }
      Except.ok ({ Ptr := mem },
        { Allocator := ctx.Allocator ++ [term], Terms := ctx.Terms ++ [mem] })

/-- The method `Term::size`. -/
def Term.size (ctx : RewriteContext) (t : Term) : Option Nat :=
  (ctx.load t.Ptr).map (fun storage => storage.Size)

/-- The symbols of a term from `Term::begin` to `Term::end`. -/
def Term.elements (ctx : RewriteContext) (t : Term) : Option (List Symbol) :=
  (ctx.load t.Ptr).map Storage.getElements

/-- The method `Term::back`. -/
def Term.back (ctx : RewriteContext) (t : Term) : Option Symbol :=
  (ctx.load t.Ptr).bind (fun storage => storage.getElements.getLast?)

/-- The method `Term::operator[]`. -/
def Term.getElem (ctx : RewriteContext) (t : Term) (index : Nat) : Option Symbol :=
  (ctx.load t.Ptr).bind (fun storage => storage.getElements[index]?)

/-- Modelled from the spec: the conversion `MutableTerm(const Term &)` (declared
in `Term.h`, which is not part of the sources), which copies the symbols from
`begin()` to `end()`. -/
def MutableTerm.ofTerm (ctx : RewriteContext) (t : Term) : Option MutableTerm :=
  (t.elements ctx).map MutableTerm.mk

/-- The method `Term::dump`, which is `MutableTerm(*this).dump(out)`. -/
def Term.dump (symbolDump : SymbolDump) (ctx : RewriteContext) (t : Term) (out : String) :
    Option String :=
  (MutableTerm.ofTerm ctx t).map (fun m => m.dump symbolDump out)

/-- The context `ctx'` is reached from `ctx` by a sequence of `Term::get`
calls. -/
inductive GetSteps (getOpaquePointer : SymbolPointer) : RewriteContext → RewriteContext → Prop
  | refl (ctx : RewriteContext) : GetSteps getOpaquePointer ctx ctx
  | step {ctx ctx₁ ctx₂ : RewriteContext} (m : MutableTerm) (t : Term) :
      GetSteps getOpaquePointer ctx ctx₁ →
      Term.get getOpaquePointer m ctx₁ = Except.ok (t, ctx₂) →
      GetSteps getOpaquePointer ctx ctx₂

/-- The invariant of the interning table: every registered node is an
allocated storage, every registered storage holds exactly `Size` symbols and
at least one, and no two distinct registered nodes hold the same symbol
sequence. -/
def RewriteContext.Invariant (ctx : RewriteContext) : Prop :=
  (∀ node, node ∈ ctx.Terms → node < ctx.Allocator.length) ∧
  (∀ node storage, node ∈ ctx.Terms → ctx.load node = some storage →
    storage.Size = storage.Trailing.length ∧ 0 < storage.Size) ∧
  (∀ n₁ n₂ s₁ s₂, n₁ ∈ ctx.Terms → n₂ ∈ ctx.Terms →
    ctx.load n₁ = some s₁ → ctx.load n₂ = some s₂ →
    s₁.getElements = s₂.getElements → n₁ = n₂)

/-! ## Macro expansion buffers (`lib/Sema/TypeCheckMacros.cpp`) -/

/-- The contents of a `StringRef` or of a `std::string`: the sequence of its
`char`s, one element for each byte, so that an offset into the text is an
index into the list. -/
abbrev StringRef := List Char

/-- The function `adjustMacroExpansionBufferName`.  The macros
`MANGLING_PREFIX_STR` and `MACRO_EXPANSION_BUFFER_MANGLING_PREFIX` are defined
in a header that is not part of the sources, so the two strings are
parameters. -/
def adjustMacroExpansionBufferName
    (MANGLING_PREFIX_STR MACRO_EXPANSION_BUFFER_MANGLING_PREFIX : StringRef)
    (name : StringRef) : StringRef :=
  if name.isEmpty then "<macro-expansion>".toList
  else
    let result : StringRef := []
    let startswith := MANGLING_PREFIX_STR.isPrefixOf name
    let result := if startswith then result ++ MACRO_EXPANSION_BUFFER_MANGLING_PREFIX else result
    let name := if startswith then name.drop MANGLING_PREFIX_STR.length else name
    (result ++ name) ++ ".swift".toList

/-- Modelled from the spec: `ExpandedMacroReplacement` (declared in a header that
is not part of the sources), with the three fields the code reads. -/
structure ExpandedMacroReplacement where
  startOffset : Nat
  endOffset : Nat
  parameterIndex : Nat
  deriving DecidableEq, Repr

/-- The call `expandedResult.append(originalText.begin() + first,
originalText.begin() + last)`.  The two iterators have to delimit a range of
the text, `first ≤ last ≤ size`; anything else reads outside the text and is
a failure. -/
def appendRange (expandedResult originalText : StringRef) (first last : Nat) :
    Except String StringRef :=
  if first ≤ last ∧ last ≤ originalText.length then
    Except.ok (expandedResult ++ (originalText.drop first).take (last - first))
  else Except.error "iterator range outside the text"

/-- The expression `args->getArgExprs()[index]`.  The pointer `args` is `none`
when it is null and otherwise designates the list of the argument
expressions; a read through a null pointer or past the end of the list has no
value. -/
def getArgExpr {Expr : Type} (args : Option (List Expr)) (index : Nat) : Option Expr :=
  match args with
  | none => none
  | some argExprs => argExprs[index]?

/-- Loop of `expandMacroDefinition` over the replacements; the state is
`expandedResult` and `startIdx`.  The function `extractInlinableText` is not
part of the sources, so the text it gives for an argument expression (read
with the source manager of the context of `macro`) is a parameter.  Indexing
the argument list outside its bounds is a failure. -/
def expandLoop {Expr : Type} (originalText : StringRef)
    (extractInlinableText : Expr → StringRef) (args : Option (List Expr)) :
    List ExpandedMacroReplacement → StringRef → Nat → Except String (StringRef × Nat)
  | [], expandedResult, startIdx => Except.ok (expandedResult, startIdx)
  | replacement :: rest, expandedResult, startIdx =>
    match appendRange expandedResult originalText startIdx replacement.startOffset with
    | Except.error e => Except.error e
    | Except.ok expandedResult =>
      match getArgExpr args replacement.parameterIndex with
      | none => Except.error "getArgExprs()[parameterIndex] outside the argument list"
      | some argExpr =>
        let argText := extractInlinableText argExpr
        expandLoop originalText extractInlinableText args rest
          (expandedResult ++ argText) replacement.endOffset

/-- The function `expandMacroDefinition`, on the expansion text and the
replacements of the definition `def`, and the argument list `args`. -/
def expandMacroDefinition {Expr : Type} (originalText : StringRef)
    (replacements : List ExpandedMacroReplacement)
    (extractInlinableText : Expr → StringRef) (args : Option (List Expr)) :
    Except String StringRef :=
  match expandLoop originalText extractInlinableText args replacements [] 0 with
  | Except.error e => Except.error e
  | Except.ok (expandedResult, startIdx) =>
    appendRange expandedResult originalText startIdx originalText.length

/-! ## Specification vocabulary -/

/-- The pattern `p` matches the term `t` symbol by symbol at index `i`:
`t[i + k] = p[k]` for every `k < len(p)`. -/
def MatchesAt (t p : MutableTerm) (i : Nat) : Prop :=
  ∀ k, k < p.size → t.Symbols[i + k]? = p.Symbols[k]?

/-- The shortlex order on terms induced by a relation `r` on symbols: shorter
first, and among terms of one size the lexicographic order. -/
def Shortlex (r : Symbol → Symbol → Prop) (a b : MutableTerm) : Prop :=
  a.size < b.size ∨ (a.size = b.size ∧ List.Lex r a.Symbols b.Symbols)

/-- The strict canonical order on terms: `compare(a, b)` returns a negative
value. -/
def TermLt (symCompare : SymbolCompare) (graph : ProtocolGraph) (a b : MutableTerm) : Prop :=
  ∃ c, MutableTerm.compare symCompare a b graph = Except.ok c ∧ c < 0

/-- A rule `(lhs, rhs)` oriented with `rhs ≤ lhs`: `compare(rhs, lhs) ≤ 0`. -/
def Oriented (symCompare : SymbolCompare) (graph : ProtocolGraph)
    (rule : MutableTerm × MutableTerm) : Prop :=
  ∃ c, MutableTerm.compare symCompare rule.2 rule.1 graph = Except.ok c ∧ c ≤ 0

/-- A rule `(lhs, rhs)` oriented strictly, `rhs < lhs`: `compare(rhs, lhs) < 0`. -/
def StrictlyOriented (symCompare : SymbolCompare) (graph : ProtocolGraph)
    (rule : MutableTerm × MutableTerm) : Prop :=
  TermLt symCompare graph rule.2 rule.1

/-- An infinite chain of successful rewrites: step `n` applies the rule
`rules n = (lhs, rhs)` to the term `ts n`, the call returns true and leaves
the term `ts (n + 1)`. -/
def IsRewriteChain (ts : Nat → MutableTerm) (rules : Nat → MutableTerm × MutableTerm) : Prop :=
  ∀ n, (ts n).rewriteSubTerm (rules n).1 (rules n).2 = Except.ok (true, ts (n + 1))

/-- The rendering of a symbol sequence in the words of the specification:
the renderings of the symbols in order, with a `"."` between two neighbours
and none leading or trailing. -/
def joinedRendering (render : Symbol → String) : List Symbol → String
  | [] => ""
  | [symbol] => render symbol
  | symbol :: next :: rest => render symbol ++ "." ++ joinedRendering render (next :: rest)

/-- The pieces of the rendering in the words of the specification: the
renderings of the symbols with the separator put between neighbours. -/
def renderingPieces (render : Symbol → String) (symbols : List Symbol) : List String :=
  (symbols.map render).intersperse "."

/-- A chain of `k` successful rewrites: for every `n < k`, step `n` applies the
rule `rules n = (lhs, rhs)` to the term `ts n`, the call returns true and
leaves the term `ts (n + 1)`. -/
def IsRewriteChainOfLength (k : Nat) (ts : Nat → MutableTerm)
    (rules : Nat → MutableTerm × MutableTerm) : Prop :=
  ∀ n, n < k → (ts n).rewriteSubTerm (rules n).1 (rules n).2 = Except.ok (true, ts (n + 1))

/-- The slice `x[first..last)` of a text. -/
def textSlice (x : StringRef) (first last : Nat) : StringRef :=
  (x.drop first).take (last - first)

/-- The expansion in the words of the claim, from the offset `first` on:
`x[first..r1.start) ++ arg(r1) ++ x[r1.end..r2.start) ++ ... ++ arg(rn) ++
x[rn.end..len(x))`. -/
def splicedText (x : StringRef) (arg : Nat → StringRef) :
    Nat → List ExpandedMacroReplacement → StringRef
  | first, [] => textSlice x first x.length
  | first, r :: rest =>
    textSlice x first r.startOffset ++ arg r.parameterIndex
      ++ splicedText x arg r.endOffset rest

/-- The inlinable text of the argument at an index, in the words of the claim:
what `extractInlinableText` gives for the argument expression at that index
of the argument list (no text where the list has no such argument). -/
def argumentText {Expr : Type} (extractInlinableText : Expr → StringRef)
    (args : Option (List Expr)) (index : Nat) : StringRef :=
  match getArgExpr args index with
  | some argExpr => extractInlinableText argExpr
  | none => []

/-- Replacements that are ordered and non-overlapping, in the words of the
claim: `r_k.endOffset ≤ r_{k+1}.startOffset ≤ len(x)` for neighbours. -/
def OrderedNonOverlapping (len : Nat) : List ExpandedMacroReplacement → Prop
  | [] => True
  | [_] => True
  | r :: next :: rest =>
    r.endOffset ≤ next.startOffset ∧ next.startOffset ≤ len ∧
      OrderedNonOverlapping len (next :: rest)

/-! ## Sample symbol comparators

`Symbol::compare` is not part of the sources.  The comparators below order
the symbols by an injective integer rank; they serve as concrete instances
of a comparator that is a strict total order. -/

/-- Injective code of a list of naturals. -/
def encodeNats : List Nat → Nat
  | [] => 0
  | n :: ns => Nat.pair n (encodeNats ns) + 1

/-- Injective code of a name. -/
def encodeName (name : String) : Nat := encodeNats (name.data.map Char.toNat)

/-- An injective rank of symbols in the naturals. -/
def Symbol.rank : Symbol → Nat
  | .Protocol proto => Nat.pair 0 proto
  | .AssociatedType protos name => Nat.pair 1 (Nat.pair (encodeNats protos) (encodeName name))
  | .GenericParam index => Nat.pair 2 index
  | .Name name => Nat.pair 3 (encodeName name)
  | .Layout layout => Nat.pair 4 layout
  | .Superclass type => Nat.pair 5 type
  | .ConcreteType type => Nat.pair 6 type

/-- An injective rank of symbols in the integers that puts the generic
parameters below everything else, in descending order of their index. -/
def Symbol.descendingRank : Symbol → Int
  | .GenericParam index => -((index : Int) + 1)
  | s => (s.rank : Int)

/-- Three-way comparison of symbols by a rank. -/
def compareByRank (rank : Symbol → Int) : SymbolCompare :=
  fun a b _ => if rank a < rank b then -1 else if rank b < rank a then 1 else 0

/-- Sample comparator: a strict total order on symbols that is well-founded. -/
def sampleCompare : SymbolCompare := compareByRank (fun s => (s.rank : Int))

/-- Sample comparator: a strict total order on symbols in which
`GenericParam (n + 1)` precedes `GenericParam n` for every `n`. -/
def descendingCompare : SymbolCompare := compareByRank Symbol.descendingRank

/-- A protocol graph for the examples. -/
def sampleGraph : ProtocolGraph := { compareProtocols := fun p q => (p : Int) - (q : Int) }

/-! ## Sanity checks on concrete inputs -/

example : sampleCompare (.Name "Foo") (.Name "Bar") sampleGraph = -1 := by decide

example : MutableTerm.compare sampleCompare ⟨[.GenericParam 0, .Name "Baz"]⟩
    ⟨[.GenericParam 0, .Name "Foo"]⟩ sampleGraph = Except.ok 1 := by rfl

example : MutableTerm.rewriteSubTerm ⟨[.GenericParam 0, .Name "A", .Name "B", .Name "C"]⟩
    ⟨[.Name "A", .Name "B"]⟩ ⟨[.Name "X"]⟩
    = Except.ok (true, ⟨[.GenericParam 0, .Name "X", .Name "C"]⟩) := by rfl

example : MutableTerm.findSubTerm ⟨[]⟩ ⟨[]⟩ = 0 := by decide

example : MutableTerm.rewriteSubTerm ⟨[.Name "A"]⟩ ⟨[.Name "A"]⟩ ⟨[.Name "X", .Name "Y"]⟩
    = Except.error "assert(rhs.size() <= lhs.size())" := by rfl

example : MutableTerm.rewriteSubTermByRef ⟨[.Name "A", .Name "B"]⟩ .receiver
      (.object ⟨[.Name "X"]⟩)
    = Except.error "assert(size() == oldSize - lhs.size() + rhs.size())" := rfl

example : MutableTerm.rewriteSubTermByRef ⟨[.GenericParam 0, .Name "A", .Name "B"]⟩
      (.object ⟨[.Name "A", .Name "B"]⟩) (.object ⟨[.Name "X"]⟩)
    = Except.ok (true, ⟨[.GenericParam 0, .Name "X"]⟩) := rfl

example : MutableTerm.rewriteSubTermByRef ⟨[.Name "A", .Name "B"]⟩ .receiver .receiver
    = Except.ok (true, ⟨[.Name "A", .Name "B"]⟩) := rfl

example : adjustMacroExpansionBufferName "$s".toList "@__swiftmacro_".toList "$s4main3foo".toList
    = "@__swiftmacro_4main3foo.swift".toList := by decide

example : expandMacroDefinition "f(a) + b".toList [⟨2, 3, 1⟩, ⟨7, 8, 0⟩]
      (fun e : StringRef => e) (some ["x".toList, "y * 2".toList])
    = Except.ok "f(y * 2) + x".toList := by rfl

example : expandMacroDefinition "f(a) + b".toList [⟨2, 3, 2⟩]
      (fun e : StringRef => e) (some ["x".toList, "y * 2".toList])
    = Except.error "getArgExprs()[parameterIndex] outside the argument list" := by rfl

example : expandMacroDefinition "f(a) + b".toList [] (fun e : StringRef => e) none
    = Except.ok "f(a) + b".toList := by rfl

example : splicedText "f(a) + b".toList
      (argumentText (fun e : StringRef => e) (some ["x".toList, "y * 2".toList])) 0
      [⟨2, 3, 1⟩, ⟨7, 8, 0⟩]
    = "f(y * 2) + x".toList := by decide

example : Term.get Symbol.rank ⟨[.GenericParam 0, .Name "A"]⟩ RewriteContext.empty
    = Except.ok (⟨0⟩, ⟨[⟨2, [.GenericParam 0, .Name "A"]⟩], [0]⟩) := by rfl

example : Term.get Symbol.rank ⟨[.GenericParam 0, .Name "A"]⟩
      ⟨[⟨1, [.GenericParam 0]⟩, ⟨2, [.GenericParam 0, .Name "A"]⟩], [0, 1]⟩
    = Except.ok (⟨1⟩, ⟨[⟨1, [.GenericParam 0]⟩, ⟨2, [.GenericParam 0, .Name "A"]⟩], [0, 1]⟩) := by
  rfl

/-! ## `std::search` finds the first occurrence -/

theorem searchScan_matched_iff : ∀ (range s : List Symbol),
    searchScan range s = SearchScan.matched ↔ s <+: range
  | _, [] => by simp [searchScan]
  | [], y :: s => by simp [searchScan]
  | x :: range, y :: s => by
    by_cases h : x = y
    · subst h
      simp [searchScan, List.cons_prefix_cons, searchScan_matched_iff range s]
    · have h2 : ¬ y = x := fun e => h e.symm
      simp [searchScan, List.cons_prefix_cons, h, h2]

theorem searchScan_exhausted_length : ∀ (range s : List Symbol),
    searchScan range s = SearchScan.exhausted → range.length < s.length
  | _, [] => by simp [searchScan]
  | [], y :: s => by simp
  | x :: range, y :: s => by
    by_cases h : x = y
    · subst h
      simp only [searchScan, if_true, List.length_cons]
      intro hs
      have := searchScan_exhausted_length range s hs
      omega
    · simp [searchScan, h]

theorem not_prefix_drop_of_length_lt {s range : List Symbol} (h : range.length < s.length)
    (j : Nat) : ¬ s <+: range.drop j := by
  intro hp
  have := hp.length_le
  simp only [List.length_drop] at this
  omega

/-- What `std::search` returns: either `first + k` for the least offset `k` at
which the pattern is a prefix of the rest of the range, or `last` when
there is no such offset. -/
theorem stdSearch_spec (s : List Symbol) : ∀ (range : List Symbol) (first last : Nat),
    (∃ k, k ≤ range.length ∧ stdSearch s range first last = first + k ∧
        s <+: range.drop k ∧ ∀ j, j < k → ¬ s <+: range.drop j) ∨
    (stdSearch s range first last = last ∧ ∀ j, ¬ s <+: range.drop j)
  | [], first, last => by
    cases s with
    | nil => left; exact ⟨0, by simp [stdSearch, searchScan]⟩
    | cons y s => right; simp [stdSearch, searchScan]
  | x :: rest, first, last => by
    cases hscan : searchScan (x :: rest) s with
    | matched =>
      left
      refine ⟨0, by simp, by simp [stdSearch, hscan], ?_, by simp⟩
      simpa using (searchScan_matched_iff _ _).1 hscan
    | exhausted =>
      right
      refine ⟨by simp [stdSearch, hscan], ?_⟩
      exact not_prefix_drop_of_length_lt (searchScan_exhausted_length _ _ hscan)
    | mismatch =>
      have hno : ¬ s <+: x :: rest := by
        intro hp
        rw [(searchScan_matched_iff _ _).2 hp] at hscan
        cases hscan
      have hstep : stdSearch s (x :: rest) first last = stdSearch s rest (first + 1) last := by
        simp [stdSearch, hscan]
      rcases stdSearch_spec s rest (first + 1) last with ⟨k, hk, hval, hpre, hmin⟩ | ⟨hval, hnone⟩
      · left
        refine ⟨k + 1, by simpa using hk, by rw [hstep, hval]; omega, by simpa using hpre, ?_⟩
        intro j hj
        cases j with
        | zero => simpa using hno
        | succ j => simpa using hmin j (by omega)
      · right
        refine ⟨by rw [hstep, hval], ?_⟩
        intro j
        cases j with
        | zero => simpa using hno
        | succ j => simpa using hnone j

/-- The index `findSubTerm` returns is either inside the term, and then the
least index at which the pattern starts, or `size`, and then the pattern
starts at no index inside the term. -/
theorem findSubTerm_spec (t p : MutableTerm) :
    (t.findSubTerm p < t.size ∧ p.Symbols <+: t.Symbols.drop (t.findSubTerm p) ∧
        ∀ j, j < t.findSubTerm p → ¬ p.Symbols <+: t.Symbols.drop j) ∨
    (t.findSubTerm p = t.size ∧ ∀ j, j < t.size → ¬ p.Symbols <+: t.Symbols.drop j) := by
  unfold MutableTerm.findSubTerm
  by_cases hlen : p.size > t.size
  · right
    simp only [hlen, if_true, true_and]
    intro j _
    exact not_prefix_drop_of_length_lt hlen j
  · simp only [hlen, if_false]
    rcases stdSearch_spec p.Symbols t.Symbols 0 t.size with ⟨k, hk, hval, hpre, hmin⟩ | ⟨hval, hnone⟩
    · rw [hval]
      simp only [Nat.zero_add]
      rcases Nat.lt_or_ge k t.size with hlt | hge
      · left; exact ⟨hlt, hpre, hmin⟩
      · right
        have : k = t.size := Nat.le_antisymm hk hge
        exact ⟨this, fun j hj => hmin j (by omega)⟩
    · right
      exact ⟨hval, fun j _ => hnone j⟩

/-! ## The two copies and the erase of `rewriteSubTerm` -/

/-- The first copy overwrites a span of the same length as the source. -/
theorem stdCopy_spec : ∀ (src pre mid post : List Symbol), mid.length = src.length →
    stdCopy src (pre ++ mid ++ post) pre.length = (pre ++ src ++ post, pre.length + src.length)
  | [], pre, mid, post, h => by
    have : mid = [] := List.length_eq_zero.1 (by simpa using h)
    subst this
    simp [stdCopy]
  | x :: src, pre, mid, post, h => by
    cases mid with
    | nil => simp at h
    | cons m mid =>
      have hset : (pre ++ m :: mid ++ post).set pre.length x = (pre ++ [x]) ++ mid ++ post := by
        simp [List.set_append]
      have hlen : pre.length + 1 = (pre ++ [x]).length := by simp
      have hmid : mid.length = src.length := by simpa using h
      rw [stdCopy, hset, hlen, stdCopy_spec src (pre ++ [x]) mid post hmid]
      simp
      omega

/-- The second copy moves the tail `T` left over the gap `G`; what is left
behind the moved tail has the length of the gap. -/
theorem stdCopyWithin_spec : ∀ (T A G : List Symbol), ∃ X, X.length = G.length ∧
    stdCopyWithin T.length (A ++ G ++ T) (A.length + G.length) A.length
      = (A ++ T ++ X, A.length + T.length)
  | [], A, G => ⟨G, rfl, by simp [stdCopyWithin]⟩
  | x :: T, A, G => by
    have hget : (A ++ G ++ x :: T)[A.length + G.length]? = some x := by
      rw [← List.length_append, List.getElem?_append_right (Nat.le_refl _)]
      simp
    cases G with
    | nil =>
      obtain ⟨X, hX, hrec⟩ := stdCopyWithin_spec T (A ++ [x]) []
      refine ⟨X, hX, ?_⟩
      have hset : (A ++ [] ++ x :: T).set A.length x = (A ++ [x]) ++ [] ++ T := by
        simp [List.set_append]
      have hfirst : A.length + ([] : List Symbol).length + 1
          = (A ++ [x]).length + ([] : List Symbol).length := by simp
      have hd : A.length + 1 = (A ++ [x]).length := by simp
      rw [List.length_cons, stdCopyWithin, hget]
      simp only
      rw [hset, hfirst, hd, hrec]
      simp
      omega
    | cons g G =>
      obtain ⟨X, hX, hrec⟩ := stdCopyWithin_spec T (A ++ [x]) (G ++ [x])
      refine ⟨X, by simpa using hX, ?_⟩
      have hset : (A ++ g :: G ++ x :: T).set A.length x = (A ++ [x]) ++ (G ++ [x]) ++ T := by
        simp [List.set_append]
      have hfirst : A.length + (g :: G).length + 1
          = (A ++ [x]).length + (G ++ [x]).length := by simp; omega
      have hd : A.length + 1 = (A ++ [x]).length := by simp
      rw [List.length_cons, stdCopyWithin, hget]
      simp only
      rw [hset, hfirst, hd, hrec]
      simp
      omega

/-- The body of `rewriteSubTerm` after an occurrence was found at `pre.length`:
the two copies and the erase turn `pre ++ lhs ++ post` into
`pre ++ rhs ++ post`. -/
theorem splice_spec (pre lhs post rhs : List Symbol) (h : rhs.length ≤ lhs.length) :
    (if (stdCopy rhs (pre ++ lhs ++ post) pre.length).2 ≠ pre.length + lhs.length then
        (stdCopyWithin
            ((stdCopy rhs (pre ++ lhs ++ post) pre.length).1.length - (pre.length + lhs.length))
            (stdCopy rhs (pre ++ lhs ++ post) pre.length).1 (pre.length + lhs.length)
            (stdCopy rhs (pre ++ lhs ++ post) pre.length).2).1.take
          (stdCopyWithin
            ((stdCopy rhs (pre ++ lhs ++ post) pre.length).1.length - (pre.length + lhs.length))
            (stdCopy rhs (pre ++ lhs ++ post) pre.length).1 (pre.length + lhs.length)
            (stdCopy rhs (pre ++ lhs ++ post) pre.length).2).2
      else (stdCopy rhs (pre ++ lhs ++ post) pre.length).1) = pre ++ rhs ++ post := by
  have hsplit : pre ++ lhs ++ post
      = pre ++ lhs.take rhs.length ++ (lhs.drop rhs.length ++ post) := by
    conv_lhs => rw [← List.take_append_drop rhs.length lhs]
    simp only [List.append_assoc]
  have htake : (lhs.take rhs.length).length = rhs.length := by
    simp [List.length_take, h]
  have hcopy : stdCopy rhs (pre ++ lhs ++ post) pre.length
      = (pre ++ rhs ++ (lhs.drop rhs.length ++ post), pre.length + rhs.length) := by
    rw [hsplit]
    exact stdCopy_spec rhs pre _ _ htake
  rw [hcopy]
  simp only
  by_cases heq : rhs.length = lhs.length
  · have hdrop : lhs.drop rhs.length = [] := by simp [heq]
    simp [heq]
  · have hne : pre.length + rhs.length ≠ pre.length + lhs.length := by omega
    rw [if_pos hne]
    obtain ⟨X, hX, hmove⟩ := stdCopyWithin_spec post (pre ++ rhs) (lhs.drop rhs.length)
    have hn : (pre ++ rhs ++ (lhs.drop rhs.length ++ post)).length - (pre.length + lhs.length)
        = post.length := by
      simp only [List.length_append, List.length_drop]
      omega
    have hbuf : pre ++ rhs ++ (lhs.drop rhs.length ++ post)
        = pre ++ rhs ++ lhs.drop rhs.length ++ post := by simp
    have hfirst : pre.length + lhs.length
        = (pre ++ rhs).length + (lhs.drop rhs.length).length := by
      simp only [List.length_append, List.length_drop]
      omega
    have hd : pre.length + rhs.length = (pre ++ rhs).length := by simp
    rw [hn, hbuf, hfirst, hd, hmove]
    exact List.take_left' (by simp only [List.length_append])

/-! ## What `rewriteSubTerm` computes -/

/-- When `findSubTerm` reports absence, `rewriteSubTerm` returns false and
hands the term back as it was. -/
theorem rewriteSubTerm_of_absent (t lhs rhs : MutableTerm)
    (h : t.findSubTerm lhs = t.size) :
    t.rewriteSubTerm lhs rhs = Except.ok (false, t) := by
  simp [MutableTerm.rewriteSubTerm, h]

/-- When `findSubTerm` reports the index `pre.length` inside the term
`pre ++ lhs ++ post`, `rewriteSubTerm` returns true with `pre ++ rhs ++ post`. -/
theorem rewriteSubTerm_splice (pre lhs post rhs : List Symbol)
    (hfound : MutableTerm.findSubTerm ⟨pre ++ lhs ++ post⟩ ⟨lhs⟩ = pre.length)
    (hne : pre.length ≠ (pre ++ lhs ++ post).length) (h : rhs.length ≤ lhs.length) :
    MutableTerm.rewriteSubTerm ⟨pre ++ lhs ++ post⟩ ⟨lhs⟩ ⟨rhs⟩
      = Except.ok (true, ⟨pre ++ rhs ++ post⟩) := by
  have hsz : (pre ++ rhs ++ post).length
      = (pre ++ lhs ++ post).length - lhs.length + rhs.length := by
    simp only [List.length_append]
    omega
  unfold MutableTerm.rewriteSubTerm
  simp only [hfound, MutableTerm.size, if_neg hne, not_le.symm, h, not_true_eq_false,
    if_false, not_not]
  rw [splice_spec pre lhs post rhs h, if_pos hsz]

/-- An index reported by `findSubTerm` that is not `size` splits the term
around the occurrence. -/
theorem found_decomp (t lhs : MutableTerm) (hfound : t.findSubTerm lhs ≠ t.size) :
    t.Symbols = t.Symbols.take (t.findSubTerm lhs) ++ lhs.Symbols
      ++ t.Symbols.drop (t.findSubTerm lhs + lhs.size) ∧
    t.findSubTerm lhs < t.size ∧
    t.findSubTerm lhs + lhs.size ≤ t.size ∧
    ∀ j, j < t.findSubTerm lhs → ¬ lhs.Symbols <+: t.Symbols.drop j := by
  rcases findSubTerm_spec t lhs with ⟨hlt, hpre, hmin⟩ | ⟨heq, _⟩
  · obtain ⟨rest, hrest⟩ := hpre
    have hdrop : t.Symbols.drop (t.findSubTerm lhs + lhs.size) = rest := by
      rw [← List.drop_drop, ← hrest]
      simp [MutableTerm.size]
    have hlen : (t.Symbols.drop (t.findSubTerm lhs)).length = lhs.size + rest.length := by
      rw [← hrest]; simp [MutableTerm.size]
    refine ⟨?_, hlt, ?_, hmin⟩
    · rw [hdrop, List.append_assoc, hrest, List.take_append_drop]
    · simp only [List.length_drop] at hlen
      simp only [MutableTerm.size] at hlt hlen ⊢
      omega
  · exact absurd heq hfound

/-- The successful path of `rewriteSubTerm`, in terms of the index found. -/
theorem rewriteSubTerm_of_found (t lhs rhs : MutableTerm)
    (hfound : t.findSubTerm lhs ≠ t.size) (h : rhs.size ≤ lhs.size) :
    t.rewriteSubTerm lhs rhs = Except.ok (true,
      ⟨t.Symbols.take (t.findSubTerm lhs) ++ rhs.Symbols
        ++ t.Symbols.drop (t.findSubTerm lhs + lhs.size)⟩) := by
  obtain ⟨hdec, hlt, _, _⟩ := found_decomp t lhs hfound
  have hprelen : (t.Symbols.take (t.findSubTerm lhs)).length = t.findSubTerm lhs := by
    simp only [List.length_take, MutableTerm.size] at hlt ⊢
    omega
  have ht : t = ⟨t.Symbols.take (t.findSubTerm lhs) ++ lhs.Symbols
      ++ t.Symbols.drop (t.findSubTerm lhs + lhs.size)⟩ := by
    cases t; simp only [MutableTerm.mk.injEq]; exact hdec
  have key := rewriteSubTerm_splice (t.Symbols.take (t.findSubTerm lhs)) lhs.Symbols
    (t.Symbols.drop (t.findSubTerm lhs + lhs.size)) rhs.Symbols
    (by rw [← ht, hprelen]) (by rw [← hdec, hprelen]; exact hfound) h
  rw [← ht] at key
  exact key

/-! ## Occurrences -/

theorem matchesAt_iff_prefix_drop (t p : MutableTerm) (i : Nat) :
    MatchesAt t p i ↔ p.Symbols <+: t.Symbols.drop i := by
  rw [List.isPrefix_iff]
  unfold MatchesAt MutableTerm.size
  constructor
  · intro h k hk
    rw [List.getElem?_drop, h k hk, List.getElem?_eq_getElem hk]
  · intro h k hk
    rw [← List.getElem?_drop, h k hk, List.getElem?_eq_getElem hk]

theorem prefix_drop_of_decomp {l pre pat post : List Symbol} (h : l = pre ++ pat ++ post) :
    pat <+: l.drop pre.length := by
  subst h
  rw [List.append_assoc, List.drop_left]
  exact List.prefix_append _ _

theorem infix_of_prefix_drop {l pat : List Symbol} {j : Nat} (h : pat <+: l.drop j) :
    pat <:+: l := by
  obtain ⟨rest, hrest⟩ := h
  exact ⟨l.take j, rest, by rw [List.append_assoc, hrest, List.take_append_drop]⟩

/-- The pattern does not occur exactly when `findSubTerm` returns `size`,
except that the empty pattern in the empty term also yields `size`. -/
theorem findSubTerm_eq_size_iff (t p : MutableTerm) :
    t.findSubTerm p = t.size ↔
      ¬ p.Symbols <:+: t.Symbols ∨ (t.Symbols = [] ∧ p.Symbols = []) := by
  constructor
  · intro heq
    rcases findSubTerm_spec t p with ⟨hlt, _, _⟩ | ⟨_, hnone⟩
    · omega
    · by_cases hocc : p.Symbols <:+: t.Symbols
      · right
        obtain ⟨pre, post, hdec⟩ := hocc
        have hpre := prefix_drop_of_decomp hdec.symm
        have hge : t.size ≤ pre.length := by
          by_contra hlt
          exact hnone pre.length (by omega) hpre
        have hlen : t.size = pre.length + p.Symbols.length + post.length := by
          simp only [MutableTerm.size, ← hdec, List.length_append]
        have hp : p.Symbols = [] := List.length_eq_zero.1 (by omega)
        refine ⟨?_, hp⟩
        by_contra hne
        have hpos : 0 < t.size := List.length_pos.2 hne
        exact hnone 0 hpos (by rw [hp]; exact List.nil_prefix)
      · left; exact hocc
  · rintro (hno | ⟨ht, hp⟩)
    · by_contra hne
      exact hno ⟨_, _, (found_decomp t p hne).1.symm⟩
    · simp [MutableTerm.findSubTerm, MutableTerm.size, ht, hp, stdSearch, searchScan]

/-- A decomposition around the first occurrence pins down what `findSubTerm`
returns on a non-empty term. -/
theorem findSubTerm_of_first_decomp (t lhs : MutableTerm) (pre post : List Symbol)
    (hocc : t.Symbols = pre ++ lhs.Symbols ++ post)
    (hfirst : ∀ pre' post', t.Symbols = pre' ++ lhs.Symbols ++ post' →
      pre.length ≤ pre'.length)
    (hne : t.Symbols ≠ []) :
    t.findSubTerm lhs = pre.length ∧ t.findSubTerm lhs ≠ t.size := by
  have hfs : t.findSubTerm lhs ≠ t.size := by
    intro heq
    rcases (findSubTerm_eq_size_iff t lhs).1 heq with hno | ⟨ht, _⟩
    · exact hno ⟨pre, post, hocc.symm⟩
    · exact hne ht
  obtain ⟨hdec, hlt, _, hmin⟩ := found_decomp t lhs hfs
  refine ⟨?_, hfs⟩
  have h1 := hfirst _ _ hdec
  have h2 : t.findSubTerm lhs ≤ pre.length := by
    by_contra hcon
    exact hmin pre.length (by omega) (prefix_drop_of_decomp hocc)
  simp only [List.length_take, MutableTerm.size] at h1 hlt
  omega

/-- Rewriting a non-empty term at the first occurrence of `lhs`. -/
theorem rewriteSubTerm_first_decomp (t lhs rhs : MutableTerm) (pre post : List Symbol)
    (hlen : rhs.size ≤ lhs.size)
    (hocc : t.Symbols = pre ++ lhs.Symbols ++ post)
    (hfirst : ∀ pre' post', t.Symbols = pre' ++ lhs.Symbols ++ post' →
      pre.length ≤ pre'.length)
    (hne : t.Symbols ≠ []) :
    t.rewriteSubTerm lhs rhs = Except.ok (true, ⟨pre ++ rhs.Symbols ++ post⟩) := by
  obtain ⟨hidx, hfs⟩ := findSubTerm_of_first_decomp t lhs pre post hocc hfirst hne
  cases t with
  | mk ts =>
    cases lhs with
    | mk ls =>
      cases rhs with
      | mk rs =>
        simp only at hocc
        subst hocc
        exact rewriteSubTerm_splice pre ls post rs hidx (by rw [← hidx]; exact hfs) hlen

/-- The empty term is handed back unchanged with result false. -/
theorem rewriteSubTerm_nil (lhs rhs : MutableTerm) :
    MutableTerm.rewriteSubTerm ⟨[]⟩ lhs rhs = Except.ok (false, ⟨[]⟩) := by
  apply rewriteSubTerm_of_absent
  rcases findSubTerm_spec ⟨[]⟩ lhs with ⟨hlt, _, _⟩ | ⟨heq, _⟩
  · simp [MutableTerm.size] at hlt
  · exact heq

/-! ## Claims about `rewriteSubTerm` and `findSubTerm` -/

/-- C2: if `lhs` does not occur in `t` as a contiguous subsequence, then
whatever the lengths `rewriteSubTerm(t, lhs, rhs)` returns false and `t` is
what it was before the call. -/
theorem rewriteSubTerm_absent_unchanged (t lhs rhs : MutableTerm)
    (habsent : ¬ lhs.Symbols <:+: t.Symbols) :
    t.rewriteSubTerm lhs rhs = Except.ok (false, t) :=
  rewriteSubTerm_of_absent t lhs rhs ((findSubTerm_eq_size_iff t lhs).2 (Or.inl habsent))

/-- Witness for C2: `B` does not occur in `T.A`. -/
theorem rewriteSubTerm_absent_unchanged_witness :
    MutableTerm.rewriteSubTerm ⟨[.GenericParam 0, .Name "A"]⟩ ⟨[.Name "B"]⟩
        ⟨[.Name "X", .Name "Y"]⟩
      = Except.ok (false, ⟨[.GenericParam 0, .Name "A"]⟩) :=
  rewriteSubTerm_absent_unchanged ⟨[.GenericParam 0, .Name "A"]⟩ ⟨[.Name "B"]⟩
    ⟨[.Name "X", .Name "Y"]⟩ (by decide)

/-- For `lhs` and `rhs` objects other than the term, with `len(rhs) ≤ len(lhs)`:
the call fails no assertion, and whenever it returns true the new length is
the old length minus `len(lhs)` plus `len(rhs)`, the subtraction being exact
(`len(lhs) ≤` old length). -/
theorem rewriteSubTerm_size_objects (t lhs rhs : MutableTerm) (hlen : rhs.size ≤ lhs.size) :
    (∃ r, t.rewriteSubTerm lhs rhs = Except.ok r) ∧
    ∀ t', t.rewriteSubTerm lhs rhs = Except.ok (true, t') →
      lhs.size ≤ t.size ∧ t'.size = t.size - lhs.size + rhs.size := by
  by_cases hfound : t.findSubTerm lhs = t.size
  · rw [rewriteSubTerm_of_absent t lhs rhs hfound]
    refine ⟨⟨_, rfl⟩, ?_⟩
    intro t' h
    simp at h
  · rw [rewriteSubTerm_of_found t lhs rhs hfound hlen]
    refine ⟨⟨_, rfl⟩, ?_⟩
    intro t' h
    obtain ⟨_, hlt, hle, _⟩ := found_decomp t lhs hfound
    simp only [Except.ok.injEq, Prod.mk.injEq, true_and] at h
    subst h
    simp only [MutableTerm.size, List.length_append, List.length_take, List.length_drop]
      at hlt hle hlen ⊢
    omega

/-- C5: on `[A,B,A,B]` with `lhs = [A,B]` and `rhs = [X]` the call returns true
with `[X,A,B]`, which is not `[X,X]` as soon as `A ≠ X` (so in particular for
pairwise distinct `A`, `B`, `X`); and in general, when `lhs` occurs again in
the part `post` after the first occurrence, one call yields
`pre ++ rhs ++ post` with `post`, and so that later occurrence, left in place. -/
theorem rewriteSubTerm_first_occurrence_only (A B X : Symbol) (hAX : A ≠ X) :
    (MutableTerm.rewriteSubTerm ⟨[A, B, A, B]⟩ ⟨[A, B]⟩ ⟨[X]⟩
        = Except.ok (true, ⟨[X, A, B]⟩) ∧
      (⟨[X, A, B]⟩ : MutableTerm) ≠ ⟨[X, X]⟩) ∧
    ∀ (t lhs rhs : MutableTerm) (pre post : List Symbol),
      rhs.size ≤ lhs.size →
      t.Symbols = pre ++ lhs.Symbols ++ post →
      (∀ pre' post', t.Symbols = pre' ++ lhs.Symbols ++ post' →
        pre.length ≤ pre'.length) →
      t.Symbols ≠ [] →
      lhs.Symbols <:+: post →
      ∃ t', t.rewriteSubTerm lhs rhs = Except.ok (true, t') ∧
        t'.Symbols = pre ++ rhs.Symbols ++ post ∧
        t'.Symbols.drop (pre.length + rhs.size) = post ∧
        lhs.Symbols <:+: t'.Symbols.drop (pre.length + rhs.size) := by
  refine ⟨⟨?_, ?_⟩, ?_⟩
  · exact rewriteSubTerm_first_decomp ⟨[A, B, A, B]⟩ ⟨[A, B]⟩ ⟨[X]⟩ [] [A, B]
      (by simp [MutableTerm.size]) rfl (fun _ _ _ => Nat.zero_le _) (by simp)
  · intro h
    simp only [MutableTerm.mk.injEq, List.cons.injEq, and_true, true_and] at h
    exact hAX h.1
  · intro t lhs rhs pre post hlen hocc hfirst hne hagain
    have hdrop : (pre ++ rhs.Symbols ++ post).drop (pre.length + rhs.size) = post := by
      rw [show pre.length + rhs.size = (pre ++ rhs.Symbols).length by
        simp [MutableTerm.size]]
      exact List.drop_left _ _
    refine ⟨_, rewriteSubTerm_first_decomp t lhs rhs pre post hlen hocc hfirst hne,
      rfl, hdrop, ?_⟩
    rw [hdrop]
    exact hagain

/-- Witness for C5 with `A = Name "A"`, `B = Name "B"`, `X = Name "X"`. -/
theorem rewriteSubTerm_first_occurrence_only_witness :
    MutableTerm.rewriteSubTerm
        ⟨[.Name "A", .Name "B", .Name "A", .Name "B"]⟩ ⟨[.Name "A", .Name "B"]⟩ ⟨[.Name "X"]⟩
      = Except.ok (true, ⟨[.Name "X", .Name "A", .Name "B"]⟩) :=
  (rewriteSubTerm_first_occurrence_only (.Name "A") (.Name "B") (.Name "X")
    (by decide)).1.1

/-- C10: whenever `findSubTerm(t, p)` returns a position other than the end
sentinel `size`, `p` matches `t` symbol by symbol at that position and at no
smaller one. -/
theorem findSubTerm_first_match (t p : MutableTerm) (i : Nat)
    (hret : t.findSubTerm p = i) (hfound : i ≠ t.size) :
    i < t.size ∧ MatchesAt t p i ∧ ∀ j, j < i → ¬ MatchesAt t p j := by
  subst hret
  obtain ⟨hdec, hlt, _, hmin⟩ := found_decomp t p hfound
  refine ⟨hlt, ?_, ?_⟩
  · rcases findSubTerm_spec t p with ⟨_, hpre, _⟩ | ⟨heq, _⟩
    · exact (matchesAt_iff_prefix_drop t p _).2 hpre
    · exact absurd heq hfound
  · intro j hj hm
    exact hmin j hj ((matchesAt_iff_prefix_drop t p j).1 hm)

/-- Witness for C10: `A.B` is found in `T.A.B.C` at index 1. -/
theorem findSubTerm_first_match_witness :
    1 < 4 ∧
    MatchesAt ⟨[.GenericParam 0, .Name "A", .Name "B", .Name "C"]⟩
      ⟨[.Name "A", .Name "B"]⟩ 1 ∧
    ∀ j, j < 1 → ¬ MatchesAt ⟨[.GenericParam 0, .Name "A", .Name "B", .Name "C"]⟩
      ⟨[.Name "A", .Name "B"]⟩ j :=
  findSubTerm_first_match ⟨[.GenericParam 0, .Name "A", .Name "B", .Name "C"]⟩
    ⟨[.Name "A", .Name "B"]⟩ 1 (by decide) (by decide)

/-! ## `compare` and rewriting -/

theorem compareLoop_self (symCompare : SymbolCompare) (graph : ProtocolGraph)
    (hrefl : ∀ a, symCompare a a graph = 0) :
    ∀ l : List Symbol, compareLoop symCompare graph l l = Except.ok 0
  | [] => rfl
  | x :: l => by
    simp [compareLoop, hrefl x, compareLoop_self symCompare graph hrefl l]

theorem compareLoop_append_left (symCompare : SymbolCompare) (graph : ProtocolGraph)
    (hrefl : ∀ a, symCompare a a graph = 0) (a b : List Symbol) :
    ∀ pre : List Symbol,
      compareLoop symCompare graph (pre ++ a) (pre ++ b) = compareLoop symCompare graph a b
  | [] => rfl
  | x :: pre => by
    simp [compareLoop, hrefl x, compareLoop_append_left symCompare graph hrefl a b pre]

theorem compareLoop_append_right (symCompare : SymbolCompare) (graph : ProtocolGraph)
    (hrefl : ∀ a, symCompare a a graph = 0) (post : List Symbol) :
    ∀ a b : List Symbol, a.length = b.length →
      compareLoop symCompare graph (a ++ post) (b ++ post) = compareLoop symCompare graph a b
  | [], [], _ => by
    simpa [compareLoop] using compareLoop_self symCompare graph hrefl post
  | [], _ :: _, h => by simp at h
  | _ :: _, [], h => by simp at h
  | x :: a, y :: b, h => by
    have hab : a.length = b.length := by simpa using h
    have ih := compareLoop_append_right symCompare graph hrefl post a b hab
    rw [List.cons_append, List.cons_append]
    simp only [compareLoop, ih]

/-- What a call of `rewriteSubTerm` that returned true did. -/
theorem rewriteSubTerm_true_inv (t lhs rhs t' : MutableTerm)
    (hrw : t.rewriteSubTerm lhs rhs = Except.ok (true, t')) :
    rhs.size ≤ lhs.size ∧ ∃ pre post, t.Symbols = pre ++ lhs.Symbols ++ post ∧
      t'.Symbols = pre ++ rhs.Symbols ++ post := by
  by_cases hfound : t.findSubTerm lhs = t.size
  · rw [rewriteSubTerm_of_absent t lhs rhs hfound] at hrw
    simp at hrw
  · by_cases hlen : rhs.size ≤ lhs.size
    · rw [rewriteSubTerm_of_found t lhs rhs hfound hlen] at hrw
      simp only [Except.ok.injEq, Prod.mk.injEq, true_and] at hrw
      subst hrw
      exact ⟨hlen, _, _, (found_decomp t lhs hfound).1, rfl⟩
    · simp [MutableTerm.rewriteSubTerm, hfound, hlen] at hrw

/-- How the term after a successful rewrite compares with the term before:
shorter when the rule shrinks, and as `rhs` compares with `lhs` when the two
sides have the same size. -/
theorem compare_after_rewrite (symCompare : SymbolCompare) (graph : ProtocolGraph)
    (hrefl : ∀ a, symCompare a a graph = 0) (t lhs rhs t' : MutableTerm)
    (hrw : t.rewriteSubTerm lhs rhs = Except.ok (true, t')) :
    (rhs.size < lhs.size → MutableTerm.compare symCompare t' t graph = Except.ok (-1)) ∧
    (rhs.size = lhs.size → MutableTerm.compare symCompare t' t graph
      = MutableTerm.compare symCompare rhs lhs graph) := by
  obtain ⟨_, pre, post, ht, ht'⟩ := rewriteSubTerm_true_inv t lhs rhs t' hrw
  constructor
  · intro hlt
    have hsz : t'.size < t.size := by
      simp only [MutableTerm.size, ht, ht', List.length_append] at hlt ⊢
      omega
    simp [MutableTerm.compare, Nat.ne_of_lt hsz, hsz]
  · intro heq
    have hsz : t'.size = t.size := by
      simp only [MutableTerm.size, ht, ht', List.length_append] at heq ⊢
      omega
    simp only [MutableTerm.compare, hsz, heq, ne_eq, not_true_eq_false, if_false, ht, ht']
    rw [List.append_assoc, List.append_assoc pre,
      compareLoop_append_left symCompare graph hrefl,
      compareLoop_append_right symCompare graph hrefl post _ _ heq]

/-- C7: if the symbol comparator returns 0 exactly on identical symbols and
`compare(rhs, lhs) ≤ 0`, then whenever `rewriteSubTerm(t, lhs, rhs)` returns
true, `compare(result, t)` returns a value `≤ 0`. -/
theorem rewriteSubTerm_not_increasing (symCompare : SymbolCompare) (graph : ProtocolGraph)
    (t lhs rhs t' : MutableTerm) (c : Int)
    (hcmp : ∀ a b, symCompare a b graph = 0 ↔ a = b)
    (horient : MutableTerm.compare symCompare rhs lhs graph = Except.ok c) (hc : c ≤ 0)
    (hrw : t.rewriteSubTerm lhs rhs = Except.ok (true, t')) :
    ∃ c', MutableTerm.compare symCompare t' t graph = Except.ok c' ∧ c' ≤ 0 := by
  have hrefl : ∀ a, symCompare a a graph = 0 := fun a => (hcmp a a).2 rfl
  obtain ⟨hshrink, hsame⟩ := compare_after_rewrite symCompare graph hrefl t lhs rhs t' hrw
  obtain ⟨hlen, _⟩ := rewriteSubTerm_true_inv t lhs rhs t' hrw
  rcases Nat.lt_or_eq_of_le hlen with hlt | heq
  · exact ⟨-1, hshrink hlt, by decide⟩
  · exact ⟨c, by rw [hsame heq, horient], hc⟩

/-! ## The sample comparators are strict total orders -/

theorem encodeNats_injective : ∀ l₁ l₂ : List Nat, encodeNats l₁ = encodeNats l₂ → l₁ = l₂
  | [], [], _ => rfl
  | [], _ :: _, h => by simp [encodeNats] at h
  | _ :: _, [], h => by simp [encodeNats] at h
  | a :: l₁, b :: l₂, h => by
    simp only [encodeNats, Nat.add_right_cancel_iff, Nat.pair_eq_pair] at h
    rw [h.1, encodeNats_injective l₁ l₂ h.2]

theorem encodeName_injective (s₁ s₂ : String) (h : encodeName s₁ = encodeName s₂) :
    s₁ = s₂ := by
  have hmap := encodeNats_injective _ _ h
  have hinj : Function.Injective Char.toNat := by
    intro c d hcd
    rw [← Char.ofNat_toNat c, ← Char.ofNat_toNat d, hcd]
  have hdata : s₁.data = s₂.data := List.map_injective_iff.2 hinj hmap
  cases s₁
  cases s₂
  simp only at hdata
  rw [hdata]

theorem rank_injective (a b : Symbol) (h : a.rank = b.rank) : a = b := by
  cases a <;> cases b <;> simp only [Symbol.rank, Nat.pair_eq_pair] at h <;>
    first
    | (obtain ⟨h0, _⟩ := h; exact absurd h0 (by decide))
    | (obtain ⟨_, h1⟩ := h; subst h1; rfl)
    | skip
  · rename_i p₁ n₁ p₂ n₂
    obtain ⟨_, hp, hn⟩ := h
    rw [encodeNats_injective _ _ hp, encodeName_injective _ _ hn]
  · rename_i n₁ n₂
    rw [encodeName_injective _ _ h.2]

theorem descendingRank_injective (a b : Symbol)
    (h : a.descendingRank = b.descendingRank) : a = b := by
  cases a <;> cases b <;> simp only [Symbol.descendingRank] at h <;>
    first
    | (exact rank_injective _ _ (by exact_mod_cast h))
    | (exfalso; omega)
    | (congr 1; omega)

theorem compareByRank_eq_zero_iff (rank : Symbol → Int)
    (hinj : ∀ a b, rank a = rank b → a = b) (graph : ProtocolGraph) (a b : Symbol) :
    compareByRank rank a b graph = 0 ↔ a = b := by
  unfold compareByRank
  constructor
  · intro h
    apply hinj
    split_ifs at h <;> omega
  · rintro rfl
    simp

theorem compareByRank_neg_iff (rank : Symbol → Int) (graph : ProtocolGraph) (a b : Symbol) :
    compareByRank rank a b graph < 0 ↔ rank a < rank b := by
  unfold compareByRank
  split_ifs <;> simp_all

theorem compareByRank_antisymm (rank : Symbol → Int) (graph : ProtocolGraph) (a b : Symbol) :
    compareByRank rank a b graph < 0 ↔ 0 < compareByRank rank b a graph := by
  unfold compareByRank
  split_ifs <;> omega

theorem compareByRank_trans (rank : Symbol → Int) (graph : ProtocolGraph) (a b c : Symbol)
    (hab : compareByRank rank a b graph < 0) (hbc : compareByRank rank b c graph < 0) :
    compareByRank rank a c graph < 0 := by
  rw [compareByRank_neg_iff] at hab hbc ⊢
  omega

theorem sampleCompare_eq_zero_iff (graph : ProtocolGraph) (a b : Symbol) :
    sampleCompare a b graph = 0 ↔ a = b :=
  compareByRank_eq_zero_iff _
    (fun a b h => rank_injective a b (by exact_mod_cast h)) graph a b

theorem descendingCompare_eq_zero_iff (graph : ProtocolGraph) (a b : Symbol) :
    descendingCompare a b graph = 0 ↔ a = b :=
  compareByRank_eq_zero_iff _ descendingRank_injective graph a b

theorem sampleCompare_wellFounded (graph : ProtocolGraph) :
    WellFounded (fun a b => sampleCompare a b graph < 0) := by
  have hsub : Subrelation (fun a b => sampleCompare a b graph < 0)
      (InvImage (· < ·) Symbol.rank) := by
    intro a b h
    have := (compareByRank_neg_iff _ graph a b).1 h
    simpa [InvImage] using this
  exact hsub.wf (InvImage.wf _ Nat.lt_wfRel.wf)

/-- Witness for C7: under the sample comparator the rule `A.B => X` takes
`T.A.B.C` to `T.X.C`, which does not compare above `T.A.B.C`. -/
theorem rewriteSubTerm_not_increasing_witness :
    ∃ c', MutableTerm.compare sampleCompare ⟨[.GenericParam 0, .Name "X", .Name "C"]⟩
        ⟨[.GenericParam 0, .Name "A", .Name "B", .Name "C"]⟩ sampleGraph = Except.ok c'
      ∧ c' ≤ 0 :=
  rewriteSubTerm_not_increasing sampleCompare sampleGraph
    ⟨[.GenericParam 0, .Name "A", .Name "B", .Name "C"]⟩
    ⟨[.Name "A", .Name "B"]⟩ ⟨[.Name "X"]⟩ ⟨[.GenericParam 0, .Name "X", .Name "C"]⟩ (-1)
    (sampleCompare_eq_zero_iff sampleGraph) rfl (by decide) rfl

/-! ## Well-foundedness of the canonical order -/

/-- Lexicographic order on symbol lists of one length. -/
theorem sameLengthLex_acc (r : Symbol → Symbol → Prop) (hwf : WellFounded r) :
    ∀ (n : Nat) (l : List Symbol), l.length = n →
      Acc (fun l' l => l'.length = l.length ∧ List.Lex r l' l) l := by
  intro n
  induction n with
  | zero =>
    intro l hl
    have : l = [] := List.length_eq_zero.1 hl
    subst this
    exact Acc.intro _ (fun l' h => absurd h.2 (List.Lex.not_nil_right r l'))
  | succ n ih =>
    have key : ∀ a : Symbol, ∀ l0 : List Symbol,
        Acc (fun l' l => l'.length = l.length ∧ List.Lex r l' l) l0 → l0.length = n →
        Acc (fun l' l => l'.length = l.length ∧ List.Lex r l' l) (a :: l0) := by
      intro a
      induction a using hwf.induction with
      | _ a iha =>
        intro l0 hacc
        induction hacc with
        | intro l0 _ ihl =>
          intro hl0
          refine Acc.intro _ ?_
          rintro l' ⟨hlen, hlex⟩
          cases hlex with
          | nil => simp at hlen
          | cons h =>
            rename_i l1
            have hl1 : l1.length = l0.length := by simpa using hlen
            exact ihl l1 ⟨hl1, h⟩ (by omega)
          | rel h =>
            rename_i b l1
            have hl1 : l1.length = n := by
              simp only [List.length_cons] at hlen
              omega
            exact iha b h l1 (ih l1 hl1) hl1
    intro l hl
    cases l with
    | nil => simp at hl
    | cons a l0 =>
      have hl0 : l0.length = n := by simpa using hl
      exact key a l0 (ih l0 hl0) hl0

/-- A negative result of the loop of `compare` on lists of one length means
that the first is lexicographically below the second. -/
theorem compareLoop_neg_lex (symCompare : SymbolCompare) (graph : ProtocolGraph) (c : Int)
    (hc : c < 0) : ∀ a b : List Symbol, a.length = b.length →
      compareLoop symCompare graph a b = Except.ok c →
      List.Lex (fun x y => symCompare x y graph < 0) a b
  | [], [], _, h => by
    simp only [compareLoop, Except.ok.injEq] at h
    omega
  | [], _ :: _, hlen, _ => by simp at hlen
  | _ :: _, [], hlen, _ => by simp at hlen
  | x :: a, y :: b, hlen, h => by
    have hab : a.length = b.length := by simpa using hlen
    simp only [compareLoop] at h
    split_ifs at h with h1 h2 h3
    · simp only [Except.ok.injEq] at h
      exact List.Lex.rel (by rw [h]; exact hc)
    · subst h3
      exact List.Lex.cons (compareLoop_neg_lex symCompare graph c hc a b hab h)

/-- The shortlex order on terms is well-founded as soon as the relation on
symbols is. -/
theorem shortlex_wellFounded (r : Symbol → Symbol → Prop) (hwf : WellFounded r) :
    WellFounded (Shortlex r) := by
  have hlex : WellFounded (fun (l' l : List Symbol) =>
      l'.length = l.length ∧ List.Lex r l' l) :=
    ⟨fun l => sameLengthLex_acc _ hwf l.length l rfl⟩
  have hprod := (Prod.lex Nat.lt_wfRel ⟨_, hlex⟩).wf
  refine Subrelation.wf ?_ (InvImage.wf (fun t : MutableTerm => (t.size, t.Symbols)) hprod)
  rintro a b (hlt | ⟨hsz, hl⟩)
  · exact Prod.Lex.left _ _ hlt
  · show Prod.Lex _ _ (a.size, a.Symbols) (b.size, b.Symbols)
    rw [hsz]
    exact Prod.Lex.right _ ⟨hsz, hl⟩

/-- A negative result of `compare` puts the first term below the second in
the shortlex order induced by the comparator. -/
theorem shortlex_of_termLt (symCompare : SymbolCompare) (graph : ProtocolGraph)
    (a b : MutableTerm) (h : TermLt symCompare graph a b) :
    Shortlex (fun x y => symCompare x y graph < 0) a b := by
  obtain ⟨c, hcmp, hc⟩ := h
  unfold MutableTerm.compare at hcmp
  by_cases hsz : a.size = b.size
  · simp only [hsz, ne_eq, not_true_eq_false, if_false] at hcmp
    exact Or.inr ⟨hsz, compareLoop_neg_lex symCompare graph c hc a.Symbols b.Symbols hsz hcmp⟩
  · simp only [ne_eq, hsz, not_false_eq_true, if_true, Except.ok.injEq] at hcmp
    left
    by_contra hge
    rw [if_neg hge] at hcmp
    omega

/-- The strict canonical order on terms is well-founded as soon as the strict
order of the symbol comparator is. -/
theorem termLt_wellFounded (symCompare : SymbolCompare) (graph : ProtocolGraph)
    (hwf : WellFounded (fun a b => symCompare a b graph < 0)) :
    WellFounded (TermLt symCompare graph) :=
  Subrelation.wf (fun {a b} h => shortlex_of_termLt symCompare graph a b h)
    (shortlex_wellFounded _ hwf)

theorem lex_append_left (r : Symbol → Symbol → Prop) {a b : List Symbol}
    (h : List.Lex r a b) : ∀ pre : List Symbol, List.Lex r (pre ++ a) (pre ++ b)
  | [] => h
  | _ :: pre => List.Lex.cons (lex_append_left r h pre)

theorem lex_append_right (r : Symbol → Symbol → Prop) (post : List Symbol) :
    ∀ a b : List Symbol, a.length = b.length → List.Lex r a b →
      List.Lex r (a ++ post) (b ++ post)
  | [], [], _, h => absurd h (List.Lex.not_nil_right r [])
  | [], _ :: _, hlen, _ => by simp at hlen
  | _ :: _, [], hlen, _ => by simp at hlen
  | x :: a, y :: b, hlen, h => by
    have hab : a.length = b.length := by simpa using hlen
    cases h with
    | cons h' => exact List.Lex.cons (lex_append_right r post a b hab h')
    | rel h' => exact List.Lex.rel h'

/-- A successful rewrite by a strictly oriented rule takes the term down in
the shortlex order induced by the comparator. -/
theorem shortlex_of_rewrite (symCompare : SymbolCompare) (graph : ProtocolGraph)
    (t lhs rhs t' : MutableTerm) (horient : TermLt symCompare graph rhs lhs)
    (hrw : t.rewriteSubTerm lhs rhs = Except.ok (true, t')) :
    Shortlex (fun x y => symCompare x y graph < 0) t' t := by
  obtain ⟨hlen, pre, post, ht, ht'⟩ := rewriteSubTerm_true_inv t lhs rhs t' hrw
  rcases shortlex_of_termLt symCompare graph rhs lhs horient with hlt | ⟨hsz, hlex⟩
  · left
    simp only [MutableTerm.size, ht, ht', List.length_append] at hlt ⊢
    omega
  · right
    refine ⟨?_, ?_⟩
    · simp only [MutableTerm.size, ht, ht', List.length_append] at hsz ⊢
      omega
    · rw [ht, ht', List.append_assoc, List.append_assoc pre]
      exact lex_append_left _ (lex_append_right _ post _ _ hsz hlex) pre

/-- A successful rewrite by a strictly oriented rule takes the term strictly
down in the canonical order. -/
theorem termLt_of_rewrite (symCompare : SymbolCompare) (graph : ProtocolGraph)
    (hrefl : ∀ a, symCompare a a graph = 0) (t lhs rhs t' : MutableTerm)
    (horient : TermLt symCompare graph rhs lhs)
    (hrw : t.rewriteSubTerm lhs rhs = Except.ok (true, t')) :
    TermLt symCompare graph t' t := by
  obtain ⟨hshrink, hsame⟩ := compare_after_rewrite symCompare graph hrefl t lhs rhs t' hrw
  obtain ⟨hlen, _⟩ := rewriteSubTerm_true_inv t lhs rhs t' hrw
  rcases Nat.lt_or_eq_of_le hlen with hlt | heq
  · exact ⟨-1, hshrink hlt, by decide⟩
  · obtain ⟨c, hcmp, hc⟩ := horient
    exact ⟨c, by rw [hsame heq, hcmp], hc⟩

/-! ## Chains of rewrites -/

/-- C8 (counterexample): orientation `rhs ≤ lhs` does not bound the number of
rewrites.  Under the sample comparator, a well-founded strict total order,
the rule `[GenericParam 0] => [GenericParam 0]` has `compare(rhs, lhs) = 0`
and rewrites the term `[GenericParam 0]` to itself for ever.  And strict
orientation alone does not help when the symbol order is not well-founded:
under the descending comparator, a strict total order too, every rule
`[GenericParam n] => [GenericParam (n + 1)]` has `compare(rhs, lhs) < 0` and
these rules chain for ever from `[GenericParam 0]`. -/
theorem rewrite_chain_not_finite :
    ((∀ a b, sampleCompare a b sampleGraph = 0 ↔ a = b) ∧
      WellFounded (fun a b => sampleCompare a b sampleGraph < 0) ∧
      IsRewriteChain (fun _ => ⟨[.GenericParam 0]⟩)
        (fun _ => (⟨[.GenericParam 0]⟩, ⟨[.GenericParam 0]⟩)) ∧
      Oriented sampleCompare sampleGraph (⟨[.GenericParam 0]⟩, ⟨[.GenericParam 0]⟩)) ∧
    ((∀ a b, descendingCompare a b sampleGraph = 0 ↔ a = b) ∧
      (∀ a b, descendingCompare a b sampleGraph < 0 ↔
        0 < descendingCompare b a sampleGraph) ∧
      (∀ a b c, descendingCompare a b sampleGraph < 0 →
        descendingCompare b c sampleGraph < 0 → descendingCompare a c sampleGraph < 0) ∧
      IsRewriteChain (fun n => ⟨[.GenericParam n]⟩)
        (fun n => (⟨[.GenericParam n]⟩, ⟨[.GenericParam (n + 1)]⟩)) ∧
      ∀ n : Nat, StrictlyOriented descendingCompare sampleGraph
        (⟨[.GenericParam n]⟩, ⟨[.GenericParam (n + 1)]⟩)) := by
  refine ⟨⟨sampleCompare_eq_zero_iff sampleGraph, sampleCompare_wellFounded sampleGraph,
    fun _ => rfl, ⟨0, rfl, le_refl _⟩⟩,
    ⟨descendingCompare_eq_zero_iff sampleGraph, compareByRank_antisymm _ sampleGraph,
      compareByRank_trans _ sampleGraph, ?_, ?_⟩⟩
  · intro n
    have hfound : MutableTerm.findSubTerm ⟨[] ++ [Symbol.GenericParam n] ++ []⟩
        ⟨[Symbol.GenericParam n]⟩ = ([] : List Symbol).length := by
      simp [MutableTerm.findSubTerm, MutableTerm.size, stdSearch, searchScan]
    exact rewriteSubTerm_splice [] [.GenericParam n] [] [.GenericParam (n + 1)] hfound
      (by simp) (by simp)
  · intro n
    refine ⟨-1, ?_, by decide⟩
    have hlt : -(((n + 1 : Nat) : Int) + 1) < -((n : Int) + 1) := by omega
    have hsym : descendingCompare (.GenericParam (n + 1)) (.GenericParam n) sampleGraph
        = -1 := by
      unfold descendingCompare compareByRank
      simp only [Symbol.descendingRank]
      rw [if_pos hlt]
    show MutableTerm.compare descendingCompare ⟨[.GenericParam (n + 1)]⟩
      ⟨[.GenericParam n]⟩ sampleGraph = Except.ok (-1)
    simp [MutableTerm.compare, MutableTerm.size, compareLoop, hsym]

/-- C8 (amended): if the strict order of the symbol comparator (`compare < 0`)
is well-founded, then for rules oriented strictly, `compare(rhs, lhs) < 0`,
there is no infinite chain of successful `rewriteSubTerm` applications, from
any term and with any supply of rules. -/
theorem rewrite_chain_finite (symCompare : SymbolCompare) (graph : ProtocolGraph)
    (hwf : WellFounded (fun a b => symCompare a b graph < 0))
    (ts : Nat → MutableTerm) (rules : Nat → MutableTerm × MutableTerm)
    (hstrict : ∀ n, StrictlyOriented symCompare graph (rules n)) :
    ¬ IsRewriteChain ts rules := by
  intro hchain
  have hdesc : ∀ n, Shortlex (fun x y => symCompare x y graph < 0) (ts (n + 1)) (ts n) :=
    fun n => shortlex_of_rewrite symCompare graph (ts n) (rules n).1 (rules n).2 (ts (n + 1))
      (hstrict n) (hchain n)
  have hnone : ∀ t : MutableTerm, ∀ n, ts n ≠ t := by
    intro t
    induction t using (shortlex_wellFounded _ hwf).induction with
    | _ t ih =>
      intro n hn
      subst hn
      exact ih (ts (n + 1)) (hdesc n) (n + 1) rfl
  exact hnone (ts 0) 0 rfl

/-- Witness for C8 (amended): the rule `Foo.Bar => Baz` is strictly oriented
under the sample comparator, so it cannot be applied for ever. -/
theorem rewrite_chain_finite_witness :
    ¬ IsRewriteChain (fun _ => ⟨[.GenericParam 0, .Name "Foo", .Name "Bar"]⟩)
      (fun _ => (⟨[.Name "Foo", .Name "Bar"]⟩, ⟨[.Name "Baz"]⟩)) :=
  rewrite_chain_finite sampleCompare sampleGraph
    (sampleCompare_wellFounded sampleGraph)
    (fun _ => ⟨[.GenericParam 0, .Name "Foo", .Name "Bar"]⟩)
    (fun _ => (⟨[.Name "Foo", .Name "Bar"]⟩, ⟨[.Name "Baz"]⟩))
    (fun _ => ⟨-1, rfl, by decide⟩)

/-- C9: the end-to-end example.  On `T = [GenericParam(0), Name("Foo"),
Name("Bar")]` with `lhs = [Name("Foo"), Name("Bar")]` and `rhs = [Name("Baz")]`
the call returns true with `[GenericParam(0), Name("Baz")]`, the length goes
from 3 to 2, and `compare(result, T)` returns a negative value whatever the
symbol comparator and the protocol graph are. -/
theorem end_to_end_example (symCompare : SymbolCompare) (graph : ProtocolGraph) :
    MutableTerm.rewriteSubTerm ⟨[.GenericParam 0, .Name "Foo", .Name "Bar"]⟩
        ⟨[.Name "Foo", .Name "Bar"]⟩ ⟨[.Name "Baz"]⟩
      = Except.ok (true, ⟨[.GenericParam 0, .Name "Baz"]⟩) ∧
    MutableTerm.size ⟨[.GenericParam 0, .Name "Foo", .Name "Bar"]⟩ = 3 ∧
    MutableTerm.size ⟨[.GenericParam 0, .Name "Baz"]⟩ = 2 ∧
    MutableTerm.compare symCompare ⟨[.GenericParam 0, .Name "Baz"]⟩
        ⟨[.GenericParam 0, .Name "Foo", .Name "Bar"]⟩ graph = Except.ok (-1) ∧
    (-1 : Int) < 0 :=
  ⟨rfl, rfl, rfl, rfl, by decide⟩

/-! ## The sentinel of `findSubTerm` -/

/-- An occurrence of a pattern that has a symbol starts inside the term and
ends inside it. -/
theorem matchesAt_bound (t p : MutableTerm) (j : Nat) (h : MatchesAt t p j) :
    j + p.size ≤ t.size ∨ p.Symbols = [] := by
  by_cases hp : p.Symbols = []
  · exact Or.inr hp
  · left
    have hpre := ((matchesAt_iff_prefix_drop t p j).1 h).length_le
    have hpos : 0 < p.Symbols.length := List.length_pos.2 hp
    simp only [List.length_drop] at hpre
    simp only [MutableTerm.size]
    omega

/-- C11: for a pattern `p` that is a term (it has a symbol), `findSubTerm(t, p)`
returns the one-past-the-end sentinel `size` if and only if `p` does not
occur in `t` as a contiguous subsequence, and every position at which an
occurrence of `p` starts is inside `t`, hence distinct from the sentinel. -/
theorem findSubTerm_sentinel_iff_absent (t p : MutableTerm) (hp : p.Symbols ≠ []) :
    (t.findSubTerm p = t.size ↔ ¬ p.Symbols <:+: t.Symbols) ∧
    ∀ j, MatchesAt t p j → j + p.size ≤ t.size ∧ j ≠ t.size := by
  constructor
  · rw [findSubTerm_eq_size_iff]
    constructor
    · rintro (h | ⟨_, h⟩)
      · exact h
      · exact absurd h hp
    · exact Or.inl
  · intro j hj
    rcases matchesAt_bound t p j hj with h | h
    · have hpos : 0 < p.size := List.length_pos.2 hp
      exact ⟨h, by omega⟩
    · exact absurd h hp

/-- Witness for C11: the pattern `A.B` in the term `T.A.B.C`. -/
theorem findSubTerm_sentinel_iff_absent_witness :
    (MutableTerm.findSubTerm ⟨[.GenericParam 0, .Name "A", .Name "B", .Name "C"]⟩
        ⟨[.Name "A", .Name "B"]⟩ = 4 ↔
      ¬ [Symbol.Name "A", Symbol.Name "B"]
        <:+: [Symbol.GenericParam 0, Symbol.Name "A", Symbol.Name "B", Symbol.Name "C"]) ∧
    ∀ j, MatchesAt ⟨[.GenericParam 0, .Name "A", .Name "B", .Name "C"]⟩
        ⟨[.Name "A", .Name "B"]⟩ j → j + 2 ≤ 4 ∧ j ≠ 4 :=
  findSubTerm_sentinel_iff_absent ⟨[.GenericParam 0, .Name "A", .Name "B", .Name "C"]⟩
    ⟨[.Name "A", .Name "B"]⟩ (by simp)

/-- C12: a pattern longer than the term is reported absent, `findSubTerm`
returns the sentinel `size`, whatever the symbols are. -/
theorem findSubTerm_longer_pattern (t p : MutableTerm) (hlen : t.size < p.size) :
    t.findSubTerm p = t.size := by
  simp [MutableTerm.findSubTerm, hlen]

/-- Witness for C12: the pattern `A.B.C` in the term `A.B`. -/
theorem findSubTerm_longer_pattern_witness :
    MutableTerm.findSubTerm ⟨[.Name "A", .Name "B"]⟩ ⟨[.Name "A", .Name "B", .Name "C"]⟩
      = 2 :=
  findSubTerm_longer_pattern ⟨[.Name "A", .Name "B"]⟩
    ⟨[.Name "A", .Name "B", .Name "C"]⟩ (by decide)

/-! ## `compare` is a total order -/

/-- C13: when `a` is shorter than `b`, `compare(a, b)` returns `-1` and
`compare(b, a)` returns `1`, for every symbol comparator and graph and
whatever the symbols are: the comparator is not consulted. -/
theorem compare_shorter (symCompare : SymbolCompare) (graph : ProtocolGraph)
    (a b : MutableTerm) (hlen : a.size < b.size) :
    MutableTerm.compare symCompare a b graph = Except.ok (-1) ∧
    MutableTerm.compare symCompare b a graph = Except.ok 1 ∧
    (-1 : Int) < 0 ∧ (0 : Int) < 1 := by
  have h1 : a.size ≠ b.size := Nat.ne_of_lt hlen
  have h2 : b.size ≠ a.size := Nat.ne_of_gt hlen
  have h3 : ¬ b.size < a.size := Nat.lt_asymm hlen
  refine ⟨?_, ?_, by decide, by decide⟩
  · simp [MutableTerm.compare, h1, hlen]
  · simp [MutableTerm.compare, h2, h3]

/-- Witness for C13: `T.X` against `T.A.B`, under the descending comparator. -/
theorem compare_shorter_witness :
    MutableTerm.compare descendingCompare ⟨[.GenericParam 0, .Name "X"]⟩
        ⟨[.GenericParam 0, .Name "A", .Name "B"]⟩ sampleGraph = Except.ok (-1) ∧
    MutableTerm.compare descendingCompare ⟨[.GenericParam 0, .Name "A", .Name "B"]⟩
        ⟨[.GenericParam 0, .Name "X"]⟩ sampleGraph = Except.ok 1 ∧
    (-1 : Int) < 0 ∧ (0 : Int) < 1 :=
  compare_shorter descendingCompare sampleGraph ⟨[.GenericParam 0, .Name "X"]⟩
    ⟨[.GenericParam 0, .Name "A", .Name "B"]⟩ (by decide)

/-- Under a comparator that returns 0 exactly on identical symbols the loop of
`compare` trips no assertion. -/
theorem compareLoop_ok (symCompare : SymbolCompare) (graph : ProtocolGraph)
    (hcmp : ∀ x y, symCompare x y graph = 0 ↔ x = y) :
    ∀ a b : List Symbol, ∃ c, compareLoop symCompare graph a b = Except.ok c
  | [], _ => ⟨0, by simp [compareLoop]⟩
  | _ :: _, [] => ⟨0, by simp [compareLoop]⟩
  | x :: a, y :: b => by
    by_cases h : symCompare x y graph = 0
    · have hxy : x = y := (hcmp x y).1 h
      obtain ⟨c, hc⟩ := compareLoop_ok symCompare graph hcmp a b
      subst hxy
      exact ⟨c, by simp [compareLoop, h, hc]⟩
    · have hxy : x ≠ y := fun e => h ((hcmp x y).2 e)
      exact ⟨symCompare x y graph, by simp [compareLoop, h, hxy]⟩

/-- The loop of `compare` returns what the comparator says at the first index
at which the two lists differ. -/
theorem compareLoop_first_diff (symCompare : SymbolCompare) (graph : ProtocolGraph)
    (hcmp : ∀ x y, symCompare x y graph = 0 ↔ x = y) (x y : Symbol) (hxy : x ≠ y) :
    ∀ (a b : List Symbol) (i : Nat), a[i]? = some x → b[i]? = some y →
      (∀ j, j < i → a[j]? = b[j]?) →
      compareLoop symCompare graph a b = Except.ok (symCompare x y graph)
  | [], _, _, ha, _, _ => by simp at ha
  | _ :: _, [], _, _, hb, _ => by simp at hb
  | u :: a, v :: b, 0, ha, hb, _ => by
    simp only [List.getElem?_cons_zero, Option.some.injEq] at ha hb
    subst ha hb
    have h : symCompare u v graph ≠ 0 := fun e => hxy ((hcmp u v).1 e)
    simp [compareLoop, h, hxy]
  | u :: a, v :: b, i + 1, ha, hb, hpre => by
    have huv : u = v := by simpa using hpre 0 (Nat.succ_pos i)
    subst huv
    have h : symCompare u u graph = 0 := (hcmp u u).2 rfl
    have ih := compareLoop_first_diff symCompare graph hcmp x y hxy a b i
      (by simpa using ha) (by simpa using hb)
      (fun j hj => by simpa using hpre (j + 1) (Nat.succ_lt_succ hj))
    simp [compareLoop, h, ih]

/-- The loop of `compare` returns 0 on lists of one length only when they are
equal. -/
theorem compareLoop_eq_zero (symCompare : SymbolCompare) (graph : ProtocolGraph) :
    ∀ a b : List Symbol, a.length = b.length →
      compareLoop symCompare graph a b = Except.ok 0 → a = b
  | [], [], _, _ => rfl
  | [], _ :: _, hlen, _ => by simp at hlen
  | _ :: _, [], hlen, _ => by simp at hlen
  | x :: a, y :: b, hlen, h => by
    have hab : a.length = b.length := by simpa using hlen
    simp only [compareLoop] at h
    split_ifs at h with h1 h2 h3
    · simp only [Except.ok.injEq] at h
      exact absurd h h1
    · subst h3
      rw [compareLoop_eq_zero symCompare graph a b hab h]

/-- C14: if the symbol comparator returns 0 exactly on identical symbols, then
for terms `a`, `b` of one size whose first difference is at index `i`
(`a[i] = x`, `b[i] = y`, `x ≠ y`, and `a[j] = b[j]` for `j < i`),
`compare(a, b)` returns the comparator's result on `(x, y)`. -/
theorem compare_first_difference (symCompare : SymbolCompare) (graph : ProtocolGraph)
    (a b : MutableTerm) (i : Nat) (x y : Symbol)
    (hcmp : ∀ x y, symCompare x y graph = 0 ↔ x = y)
    (hlen : a.size = b.size)
    (hx : a.Symbols[i]? = some x) (hy : b.Symbols[i]? = some y) (hxy : x ≠ y)
    (hfirst : ∀ j, j < i → a.Symbols[j]? = b.Symbols[j]?) :
    MutableTerm.compare symCompare a b graph = Except.ok (symCompare x y graph) := by
  simp only [MutableTerm.compare, hlen, ne_eq, not_true_eq_false, if_false]
  exact compareLoop_first_diff symCompare graph hcmp x y hxy _ _ i hx hy hfirst

/-- C15: if the symbol comparator returns 0 exactly on identical symbols, then
`compare(a, b)` returns 0 if and only if `a` and `b` have the same size and
the same symbol at every index, that is if and only if `a = b`; in particular
`compare(a, a)` returns 0. -/
theorem compare_eq_zero_iff (symCompare : SymbolCompare) (graph : ProtocolGraph)
    (a b : MutableTerm) (hcmp : ∀ x y, symCompare x y graph = 0 ↔ x = y) :
    (MutableTerm.compare symCompare a b graph = Except.ok 0 ↔
      a.size = b.size ∧ ∀ i, i < a.size → a.Symbols[i]? = b.Symbols[i]?) ∧
    (MutableTerm.compare symCompare a b graph = Except.ok 0 ↔ a = b) ∧
    MutableTerm.compare symCompare a a graph = Except.ok 0 := by
  have hrefl : ∀ x, symCompare x x graph = 0 := fun x => (hcmp x x).2 rfl
  have hself : ∀ t : MutableTerm, MutableTerm.compare symCompare t t graph = Except.ok 0 := by
    intro t
    simp [MutableTerm.compare, compareLoop_self symCompare graph hrefl]
  have hiff : MutableTerm.compare symCompare a b graph = Except.ok 0 ↔ a = b := by
    constructor
    · intro h
      unfold MutableTerm.compare at h
      by_cases hsz : a.size = b.size
      · simp only [hsz, ne_eq, not_true_eq_false, if_false] at h
        have := compareLoop_eq_zero symCompare graph a.Symbols b.Symbols hsz h
        cases a
        cases b
        simpa using this
      · simp only [ne_eq, hsz, not_false_eq_true, if_true, Except.ok.injEq] at h
        split_ifs at h
        all_goals omega
    · rintro rfl
      exact hself a
  refine ⟨?_, hiff, hself a⟩
  rw [hiff]
  constructor
  · rintro rfl
    exact ⟨rfl, fun _ _ => rfl⟩
  · rintro ⟨hsz, hsym⟩
    have hl : a.Symbols = b.Symbols := by
      apply List.ext_getElem?
      intro n
      by_cases hn : n < a.size
      · exact hsym n hn
      · rw [List.getElem?_eq_none (by simpa [MutableTerm.size] using hn),
          List.getElem?_eq_none (by rw [hsz] at hn; simpa [MutableTerm.size] using hn)]
    cases a
    cases b
    simpa using hl

/-- Witness for C14: `T.A.C` and `T.B.C` first differ at index 1. -/
theorem compare_first_difference_witness :
    MutableTerm.compare sampleCompare ⟨[.GenericParam 0, .Name "A", .Name "C"]⟩
        ⟨[.GenericParam 0, .Name "B", .Name "C"]⟩ sampleGraph
      = Except.ok (sampleCompare (.Name "A") (.Name "B") sampleGraph) :=
  compare_first_difference sampleCompare sampleGraph
    ⟨[.GenericParam 0, .Name "A", .Name "C"]⟩ ⟨[.GenericParam 0, .Name "B", .Name "C"]⟩
    1 (.Name "A") (.Name "B") (sampleCompare_eq_zero_iff sampleGraph) rfl rfl rfl
    (by decide)
    (by
      intro j hj
      have hj0 : j = 0 := by omega
      subst hj0
      rfl)

/-- Witness for C15, on the terms `T.A` and `T.B` under the sample comparator. -/
theorem compare_eq_zero_iff_witness :
    (MutableTerm.compare sampleCompare ⟨[.GenericParam 0, .Name "A"]⟩
        ⟨[.GenericParam 0, .Name "B"]⟩ sampleGraph = Except.ok 0 ↔
      2 = 2 ∧ ∀ i, i < 2 → [Symbol.GenericParam 0, Symbol.Name "A"][i]?
        = [Symbol.GenericParam 0, Symbol.Name "B"][i]?) ∧
    (MutableTerm.compare sampleCompare ⟨[.GenericParam 0, .Name "A"]⟩
        ⟨[.GenericParam 0, .Name "B"]⟩ sampleGraph = Except.ok 0 ↔
      (⟨[.GenericParam 0, .Name "A"]⟩ : MutableTerm) = ⟨[.GenericParam 0, .Name "B"]⟩) ∧
    MutableTerm.compare sampleCompare ⟨[.GenericParam 0, .Name "A"]⟩
        ⟨[.GenericParam 0, .Name "A"]⟩ sampleGraph = Except.ok 0 :=
  compare_eq_zero_iff sampleCompare sampleGraph ⟨[.GenericParam 0, .Name "A"]⟩
    ⟨[.GenericParam 0, .Name "B"]⟩ (sampleCompare_eq_zero_iff sampleGraph)

/-- Under a comparator that is 0 exactly on identical symbols and
antisymmetric in sign, the loop of `compare` run both ways returns two
values of opposite sign. -/
theorem compareLoop_antisymm (symCompare : SymbolCompare) (graph : ProtocolGraph)
    (hcmp : ∀ x y, symCompare x y graph = 0 ↔ x = y)
    (hanti : ∀ x y, symCompare x y graph < 0 ↔ 0 < symCompare y x graph) :
    ∀ a b : List Symbol, ∃ c d, compareLoop symCompare graph a b = Except.ok c ∧
      compareLoop symCompare graph b a = Except.ok d ∧ (c < 0 ↔ 0 < d)
  | [], [] => ⟨0, 0, by simp [compareLoop]⟩
  | [], _ :: _ => ⟨0, 0, by simp [compareLoop]⟩
  | _ :: _, [] => ⟨0, 0, by simp [compareLoop]⟩
  | x :: a, y :: b => by
    by_cases h : symCompare x y graph = 0
    · have hxy : x = y := (hcmp x y).1 h
      subst hxy
      obtain ⟨c, d, hc, hd, hcd⟩ := compareLoop_antisymm symCompare graph hcmp hanti a b
      exact ⟨c, d, by simp [compareLoop, h, hc], by simp [compareLoop, h, hd], hcd⟩
    · have hxy : x ≠ y := fun e => h ((hcmp x y).2 e)
      have hyx : y ≠ x := fun e => hxy e.symm
      have h' : symCompare y x graph ≠ 0 := fun e => hyx ((hcmp y x).1 e)
      exact ⟨symCompare x y graph, symCompare y x graph, by simp [compareLoop, h, hxy],
        by simp [compareLoop, h', hyx], hanti x y⟩

/-- C16: if the symbol comparator is 0 exactly on identical symbols and
antisymmetric in sign, then `compare(a, b)` and `compare(b, a)` both return,
exactly one of `compare(a, b) < 0`, `compare(a, b) = 0`, `compare(a, b) > 0`
holds, and `compare(a, b) < 0` if and only if `compare(b, a) > 0`. -/
theorem compare_trichotomy (symCompare : SymbolCompare) (graph : ProtocolGraph)
    (a b : MutableTerm)
    (hcmp : ∀ x y, symCompare x y graph = 0 ↔ x = y)
    (hanti : ∀ x y, symCompare x y graph < 0 ↔ 0 < symCompare y x graph) :
    ∃ c d, MutableTerm.compare symCompare a b graph = Except.ok c ∧
      MutableTerm.compare symCompare b a graph = Except.ok d ∧
      ((c < 0 ∧ ¬ c = 0 ∧ ¬ 0 < c) ∨ (¬ c < 0 ∧ c = 0 ∧ ¬ 0 < c) ∨
        (¬ c < 0 ∧ ¬ c = 0 ∧ 0 < c)) ∧
      (c < 0 ↔ 0 < d) := by
  have htri : ∀ c : Int, (c < 0 ∧ ¬ c = 0 ∧ ¬ 0 < c) ∨ (¬ c < 0 ∧ c = 0 ∧ ¬ 0 < c) ∨
      (¬ c < 0 ∧ ¬ c = 0 ∧ 0 < c) := by
    intro c
    omega
  rcases Nat.lt_trichotomy a.size b.size with hlt | heq | hgt
  · have h1 : a.size ≠ b.size := Nat.ne_of_lt hlt
    have h2 : b.size ≠ a.size := Nat.ne_of_gt hlt
    have h3 : ¬ b.size < a.size := Nat.lt_asymm hlt
    exact ⟨-1, 1, by simp [MutableTerm.compare, h1, hlt], by simp [MutableTerm.compare, h2, h3],
      htri _, by decide⟩
  · obtain ⟨c, d, hc, hd, hcd⟩ :=
      compareLoop_antisymm symCompare graph hcmp hanti a.Symbols b.Symbols
    exact ⟨c, d, by simp [MutableTerm.compare, heq, hc], by simp [MutableTerm.compare, heq, hd],
      htri _, hcd⟩
  · have h1 : a.size ≠ b.size := Nat.ne_of_gt hgt
    have h2 : b.size ≠ a.size := Nat.ne_of_lt hgt
    have h3 : ¬ a.size < b.size := Nat.lt_asymm hgt
    exact ⟨1, -1, by simp [MutableTerm.compare, h1, h3], by simp [MutableTerm.compare, h2, hgt],
      htri _, by decide⟩

/-- Witness for C16, on the terms `T.A` and `T.B` under the sample comparator. -/
theorem compare_trichotomy_witness :
    ∃ c d, MutableTerm.compare sampleCompare ⟨[.GenericParam 0, .Name "A"]⟩
        ⟨[.GenericParam 0, .Name "B"]⟩ sampleGraph = Except.ok c ∧
      MutableTerm.compare sampleCompare ⟨[.GenericParam 0, .Name "B"]⟩
        ⟨[.GenericParam 0, .Name "A"]⟩ sampleGraph = Except.ok d ∧
      ((c < 0 ∧ ¬ c = 0 ∧ ¬ 0 < c) ∨ (¬ c < 0 ∧ c = 0 ∧ ¬ 0 < c) ∨
        (¬ c < 0 ∧ ¬ c = 0 ∧ 0 < c)) ∧
      (c < 0 ↔ 0 < d) :=
  compare_trichotomy sampleCompare sampleGraph ⟨[.GenericParam 0, .Name "A"]⟩
    ⟨[.GenericParam 0, .Name "B"]⟩ (sampleCompare_eq_zero_iff sampleGraph)
    (compareByRank_antisymm _ sampleGraph)

/-- A negative result of `compare` comes from the sizes or, on terms of one
size, from the loop. -/
theorem compare_neg_cases (symCompare : SymbolCompare) (graph : ProtocolGraph)
    (a b : MutableTerm) (c : Int)
    (h : MutableTerm.compare symCompare a b graph = Except.ok c) (hc : c < 0) :
    a.size < b.size ∨
      (a.size = b.size ∧ compareLoop symCompare graph a.Symbols b.Symbols = Except.ok c) := by
  unfold MutableTerm.compare at h
  by_cases hsz : a.size = b.size
  · simp only [hsz, ne_eq, not_true_eq_false, if_false] at h
    exact Or.inr ⟨hsz, h⟩
  · simp only [ne_eq, hsz, not_false_eq_true, if_true, Except.ok.injEq] at h
    left
    by_contra hge
    rw [if_neg hge] at h
    omega

/-- The loop of `compare` is transitive on negative results. -/
theorem compareLoop_trans (symCompare : SymbolCompare) (graph : ProtocolGraph)
    (hcmp : ∀ x y, symCompare x y graph = 0 ↔ x = y)
    (htrans : ∀ x y z, symCompare x y graph < 0 → symCompare y z graph < 0 →
      symCompare x z graph < 0) :
    ∀ (a b c : List Symbol) (c₁ c₂ : Int),
      compareLoop symCompare graph a b = Except.ok c₁ → c₁ < 0 →
      compareLoop symCompare graph b c = Except.ok c₂ → c₂ < 0 →
      ∃ c₃, compareLoop symCompare graph a c = Except.ok c₃ ∧ c₃ < 0
  | [], _, _, c₁, _, h1, hc1, _, _ => by
    simp only [compareLoop, Except.ok.injEq] at h1
    omega
  | _ :: _, [], _, c₁, _, h1, hc1, _, _ => by
    simp only [compareLoop, Except.ok.injEq] at h1
    omega
  | _ :: _, _ :: _, [], _, c₂, _, _, h2, hc2 => by
    simp only [compareLoop, Except.ok.injEq] at h2
    omega
  | x :: a, y :: b, z :: c, c₁, c₂, h1, hc1, h2, hc2 => by
    simp only [compareLoop] at h1 h2
    split_ifs at h1 with hxy0 hxy hxy'
    · -- the first symbols of `a` and `b` differ
      simp only [Except.ok.injEq] at h1
      split_ifs at h2 with hyz0 hyz hyz'
      · simp only [Except.ok.injEq] at h2
        have hlt : symCompare x z graph < 0 :=
          htrans x y z (by rw [h1]; exact hc1) (by rw [h2]; exact hc2)
        have hne0 : symCompare x z graph ≠ 0 := by omega
        have hxz : x ≠ z := fun e => hne0 ((hcmp x z).2 e)
        exact ⟨symCompare x z graph, by simp [compareLoop, hne0, hxz], hlt⟩
      · subst hyz'
        exact ⟨c₁, by rw [← h1]; simp [compareLoop, hxy0, hxy], hc1⟩
    · -- the first symbols of `a` and `b` agree
      subst hxy'
      split_ifs at h2 with hyz0 hyz hyz'
      · simp only [Except.ok.injEq] at h2
        exact ⟨c₂, by rw [← h2]; simp [compareLoop, hyz0, hyz], hc2⟩
      · subst hyz'
        obtain ⟨c₃, h3, hc3⟩ :=
          compareLoop_trans symCompare graph hcmp htrans a b c c₁ c₂ h1 hc1 h2 hc2
        exact ⟨c₃, by simp [compareLoop, hxy0, h3], hc3⟩

/-- C17: if the symbol comparator is 0 exactly on identical symbols and
transitive, then `compare(a, b) < 0` and `compare(b, c) < 0` imply that
`compare(a, c)` returns a negative value. -/
theorem compare_trans (symCompare : SymbolCompare) (graph : ProtocolGraph)
    (a b c : MutableTerm) (c₁ c₂ : Int)
    (hcmp : ∀ x y, symCompare x y graph = 0 ↔ x = y)
    (htrans : ∀ x y z, symCompare x y graph < 0 → symCompare y z graph < 0 →
      symCompare x z graph < 0)
    (hab : MutableTerm.compare symCompare a b graph = Except.ok c₁) (hc1 : c₁ < 0)
    (hbc : MutableTerm.compare symCompare b c graph = Except.ok c₂) (hc2 : c₂ < 0) :
    ∃ c₃, MutableTerm.compare symCompare a c graph = Except.ok c₃ ∧ c₃ < 0 := by
  have hshort : a.size < c.size →
      ∃ c₃, MutableTerm.compare symCompare a c graph = Except.ok c₃ ∧ c₃ < 0 := by
    intro hlt
    exact ⟨-1, by simp [MutableTerm.compare, Nat.ne_of_lt hlt, hlt], by decide⟩
  rcases compare_neg_cases symCompare graph a b c₁ hab hc1 with h1 | ⟨h1, l1⟩
  · rcases compare_neg_cases symCompare graph b c c₂ hbc hc2 with h2 | ⟨h2, _⟩
    · exact hshort (by omega)
    · exact hshort (by omega)
  · rcases compare_neg_cases symCompare graph b c c₂ hbc hc2 with h2 | ⟨h2, l2⟩
    · exact hshort (by omega)
    · obtain ⟨c₃, h3, hc3⟩ := compareLoop_trans symCompare graph hcmp htrans
        a.Symbols b.Symbols c.Symbols c₁ c₂ l1 hc1 l2 hc2
      exact ⟨c₃, by simp [MutableTerm.compare, h1.trans h2, h3], hc3⟩

/-- Witness for C17: `T.A < T.B < T.C` under the sample comparator. -/
theorem compare_trans_witness :
    ∃ c₃, MutableTerm.compare sampleCompare ⟨[.GenericParam 0, .Name "A"]⟩
        ⟨[.GenericParam 0, .Name "C"]⟩ sampleGraph = Except.ok c₃ ∧ c₃ < 0 :=
  compare_trans sampleCompare sampleGraph ⟨[.GenericParam 0, .Name "A"]⟩
    ⟨[.GenericParam 0, .Name "B"]⟩ ⟨[.GenericParam 0, .Name "C"]⟩ (-1) (-1)
    (sampleCompare_eq_zero_iff sampleGraph) (compareByRank_trans _ sampleGraph)
    rfl (by decide) rfl (by decide)

/-! ## Interning: keys and the new storage -/

theorem foldl_addPointer (getOpaquePointer : SymbolPointer) :
    ∀ (l : List Symbol) (id : FoldingSetNodeID),
      l.foldl (fun id symbol => id.AddPointer (getOpaquePointer symbol)) id
        = { Bits := id.Bits ++ l.map getOpaquePointer }
  | [], id => by simp
  | x :: l, id => by
    rw [List.foldl_cons, foldl_addPointer getOpaquePointer l]
    simp [FoldingSetNodeID.AddPointer]

/-- The profile of a storage is its size followed by the pointers of its
symbols. -/
theorem profile_eq (getOpaquePointer : SymbolPointer) (storage : Storage) :
    storage.Profile getOpaquePointer { Bits := [] }
      = { Bits := storage.Size :: storage.getElements.map getOpaquePointer } := by
  simp [Storage.Profile, foldl_addPointer, FoldingSetNodeID.AddInteger]

/-- The lookup key of a mutable term is its size followed by the pointers of
its symbols. -/
theorem lookupKey_eq (getOpaquePointer : SymbolPointer) (m : MutableTerm) :
    lookupKey getOpaquePointer m
      = { Bits := m.size :: m.Symbols.map getOpaquePointer } := by
  simp [lookupKey, foldl_addPointer, FoldingSetNodeID.AddInteger]

/-- A storage has the lookup key of `m` exactly when it has the size of `m` and
holds the symbols of `m`, the pointers of distinct symbols being distinct. -/
theorem profile_eq_lookupKey_iff (getOpaquePointer : SymbolPointer)
    (hinj : Function.Injective getOpaquePointer) (storage : Storage) (m : MutableTerm) :
    storage.Profile getOpaquePointer { Bits := [] } = lookupKey getOpaquePointer m ↔
      storage.Size = m.size ∧ storage.getElements = m.Symbols := by
  rw [profile_eq, lookupKey_eq]
  simp only [FoldingSetNodeID.mk.injEq, List.cons.injEq]
  constructor
  · rintro ⟨h1, h2⟩
    exact ⟨h1, List.map_injective_iff.2 hinj h2⟩
  · rintro ⟨h1, h2⟩
    exact ⟨h1, by rw [h2]⟩

/-- The copy loop of `Term::get` leaves the symbols of `m` in the storage. -/
theorem fillElements_spec (m : MutableTerm) (size : Nat) :
    ∀ (n i : Nat) (rest : List Symbol), i + n = m.size → rest.length = n →
      fillElements m n i { Size := size, Trailing := m.Symbols.take i ++ rest }
        = { Size := size, Trailing := m.Symbols }
  | 0, i, rest, hi, hrest => by
    have hr : rest = [] := List.length_eq_zero.1 hrest
    subst hr
    have : m.Symbols.take i = m.Symbols :=
      List.take_of_length_le (by simp only [MutableTerm.size] at hi; omega)
    simp [fillElements, this]
  | n + 1, i, rest, hi, hrest => by
    cases rest with
    | nil => simp at hrest
    | cons r rest =>
      have hlt : i < m.Symbols.length := by
        simp only [MutableTerm.size] at hi
        omega
      have hget : m.Symbols[i]? = some m.Symbols[i] := List.getElem?_eq_getElem hlt
      have hlen : (m.Symbols.take i).length = i := by
        rw [List.length_take]
        omega
      have hset : (m.Symbols.take i ++ r :: rest).set i m.Symbols[i]
          = m.Symbols.take (i + 1) ++ rest := by
        have htake : m.Symbols.take (i + 1) = m.Symbols.take i ++ [m.Symbols[i]] := by
          rw [List.take_succ, hget]
          rfl
        rw [List.set_append_right _ _ (by omega), hlen, Nat.sub_self, List.set_cons_zero,
          htake, List.append_assoc]
        rfl
      rw [fillElements, hget]
      simp only
      rw [hset]
      exact fillElements_spec m size n (i + 1) rest (by omega) (by simpa using hrest)

/-- The storage that `Term::get` builds on a miss. -/
theorem fillElements_new (m : MutableTerm) :
    fillElements m m.size 0
        { Size := m.size, Trailing := List.replicate m.size uninitializedSymbol }
      = { Size := m.size, Trailing := m.Symbols } := by
  have := fillElements_spec m m.size m.size 0 (List.replicate m.size uninitializedSymbol)
    (by omega) (by simp)
  simpa using this

/-- The result of `Term::get` on a hit. -/
theorem get_of_hit (getOpaquePointer : SymbolPointer) (m : MutableTerm)
    (ctx : RewriteContext) (node : Nat) (hm : m.Symbols ≠ [])
    (hfind : ctx.FindNodeOrInsertPos getOpaquePointer (lookupKey getOpaquePointer m)
      = some node) :
    Term.get getOpaquePointer m ctx = Except.ok ({ Ptr := node }, ctx) := by
  have hpos : m.size > 0 := List.length_pos.2 hm
  simp [Term.get, hpos, hfind]

/-- The result of `Term::get` on a miss. -/
theorem get_of_miss (getOpaquePointer : SymbolPointer) (m : MutableTerm)
    (ctx : RewriteContext) (hm : m.Symbols ≠ [])
    (hfind : ctx.FindNodeOrInsertPos getOpaquePointer (lookupKey getOpaquePointer m) = none) :
    Term.get getOpaquePointer m ctx = Except.ok ({ Ptr := ctx.Allocator.length },
      { Allocator := ctx.Allocator ++ [{ Size := m.size, Trailing := m.Symbols }],
        Terms := ctx.Terms ++ [ctx.Allocator.length] }) := by
  have hpos : m.size > 0 := List.length_pos.2 hm
  simp [Term.get, hpos, hfind, fillElements_new]

/-- The function `Term::get` fails exactly on the empty sequence. -/
theorem get_ok_nonempty (getOpaquePointer : SymbolPointer) (m : MutableTerm)
    (ctx : RewriteContext) (t : Term) (ctx' : RewriteContext)
    (h : Term.get getOpaquePointer m ctx = Except.ok (t, ctx')) : m.Symbols ≠ [] := by
  intro hm
  simp [Term.get, MutableTerm.size, hm] at h

/-- What a successful lookup says about the node found. -/
theorem find_some (getOpaquePointer : SymbolPointer) (ctx : RewriteContext)
    (id : FoldingSetNodeID) (node : Nat)
    (h : ctx.FindNodeOrInsertPos getOpaquePointer id = some node) :
    node ∈ ctx.Terms ∧ ∃ storage, ctx.load node = some storage ∧
      storage.Profile getOpaquePointer { Bits := [] } = id := by
  unfold RewriteContext.FindNodeOrInsertPos at h
  refine ⟨List.mem_of_find?_eq_some h, ?_⟩
  have hp := List.find?_some h
  cases hl : ctx.load node with
  | none => simp [hl] at hp
  | some storage =>
    refine ⟨storage, rfl, ?_⟩
    simpa [hl] using hp

/-- What a failed lookup says about every registered node. -/
theorem find_none (getOpaquePointer : SymbolPointer) (ctx : RewriteContext)
    (id : FoldingSetNodeID)
    (h : ctx.FindNodeOrInsertPos getOpaquePointer id = none)
    (node : Nat) (storage : Storage) (hmem : node ∈ ctx.Terms)
    (hload : ctx.load node = some storage) :
    storage.Profile getOpaquePointer { Bits := [] } ≠ id := by
  unfold RewriteContext.FindNodeOrInsertPos at h
  have hp := List.find?_eq_none.1 h node hmem
  simpa [hload] using hp

/-- A search returns the one element that satisfies the test. -/
theorem find?_eq_some_of_unique (p : Nat → Bool) (a : Nat) :
    ∀ l : List Nat, a ∈ l → p a = true → (∀ x, x ∈ l → p x = true → x = a) →
      l.find? p = some a
  | [], hmem, _, _ => by simp at hmem
  | y :: l, hmem, hpa, huniq => by
    by_cases hy : p y = true
    · have : y = a := huniq y (List.mem_cons_self _ _) hy
      subst this
      simp [List.find?, hy]
    · have hya : a ≠ y := by
        intro e
        subst e
        exact hy hpa
      have hmem' : a ∈ l := by
        rcases List.mem_cons.1 hmem with h | h
        · exact absurd h hya
        · exact h
      have hy' : p y = false := by simpa using hy
      simp only [List.find?, hy']
      exact find?_eq_some_of_unique p a l hmem' hpa
        (fun x hx => huniq x (List.mem_cons_of_mem _ hx))

/-- The two outcomes of a successful `Term::get`. -/
theorem get_cases (getOpaquePointer : SymbolPointer) (m : MutableTerm)
    (ctx : RewriteContext) (t : Term) (ctx' : RewriteContext)
    (h : Term.get getOpaquePointer m ctx = Except.ok (t, ctx')) :
    (ctx.FindNodeOrInsertPos getOpaquePointer (lookupKey getOpaquePointer m) = some t.Ptr ∧
        ctx' = ctx) ∨
    (ctx.FindNodeOrInsertPos getOpaquePointer (lookupKey getOpaquePointer m) = none ∧
        t.Ptr = ctx.Allocator.length ∧
        ctx' = { Allocator := ctx.Allocator ++ [{ Size := m.size, Trailing := m.Symbols }],
                 Terms := ctx.Terms ++ [ctx.Allocator.length] }) := by
  have hm := get_ok_nonempty getOpaquePointer m ctx t ctx' h
  cases hfind : ctx.FindNodeOrInsertPos getOpaquePointer (lookupKey getOpaquePointer m) with
  | some node =>
    rw [get_of_hit getOpaquePointer m ctx node hm hfind] at h
    simp only [Except.ok.injEq, Prod.mk.injEq] at h
    left
    exact ⟨by rw [← h.1], h.2.symm⟩
  | none =>
    rw [get_of_miss getOpaquePointer m ctx hm hfind] at h
    simp only [Except.ok.injEq, Prod.mk.injEq] at h
    right
    exact ⟨rfl, by rw [← h.1], h.2.symm⟩

/-- The storage built on a miss has the lookup key of `m`. -/
theorem new_storage_profile (getOpaquePointer : SymbolPointer) (m : MutableTerm) :
    Storage.Profile getOpaquePointer { Size := m.size, Trailing := m.Symbols } { Bits := [] }
      = lookupKey getOpaquePointer m := by
  rw [profile_eq, lookupKey_eq]
  simp [Storage.getElements, MutableTerm.size]

/-- After a miss, a lookup of the same key finds the node just registered. -/
theorem find_after_miss (getOpaquePointer : SymbolPointer) (m : MutableTerm)
    (ctx : RewriteContext)
    (hfind : ctx.FindNodeOrInsertPos getOpaquePointer (lookupKey getOpaquePointer m) = none) :
    RewriteContext.FindNodeOrInsertPos getOpaquePointer
        { Allocator := ctx.Allocator ++ [{ Size := m.size, Trailing := m.Symbols }],
          Terms := ctx.Terms ++ [ctx.Allocator.length] }
        (lookupKey getOpaquePointer m) = some ctx.Allocator.length := by
  unfold RewriteContext.FindNodeOrInsertPos
  apply find?_eq_some_of_unique
  · simp
  · simp [RewriteContext.load, new_storage_profile]
  · intro x hx hpx
    simp only [List.mem_append, List.mem_singleton] at hx
    rcases hx with hx | hx
    · rcases Nat.lt_trichotomy x ctx.Allocator.length with hlt | heq | hgt
      · exfalso
        have hload : ctx.load x = some ctx.Allocator[x] := by
          simp [RewriteContext.load, List.getElem?_eq_getElem hlt]
        have hne := find_none getOpaquePointer ctx _ hfind x _ hx hload
        simp only [RewriteContext.load, List.getElem?_append_left hlt,
          List.getElem?_eq_getElem hlt, decide_eq_true_eq] at hpx
        exact hne hpx
      · exact heq
      · exfalso
        have hnone : (ctx.Allocator ++ [({ Size := m.size, Trailing := m.Symbols } : Storage)])[x]?
            = none := List.getElem?_eq_none (by simp; omega)
        simp [RewriteContext.load, hnone] at hpx
    · exact hx

/-- The function `Term::get` returns a term for every non-empty sequence. -/
theorem get_total (getOpaquePointer : SymbolPointer) (ctx : RewriteContext)
    (m : MutableTerm) (hm : m.Symbols ≠ []) :
    ∃ t ctx', Term.get getOpaquePointer m ctx = Except.ok (t, ctx') := by
  cases hfind : ctx.FindNodeOrInsertPos getOpaquePointer (lookupKey getOpaquePointer m) with
  | some node => exact ⟨_, _, get_of_hit getOpaquePointer m ctx node hm hfind⟩
  | none => exact ⟨_, _, get_of_miss getOpaquePointer m ctx hm hfind⟩

/-- C18: for every context and every non-empty symbol sequence `s`, a call of
`Term::get(s, ctx)` returns a term, and a second call right after it finds
that term in the table (a hit), returns the identical term and leaves the
context, table and arena, as it was. -/
theorem get_twice (getOpaquePointer : SymbolPointer) (ctx : RewriteContext)
    (s : MutableTerm) (hs : s.Symbols ≠ []) :
    ∃ t ctx', Term.get getOpaquePointer s ctx = Except.ok (t, ctx') ∧
      ctx'.FindNodeOrInsertPos getOpaquePointer (lookupKey getOpaquePointer s)
        = some t.Ptr ∧
      Term.get getOpaquePointer s ctx' = Except.ok (t, ctx') := by
  cases hfind : ctx.FindNodeOrInsertPos getOpaquePointer (lookupKey getOpaquePointer s) with
  | some node =>
    have hget := get_of_hit getOpaquePointer s ctx node hs hfind
    exact ⟨_, _, hget, hfind, hget⟩
  | none =>
    have hget := get_of_miss getOpaquePointer s ctx hs hfind
    have hfind' := find_after_miss getOpaquePointer s ctx hfind
    exact ⟨_, _, hget, hfind', get_of_hit getOpaquePointer s _ _ hs hfind'⟩

/-- Witness for C18: interning `T.A` twice from the empty context. -/
theorem get_twice_witness :
    ∃ t ctx', Term.get Symbol.rank ⟨[.GenericParam 0, .Name "A"]⟩ RewriteContext.empty
        = Except.ok (t, ctx') ∧
      ctx'.FindNodeOrInsertPos Symbol.rank
        (lookupKey Symbol.rank ⟨[.GenericParam 0, .Name "A"]⟩) = some t.Ptr ∧
      Term.get Symbol.rank ⟨[.GenericParam 0, .Name "A"]⟩ ctx' = Except.ok (t, ctx') :=
  get_twice Symbol.rank RewriteContext.empty ⟨[.GenericParam 0, .Name "A"]⟩ (by simp)

/-- The storage behind the term that `Term::get` returns holds the symbols of
the sequence interned, on a hit as on a miss. -/
theorem get_load (getOpaquePointer : SymbolPointer)
    (hinj : Function.Injective getOpaquePointer) (m : MutableTerm)
    (ctx : RewriteContext) (t : Term) (ctx' : RewriteContext)
    (h : Term.get getOpaquePointer m ctx = Except.ok (t, ctx')) :
    t.Ptr ∈ ctx'.Terms ∧ ∃ storage, ctx'.load t.Ptr = some storage ∧
      storage.Size = m.size ∧ storage.getElements = m.Symbols := by
  rcases get_cases getOpaquePointer m ctx t ctx' h with ⟨hfind, hctx⟩ | ⟨_, hptr, hctx⟩
  · rw [hctx]
    obtain ⟨hmem, storage, hload, hprof⟩ := find_some getOpaquePointer ctx _ _ hfind
    exact ⟨hmem, storage, hload,
      (profile_eq_lookupKey_iff getOpaquePointer hinj storage m).1 hprof⟩
  · rw [hctx, hptr]
    refine ⟨by simp, { Size := m.size, Trailing := m.Symbols }, ?_, rfl, ?_⟩
    · simp [RewriteContext.load]
    · simp [Storage.getElements, MutableTerm.size]

/-- C20: for every context and every non-empty `m`, `Term::get(m, ctx)` returns
a term whose `size()` is `len(m)`, whose element `[i]` is `m[i]` for every
`i < len(m)`, whose `back()` is the last symbol of `m`, and which converts
back to `m`; this holds on a hit as on a miss, the opaque pointers of
distinct symbols being distinct. -/
theorem get_content (getOpaquePointer : SymbolPointer)
    (hinj : Function.Injective getOpaquePointer) (ctx : RewriteContext)
    (m : MutableTerm) (hm : m.Symbols ≠ []) :
    ∃ t ctx', Term.get getOpaquePointer m ctx = Except.ok (t, ctx') ∧
      Term.size ctx' t = some m.size ∧
      (∀ i, i < m.size → Term.getElem ctx' t i = m.Symbols[i]?) ∧
      Term.back ctx' t = some (m.Symbols.getLast hm) ∧
      MutableTerm.ofTerm ctx' t = some m := by
  obtain ⟨t, ctx', hget⟩ := get_total getOpaquePointer ctx m hm
  obtain ⟨_, storage, hload, hsize, helems⟩ := get_load getOpaquePointer hinj m ctx t ctx' hget
  refine ⟨t, ctx', hget, ?_, ?_, ?_, ?_⟩
  · simp [Term.size, hload, hsize]
  · intro i _
    simp [Term.getElem, hload, helems]
  · simp [Term.back, hload, helems, List.getLast?_eq_getLast _ hm]
  · simp [MutableTerm.ofTerm, Term.elements, hload, helems]

/-- Witness for C20: interning `T.A` in a context that already holds it (a hit). -/
theorem get_content_witness :
    ∃ t ctx', Term.get Symbol.rank ⟨[.GenericParam 0, .Name "A"]⟩
        ⟨[⟨2, [.GenericParam 0, .Name "A"]⟩], [0]⟩ = Except.ok (t, ctx') ∧
      Term.size ctx' t = some 2 ∧
      (∀ i, i < 2 → Term.getElem ctx' t i = [Symbol.GenericParam 0, Symbol.Name "A"][i]?) ∧
      Term.back ctx' t = some (Symbol.Name "A") ∧
      MutableTerm.ofTerm ctx' t = some ⟨[.GenericParam 0, .Name "A"]⟩ :=
  get_content Symbol.rank (fun a b h => rank_injective a b h)
    ⟨[⟨2, [.GenericParam 0, .Name "A"]⟩], [0]⟩ ⟨[.GenericParam 0, .Name "A"]⟩ (by simp)

/-! ## Interning: the invariant of the table -/

/-- A call of `Term::get` keeps what is allocated and what is registered. -/
theorem get_mono (getOpaquePointer : SymbolPointer) (m : MutableTerm)
    (ctx : RewriteContext) (t : Term) (ctx' : RewriteContext)
    (h : Term.get getOpaquePointer m ctx = Except.ok (t, ctx')) :
    (∀ node storage, ctx.load node = some storage → ctx'.load node = some storage) ∧
    (∀ node, node ∈ ctx.Terms → node ∈ ctx'.Terms) := by
  rcases get_cases getOpaquePointer m ctx t ctx' h with ⟨_, hctx⟩ | ⟨_, _, hctx⟩
  · rw [hctx]
    exact ⟨fun _ _ h => h, fun _ h => h⟩
  · rw [hctx]
    constructor
    · intro node storage hload
      simp only [RewriteContext.load] at hload ⊢
      have hlt : node < ctx.Allocator.length := by
        by_contra hge
        rw [List.getElem?_eq_none (by omega)] at hload
        cases hload
      rw [List.getElem?_append_left hlt]
      exact hload
    · intro node hmem
      exact List.mem_append_left _ hmem

/-- A sequence of `Term::get` calls keeps what is allocated and what is
registered. -/
theorem steps_mono (getOpaquePointer : SymbolPointer) (ctx ctx' : RewriteContext)
    (h : GetSteps getOpaquePointer ctx ctx') :
    (∀ node storage, ctx.load node = some storage → ctx'.load node = some storage) ∧
    (∀ node, node ∈ ctx.Terms → node ∈ ctx'.Terms) := by
  induction h with
  | refl => exact ⟨fun _ _ h => h, fun _ h => h⟩
  | step m t _ hget ih =>
    obtain ⟨h1, h2⟩ := get_mono getOpaquePointer m _ t _ hget
    exact ⟨fun node storage hl => h1 node storage (ih.1 node storage hl),
      fun node hm => h2 node (ih.2 node hm)⟩

/-- The empty context satisfies the invariant. -/
theorem invariant_empty : RewriteContext.empty.Invariant := by
  refine ⟨?_, ?_, ?_⟩ <;> simp [RewriteContext.empty]

/-- A call of `Term::get` preserves the invariant. -/
theorem invariant_get (getOpaquePointer : SymbolPointer)
    (hinj : Function.Injective getOpaquePointer) (m : MutableTerm)
    (ctx : RewriteContext) (t : Term) (ctx' : RewriteContext)
    (hinv : ctx.Invariant)
    (h : Term.get getOpaquePointer m ctx = Except.ok (t, ctx')) : ctx'.Invariant := by
  have hm := get_ok_nonempty getOpaquePointer m ctx t ctx' h
  rcases get_cases getOpaquePointer m ctx t ctx' h with ⟨_, hctx⟩ | ⟨hfind, _, hctx⟩
  · rw [hctx]
    exact hinv
  · obtain ⟨hvalid, hsize, huniq⟩ := hinv
    -- how the new memory reads at a registered node
    have hload : ∀ node storage, node ∈ ctx.Terms ++ [ctx.Allocator.length] →
        ctx'.load node = some storage →
        (node ∈ ctx.Terms ∧ ctx.load node = some storage) ∨
        (node = ctx.Allocator.length ∧
          storage = { Size := m.size, Trailing := m.Symbols }) := by
      intro node storage hmem hl
      rw [hctx] at hl
      simp only [RewriteContext.load] at hl
      simp only [List.mem_append, List.mem_singleton] at hmem
      rcases hmem with hmem | hmem
      · left
        have hlt := hvalid node hmem
        rw [List.getElem?_append_left hlt] at hl
        exact ⟨hmem, hl⟩
      · right
        subst hmem
        simp only [List.getElem?_concat_length, Option.some.injEq] at hl
        exact ⟨rfl, hl.symm⟩
    have hterms : ctx'.Terms = ctx.Terms ++ [ctx.Allocator.length] := by rw [hctx]
    -- a registered storage with the symbols of `m` would have been found
    have hfresh : ∀ node storage, node ∈ ctx.Terms → ctx.load node = some storage →
        storage.getElements = m.Symbols → False := by
      intro node storage hmem hl helems
      obtain ⟨hsz, _⟩ := hsize node storage hmem hl
      have hsz' : storage.Size = m.size := by
        have hlen : storage.getElements.length = storage.Size := by
          simp [Storage.getElements, hsz]
        rw [← hlen, helems]
        rfl
      exact find_none getOpaquePointer ctx _ hfind node storage hmem hl
        ((profile_eq_lookupKey_iff getOpaquePointer hinj storage m).2 ⟨hsz', helems⟩)
    have hnewElems : Storage.getElements { Size := m.size, Trailing := m.Symbols }
        = m.Symbols := by
      simp [Storage.getElements, MutableTerm.size]
    refine ⟨?_, ?_, ?_⟩
    · intro node hmem
      rw [hctx] at hmem ⊢
      simp only [List.mem_append, List.mem_singleton, List.length_append,
        List.length_singleton] at hmem ⊢
      rcases hmem with hmem | hmem
      · have := hvalid node hmem
        omega
      · omega
    · intro node storage hmem hl
      rw [hterms] at hmem
      rcases hload node storage hmem hl with ⟨hmem', hl'⟩ | ⟨_, hst⟩
      · exact hsize node storage hmem' hl'
      · rw [hst]
        exact ⟨rfl, List.length_pos.2 hm⟩
    · intro n₁ n₂ s₁ s₂ hm₁ hm₂ hl₁ hl₂ helems
      rw [hterms] at hm₁ hm₂
      rcases hload n₁ s₁ hm₁ hl₁ with ⟨hm₁', hl₁'⟩ | ⟨hn₁, hs₁⟩
      · rcases hload n₂ s₂ hm₂ hl₂ with ⟨hm₂', hl₂'⟩ | ⟨_, hs₂⟩
        · exact huniq n₁ n₂ s₁ s₂ hm₁' hm₂' hl₁' hl₂' helems
        · exact absurd (by rw [helems, hs₂, hnewElems]) (hfresh n₁ s₁ hm₁' hl₁')
      · rcases hload n₂ s₂ hm₂ hl₂ with ⟨hm₂', hl₂'⟩ | ⟨hn₂, _⟩
        · exact absurd (by rw [← helems, hs₁, hnewElems]) (hfresh n₂ s₂ hm₂' hl₂')
        · rw [hn₁, hn₂]

/-- A sequence of `Term::get` calls preserves the invariant. -/
theorem invariant_steps (getOpaquePointer : SymbolPointer)
    (hinj : Function.Injective getOpaquePointer) (ctx ctx' : RewriteContext)
    (hinv : ctx.Invariant) (h : GetSteps getOpaquePointer ctx ctx') : ctx'.Invariant := by
  induction h with
  | refl => exact hinv
  | step m t _ hget ih => exact invariant_get getOpaquePointer hinj m _ t _ ih hget

/-- Under the invariant a lookup finds the registered node that holds the
symbols looked up. -/
theorem find_of_registered (getOpaquePointer : SymbolPointer)
    (hinj : Function.Injective getOpaquePointer) (ctx : RewriteContext)
    (hinv : ctx.Invariant) (m : MutableTerm) (node : Nat) (storage : Storage)
    (hmem : node ∈ ctx.Terms) (hload : ctx.load node = some storage)
    (hsize : storage.Size = m.size) (helems : storage.getElements = m.Symbols) :
    ctx.FindNodeOrInsertPos getOpaquePointer (lookupKey getOpaquePointer m) = some node := by
  unfold RewriteContext.FindNodeOrInsertPos
  apply find?_eq_some_of_unique _ _ _ hmem
  · simp [hload, (profile_eq_lookupKey_iff getOpaquePointer hinj storage m).2 ⟨hsize, helems⟩]
  · intro x hx hpx
    cases hlx : ctx.load x with
    | none => simp [hlx] at hpx
    | some sx =>
      simp only [hlx, decide_eq_true_eq] at hpx
      have := (profile_eq_lookupKey_iff getOpaquePointer hinj sx m).1 hpx
      exact hinv.2.2 x node sx storage hx hmem hlx hload (by rw [this.2, helems])

/-- Two mutable terms are equal when they have the same size and the same
symbol at every index. -/
theorem mutableTerm_eq_iff (a b : MutableTerm) :
    a = b ↔ a.size = b.size ∧ ∀ i, i < a.size → a.Symbols[i]? = b.Symbols[i]? := by
  constructor
  · rintro rfl
    exact ⟨rfl, fun _ _ => rfl⟩
  · rintro ⟨hsz, hsym⟩
    have hl : a.Symbols = b.Symbols := by
      apply List.ext_getElem?
      intro n
      by_cases hn : n < a.size
      · exact hsym n hn
      · rw [List.getElem?_eq_none (by simpa [MutableTerm.size] using hn),
          List.getElem?_eq_none (by rw [hsz] at hn; simpa [MutableTerm.size] using hn)]
    cases a
    cases b
    simpa using hl

/-- C19: in a context reached from the empty context by `Term::get` calls,
intern `s1`, make any further `Term::get` calls, then intern `s2`: the two
terms returned are identical if and only if `s1` and `s2` have the same size
and the same symbol at every index, that is if and only if `s1 = s2`.  The
opaque pointers of distinct symbols are distinct. -/
theorem get_identity_iff (getOpaquePointer : SymbolPointer)
    (hinj : Function.Injective getOpaquePointer)
    (ctx ctx₁ ctx₂ ctx₃ : RewriteContext) (s₁ s₂ : MutableTerm) (t₁ t₂ : Term)
    (hreach : GetSteps getOpaquePointer RewriteContext.empty ctx)
    (h₁ : Term.get getOpaquePointer s₁ ctx = Except.ok (t₁, ctx₁))
    (hlater : GetSteps getOpaquePointer ctx₁ ctx₂)
    (h₂ : Term.get getOpaquePointer s₂ ctx₂ = Except.ok (t₂, ctx₃)) :
    (t₁ = t₂ ↔
      s₁.size = s₂.size ∧ ∀ i, i < s₁.size → s₁.Symbols[i]? = s₂.Symbols[i]?) ∧
    (t₁ = t₂ ↔ s₁ = s₂) := by
  obtain ⟨hmem₁, st₁, hl₁, hsz₁, hel₁⟩ := get_load getOpaquePointer hinj s₁ ctx t₁ ctx₁ h₁
  obtain ⟨_, st₂, hl₂, _, hel₂⟩ := get_load getOpaquePointer hinj s₂ ctx₂ t₂ ctx₃ h₂
  obtain ⟨hloadSteps, hmemSteps⟩ := steps_mono getOpaquePointer ctx₁ ctx₂ hlater
  obtain ⟨hloadGet, _⟩ := get_mono getOpaquePointer s₂ ctx₂ t₂ ctx₃ h₂
  have hinv₂ : ctx₂.Invariant :=
    invariant_steps getOpaquePointer hinj ctx₁ ctx₂
      (invariant_get getOpaquePointer hinj s₁ ctx t₁ ctx₁
        (invariant_steps getOpaquePointer hinj _ ctx invariant_empty hreach) h₁) hlater
  have hiff : t₁ = t₂ ↔ s₁ = s₂ := by
    constructor
    · intro ht
      have hl₁' := hloadGet _ _ (hloadSteps _ _ hl₁)
      rw [ht, hl₂] at hl₁'
      simp only [Option.some.injEq] at hl₁'
      have : s₁.Symbols = s₂.Symbols := by rw [← hel₁, ← hel₂, hl₁']
      cases s₁
      cases s₂
      simpa using this
    · intro hs
      have hfind := find_of_registered getOpaquePointer hinj ctx₂ hinv₂ s₂ t₁.Ptr st₁
        (hmemSteps _ hmem₁) (hloadSteps _ _ hl₁) (by rw [hsz₁, hs]) (by rw [hel₁, hs])
      rcases get_cases getOpaquePointer s₂ ctx₂ t₂ ctx₃ h₂ with ⟨hhit, _⟩ | ⟨hmiss, _, _⟩
      · rw [hfind] at hhit
        simp only [Option.some.injEq] at hhit
        cases t₁
        cases t₂
        simpa using hhit
      · rw [hfind] at hmiss
        cases hmiss
  exact ⟨by rw [hiff, mutableTerm_eq_iff], hiff⟩

/-- Witness for C19: from the empty context intern `T.A`, then `T.B`, then `T.A`
again. -/
theorem get_identity_iff_witness :
    ((⟨0⟩ : Term) = ⟨0⟩ ↔
      2 = 2 ∧ ∀ i, i < 2 → [Symbol.GenericParam 0, Symbol.Name "A"][i]?
        = [Symbol.GenericParam 0, Symbol.Name "A"][i]?) ∧
    ((⟨0⟩ : Term) = ⟨0⟩ ↔
      (⟨[.GenericParam 0, .Name "A"]⟩ : MutableTerm) = ⟨[.GenericParam 0, .Name "A"]⟩) :=
  get_identity_iff Symbol.rank (fun a b h => rank_injective a b h)
    RewriteContext.empty
    ⟨[⟨2, [.GenericParam 0, .Name "A"]⟩], [0]⟩
    ⟨[⟨2, [.GenericParam 0, .Name "A"]⟩, ⟨2, [.GenericParam 0, .Name "B"]⟩], [0, 1]⟩
    ⟨[⟨2, [.GenericParam 0, .Name "A"]⟩, ⟨2, [.GenericParam 0, .Name "B"]⟩], [0, 1]⟩
    ⟨[.GenericParam 0, .Name "A"]⟩ ⟨[.GenericParam 0, .Name "A"]⟩ ⟨0⟩ ⟨0⟩
    (GetSteps.refl _) rfl
    (GetSteps.step ⟨[.GenericParam 0, .Name "B"]⟩ ⟨1⟩ (GetSteps.refl _) rfl)
    rfl

/-! ## Interning: frame and failure -/

/-- C21: for every context, every term `h` registered in it (its pointer is in
the table and points to a storage) and every non-empty `s`, `Term::get(s, ctx)`
returns, `h` is still registered afterwards and points to the same storage,
so its size and symbols are what they were; on a miss the table grows by
exactly one entry, the term returned, and the arena by one storage, and on
a hit the context is unchanged. -/
theorem get_frame (getOpaquePointer : SymbolPointer) (ctx : RewriteContext)
    (h : Term) (storage : Storage) (s : MutableTerm) (hs : s.Symbols ≠ [])
    (hreg : h.Ptr ∈ ctx.Terms) (hload : ctx.load h.Ptr = some storage) :
    ∃ t ctx', Term.get getOpaquePointer s ctx = Except.ok (t, ctx') ∧
      h.Ptr ∈ ctx'.Terms ∧ ctx'.load h.Ptr = some storage ∧
      Term.size ctx' h = Term.size ctx h ∧
      Term.elements ctx' h = Term.elements ctx h ∧
      (ctx.FindNodeOrInsertPos getOpaquePointer (lookupKey getOpaquePointer s) = none →
        ctx'.Terms = ctx.Terms ++ [t.Ptr] ∧
        ctx'.Terms.length = ctx.Terms.length + 1 ∧
        ctx'.Allocator.length = ctx.Allocator.length + 1) ∧
      (ctx.FindNodeOrInsertPos getOpaquePointer (lookupKey getOpaquePointer s) ≠ none →
        ctx' = ctx) := by
  obtain ⟨t, ctx', hget⟩ := get_total getOpaquePointer ctx s hs
  obtain ⟨hloadMono, hmemMono⟩ := get_mono getOpaquePointer s ctx t ctx' hget
  have hload' := hloadMono _ _ hload
  refine ⟨t, ctx', hget, hmemMono _ hreg, hload', ?_, ?_, ?_, ?_⟩
  · simp [Term.size, hload, hload']
  · simp [Term.elements, hload, hload']
  · intro hmiss
    rcases get_cases getOpaquePointer s ctx t ctx' hget with ⟨hhit, _⟩ | ⟨_, hptr, hctx⟩
    · rw [hmiss] at hhit
      cases hhit
    · rw [hctx, hptr]
      simp
  · intro hhit
    rcases get_cases getOpaquePointer s ctx t ctx' hget with ⟨_, hctx⟩ | ⟨hmiss, _, _⟩
    · exact hctx
    · exact absurd hmiss hhit

/-- Witness for C21: with `T.A` registered, interning `T.B` is a miss that
leaves `T.A` in place. -/
theorem get_frame_witness :
    ∃ t ctx', Term.get Symbol.rank ⟨[.GenericParam 0, .Name "B"]⟩
        ⟨[⟨2, [.GenericParam 0, .Name "A"]⟩], [0]⟩ = Except.ok (t, ctx') ∧
      0 ∈ ctx'.Terms ∧ ctx'.load 0 = some ⟨2, [.GenericParam 0, .Name "A"]⟩ ∧
      Term.size ctx' ⟨0⟩ = Term.size ⟨[⟨2, [.GenericParam 0, .Name "A"]⟩], [0]⟩ ⟨0⟩ ∧
      Term.elements ctx' ⟨0⟩
        = Term.elements ⟨[⟨2, [.GenericParam 0, .Name "A"]⟩], [0]⟩ ⟨0⟩ ∧
      (RewriteContext.FindNodeOrInsertPos Symbol.rank
          ⟨[⟨2, [.GenericParam 0, .Name "A"]⟩], [0]⟩
          (lookupKey Symbol.rank ⟨[.GenericParam 0, .Name "B"]⟩) = none →
        ctx'.Terms = [0] ++ [t.Ptr] ∧
        ctx'.Terms.length = 1 + 1 ∧
        ctx'.Allocator.length = 1 + 1) ∧
      (RewriteContext.FindNodeOrInsertPos Symbol.rank
          ⟨[⟨2, [.GenericParam 0, .Name "A"]⟩], [0]⟩
          (lookupKey Symbol.rank ⟨[.GenericParam 0, .Name "B"]⟩) ≠ none →
        ctx' = ⟨[⟨2, [.GenericParam 0, .Name "A"]⟩], [0]⟩) :=
  get_frame Symbol.rank ⟨[⟨2, [.GenericParam 0, .Name "A"]⟩], [0]⟩ ⟨0⟩
    ⟨2, [.GenericParam 0, .Name "A"]⟩ ⟨[.GenericParam 0, .Name "B"]⟩ (by simp)
    (by simp) rfl

/-- C22: the function `Term::get` fails, on the assertion `size > 0`, if and
only if the input is empty; the failure is raised before the table is
consulted and yields no new context; for every non-empty input it returns a
term. -/
theorem get_fails_iff_empty (getOpaquePointer : SymbolPointer) (ctx : RewriteContext)
    (m : MutableTerm) :
    ((∃ msg, Term.get getOpaquePointer m ctx = Except.error msg) ↔ m.Symbols = []) ∧
    (m.Symbols = [] → Term.get getOpaquePointer m ctx
      = Except.error "assert(size > 0): Term must have at least one symbol") ∧
    (m.Symbols ≠ [] → ∃ t ctx', Term.get getOpaquePointer m ctx = Except.ok (t, ctx')) := by
  have hfail : m.Symbols = [] → Term.get getOpaquePointer m ctx
      = Except.error "assert(size > 0): Term must have at least one symbol" := by
    intro hm
    simp [Term.get, MutableTerm.size, hm]
  refine ⟨⟨?_, fun hm => ⟨_, hfail hm⟩⟩, hfail, get_total getOpaquePointer ctx m⟩
  rintro ⟨msg, hmsg⟩
  by_contra hm
  obtain ⟨t, ctx', hget⟩ := get_total getOpaquePointer ctx m hm
  rw [hget] at hmsg
  cases hmsg

/-! ## The root protocols of a term -/

/-- What `getRootProtocols` does on a term with a first symbol. -/
theorem getRootProtocols_cons (symbol : Symbol) (rest : List Symbol) :
    MutableTerm.getRootProtocols ⟨symbol :: rest⟩ =
      match symbol with
      | .Protocol proto => Except.ok [proto]
      | .AssociatedType protos _ => Except.ok protos
      | .GenericParam _ => Except.ok []
      | _ => Except.error "llvm_unreachable: Bad root symbol" := by
  cases symbol <;> rfl

/-- C23: on a non-empty term `getRootProtocols` returns the empty list when the
first symbol is a generic parameter, `[P]` when it is the protocol symbol `P`,
and `[P1, ..., Pn]` when it is an associated-type symbol owned by
`P1, ..., Pn`; two terms with the same first symbol get the same result. -/
theorem getRootProtocols_by_head (t : MutableTerm) (head : Symbol)
    (hhead : t.Symbols.head? = some head) :
    (∀ index, head = Symbol.GenericParam index → t.getRootProtocols = Except.ok []) ∧
    (∀ proto, head = Symbol.Protocol proto → t.getRootProtocols = Except.ok [proto]) ∧
    (∀ protos name, head = Symbol.AssociatedType protos name →
      t.getRootProtocols = Except.ok protos) ∧
    (∀ t' : MutableTerm, t'.Symbols.head? = some head →
      t'.getRootProtocols = t.getRootProtocols) := by
  have hshape : ∀ u : MutableTerm, u.Symbols.head? = some head →
      ∃ rest, u = ⟨head :: rest⟩ := by
    intro u hu
    cases u with
    | mk symbols =>
      cases symbols with
      | nil => simp at hu
      | cons x rest =>
        simp only [List.head?_cons, Option.some.injEq] at hu
        exact ⟨rest, by rw [hu]⟩
  obtain ⟨rest, ht⟩ := hshape t hhead
  refine ⟨?_, ?_, ?_, ?_⟩
  · intro index hk
    rw [ht, hk, getRootProtocols_cons]
  · intro proto hk
    rw [ht, hk, getRootProtocols_cons]
  · intro protos name hk
    rw [ht, hk, getRootProtocols_cons]
  · intro t' ht'
    obtain ⟨rest', ht''⟩ := hshape t' ht'
    rw [ht, ht'', getRootProtocols_cons, getRootProtocols_cons]

/-- Witness for C23: the term `[P1&P2:A].Foo`, headed by an associated type
owned by the protocols 1 and 2. -/
theorem getRootProtocols_by_head_witness :
    MutableTerm.getRootProtocols ⟨[.AssociatedType [1, 2] "A", .Name "Foo"]⟩
      = Except.ok [1, 2] :=
  (getRootProtocols_by_head ⟨[.AssociatedType [1, 2] "A", .Name "Foo"]⟩
    (.AssociatedType [1, 2] "A") rfl).2.2.1 [1, 2] "A" rfl

/-- C24: on a non-empty term `getRootProtocols` fails, by reaching
`llvm_unreachable`, if and only if the kind of the first symbol is `Name`,
`Layout`, `Superclass` or `ConcreteType`, and it returns a result if and only
if that kind is `Protocol`, `AssociatedType` or `GenericParam`. -/
theorem getRootProtocols_fails_iff (t : MutableTerm) (head : Symbol)
    (hhead : t.Symbols.head? = some head) :
    ((∃ msg, t.getRootProtocols = Except.error msg) ↔
      (head.getKind = Kind.Name ∨ head.getKind = Kind.Layout ∨
        head.getKind = Kind.Superclass ∨ head.getKind = Kind.ConcreteType)) ∧
    ((∃ protos, t.getRootProtocols = Except.ok protos) ↔
      (head.getKind = Kind.Protocol ∨ head.getKind = Kind.AssociatedType ∨
        head.getKind = Kind.GenericParam)) ∧
    ((∃ msg, t.getRootProtocols = Except.error msg) →
      t.getRootProtocols = Except.error "llvm_unreachable: Bad root symbol") := by
  cases t with
  | mk symbols =>
    cases symbols with
    | nil => simp at hhead
    | cons x rest =>
      simp only [List.head?_cons, Option.some.injEq] at hhead
      subst hhead
      rw [getRootProtocols_cons]
      cases x <;> simp [Symbol.getKind]

/-- Witness for C24: the term `Foo.Bar` is headed by a name. -/
theorem getRootProtocols_fails_iff_witness :
    ((∃ msg, MutableTerm.getRootProtocols ⟨[.Name "Foo", .Name "Bar"]⟩ = Except.error msg) ↔
      ((Symbol.Name "Foo").getKind = Kind.Name ∨ (Symbol.Name "Foo").getKind = Kind.Layout ∨
        (Symbol.Name "Foo").getKind = Kind.Superclass ∨
        (Symbol.Name "Foo").getKind = Kind.ConcreteType)) ∧
    ((∃ protos, MutableTerm.getRootProtocols ⟨[.Name "Foo", .Name "Bar"]⟩
        = Except.ok protos) ↔
      ((Symbol.Name "Foo").getKind = Kind.Protocol ∨
        (Symbol.Name "Foo").getKind = Kind.AssociatedType ∨
        (Symbol.Name "Foo").getKind = Kind.GenericParam)) ∧
    ((∃ msg, MutableTerm.getRootProtocols ⟨[.Name "Foo", .Name "Bar"]⟩ = Except.error msg) →
      MutableTerm.getRootProtocols ⟨[.Name "Foo", .Name "Bar"]⟩
        = Except.error "llvm_unreachable: Bad root symbol") :=
  getRootProtocols_fails_iff ⟨[.Name "Foo", .Name "Bar"]⟩ (.Name "Foo") rfl

/-! ## Contract failures of `rewriteSubTerm` and `compare` -/

/-- With an occurrence found and `rhs` longer than `lhs` the length assertion
fails. -/
theorem rewriteSubTerm_of_found_longer (t lhs rhs : MutableTerm)
    (hfound : t.findSubTerm lhs ≠ t.size) (hlen : lhs.size < rhs.size) :
    t.rewriteSubTerm lhs rhs = Except.error "assert(rhs.size() <= lhs.size())" := by
  have h : ¬ rhs.size ≤ lhs.size := by omega
  simp [MutableTerm.rewriteSubTerm, hfound, h]

/-- With `rhs` no longer than `lhs` the call returns. -/
theorem rewriteSubTerm_total (t lhs rhs : MutableTerm) (hlen : rhs.size ≤ lhs.size) :
    ∃ r, t.rewriteSubTerm lhs rhs = Except.ok r := by
  by_cases hfound : t.findSubTerm lhs = t.size
  · exact ⟨_, rewriteSubTerm_of_absent t lhs rhs hfound⟩
  · exact ⟨_, rewriteSubTerm_of_found t lhs rhs hfound hlen⟩

/-- For `lhs` and `rhs` objects other than the term, as soon as `t` or `lhs`
has a symbol: the call fails, on the assertion `rhs.size() <= lhs.size()`, if
and only if `lhs` occurs in `t` and `rhs` is longer than `lhs`; when `lhs`
does not occur the call returns false and leaves `t`, whatever the lengths. -/
theorem rewriteSubTerm_fails_iff_objects (t lhs rhs : MutableTerm)
    (hne : t.Symbols ≠ [] ∨ lhs.Symbols ≠ []) :
    ((∃ msg, t.rewriteSubTerm lhs rhs = Except.error msg) ↔
      (lhs.Symbols <:+: t.Symbols ∧ lhs.size < rhs.size)) ∧
    ((∃ msg, t.rewriteSubTerm lhs rhs = Except.error msg) →
      t.rewriteSubTerm lhs rhs = Except.error "assert(rhs.size() <= lhs.size())") ∧
    (¬ lhs.Symbols <:+: t.Symbols → t.rewriteSubTerm lhs rhs = Except.ok (false, t)) := by
  have habsent : ¬ lhs.Symbols <:+: t.Symbols →
      t.rewriteSubTerm lhs rhs = Except.ok (false, t) := fun h =>
    rewriteSubTerm_of_absent t lhs rhs ((findSubTerm_eq_size_iff t lhs).2 (Or.inl h))
  by_cases hfound : t.findSubTerm lhs = t.size
  · have hno : ¬ lhs.Symbols <:+: t.Symbols := by
      rcases (findSubTerm_eq_size_iff t lhs).1 hfound with h | ⟨ht, hl⟩
      · exact h
      · rcases hne with h | h
        · exact absurd ht h
        · exact absurd hl h
    rw [rewriteSubTerm_of_absent t lhs rhs hfound]
    refine ⟨⟨?_, ?_⟩, ?_, fun _ => rfl⟩
    · rintro ⟨msg, h⟩
      cases h
    · rintro ⟨h, _⟩
      exact absurd h hno
    · rintro ⟨msg, h⟩
      cases h
  · have hocc : lhs.Symbols <:+: t.Symbols := ⟨_, _, (found_decomp t lhs hfound).1.symm⟩
    by_cases hlen : rhs.size ≤ lhs.size
    · refine ⟨?_, ?_, habsent⟩
      · rw [rewriteSubTerm_of_found t lhs rhs hfound hlen]
        constructor
        · rintro ⟨msg, h⟩
          cases h
        · rintro ⟨_, h⟩
          omega
      · rw [rewriteSubTerm_of_found t lhs rhs hfound hlen]
        rintro ⟨msg, h⟩
        cases h
    · have hlt : lhs.size < rhs.size := by omega
      have herr := rewriteSubTerm_of_found_longer t lhs rhs hfound hlt
      exact ⟨⟨fun _ => ⟨hocc, hlt⟩, fun _ => ⟨_, herr⟩⟩, fun _ => herr, habsent⟩

/-- The loop of `compare` fails when it reaches a pair of symbols on which the
comparator and the identity of symbols disagree. -/
theorem compareLoop_fails (symCompare : SymbolCompare) (graph : ProtocolGraph)
    (x y : Symbol)
    (hbad : (symCompare x y graph = 0 ∧ x ≠ y) ∨ (symCompare x y graph ≠ 0 ∧ x = y)) :
    ∀ (a b : List Symbol) (i : Nat), a[i]? = some x → b[i]? = some y →
      (∀ j, j < i → ∃ s, a[j]? = some s ∧ b[j]? = some s ∧ symCompare s s graph = 0) →
      ∃ msg, compareLoop symCompare graph a b = Except.error msg
  | [], _, _, ha, _, _ => by simp at ha
  | _ :: _, [], _, _, hb, _ => by simp at hb
  | u :: a, v :: b, 0, ha, hb, _ => by
    simp only [List.getElem?_cons_zero, Option.some.injEq] at ha hb
    subst ha hb
    rcases hbad with ⟨h0, hne⟩ | ⟨h0, heq⟩
    · exact ⟨"assert(lhs == rhs)", by simp [compareLoop, h0, hne]⟩
    · subst heq
      exact ⟨"assert(lhs != rhs)", by simp [compareLoop, h0]⟩
  | u :: a, v :: b, i + 1, ha, hb, hreach => by
    obtain ⟨s, hs1, hs2, hs0⟩ := hreach 0 (Nat.succ_pos i)
    simp only [List.getElem?_cons_zero, Option.some.injEq] at hs1 hs2
    subst hs1 hs2
    obtain ⟨msg, hmsg⟩ := compareLoop_fails symCompare graph x y hbad a b i
      (by simpa using ha) (by simpa using hb)
      (fun j hj => by simpa using hreach (j + 1) (Nat.succ_lt_succ hj))
    exact ⟨msg, by simp [compareLoop, hs0, hmsg]⟩

/-- C26: on terms `a`, `b` of one size, `compare(a, b)` fails an assertion
whenever the scan reaches an index `i` (at every index before it the two
symbols are identical and compare 0) at which the comparator returns 0 for
two non-identical symbols or non-zero for two identical ones; and under any
comparator that returns 0 exactly on identical symbols `compare` never
fails. -/
theorem compare_fails_fast (symCompare : SymbolCompare) (graph : ProtocolGraph)
    (a b : MutableTerm) (i : Nat) (x y : Symbol)
    (hlen : a.size = b.size)
    (hx : a.Symbols[i]? = some x) (hy : b.Symbols[i]? = some y)
    (hreach : ∀ j, j < i → ∃ s, a.Symbols[j]? = some s ∧ b.Symbols[j]? = some s ∧
      symCompare s s graph = 0)
    (hbad : (symCompare x y graph = 0 ∧ x ≠ y) ∨ (symCompare x y graph ≠ 0 ∧ x = y)) :
    (∃ msg, MutableTerm.compare symCompare a b graph = Except.error msg) ∧
    (∀ (goodCompare : SymbolCompare) (g : ProtocolGraph),
      (∀ u v, goodCompare u v g = 0 ↔ u = v) →
      ∀ a' b' : MutableTerm, ∃ c, MutableTerm.compare goodCompare a' b' g = Except.ok c) := by
  constructor
  · obtain ⟨msg, hmsg⟩ := compareLoop_fails symCompare graph x y hbad
      a.Symbols b.Symbols i hx hy hreach
    exact ⟨msg, by simp [MutableTerm.compare, hlen, hmsg]⟩
  · intro goodCompare g hgood a' b'
    unfold MutableTerm.compare
    by_cases hsz : a'.size = b'.size
    · simp only [hsz, ne_eq, not_true_eq_false, if_false]
      exact compareLoop_ok goodCompare g hgood _ _
    · simp only [ne_eq, hsz, not_false_eq_true, if_true]
      exact ⟨_, rfl⟩

/-- Witness for C26: a comparator that always returns 0 makes `compare` fail
on `T.A` against `T.B` at index 1, and the sample comparator makes it
return. -/
theorem compare_fails_fast_witness :
    (∃ msg, MutableTerm.compare (fun _ _ _ => 0) ⟨[.GenericParam 0, .Name "A"]⟩
        ⟨[.GenericParam 0, .Name "B"]⟩ sampleGraph = Except.error msg) ∧
    (∃ c, MutableTerm.compare sampleCompare ⟨[.GenericParam 0, .Name "A"]⟩
        ⟨[.GenericParam 0, .Name "B"]⟩ sampleGraph = Except.ok c) :=
  ⟨(compare_fails_fast (fun _ _ _ => 0) sampleGraph ⟨[.GenericParam 0, .Name "A"]⟩
      ⟨[.GenericParam 0, .Name "B"]⟩ 1 (.Name "A") (.Name "B") rfl rfl rfl
      (by
        intro j hj
        have hj0 : j = 0 := by omega
        subst hj0
        exact ⟨.GenericParam 0, rfl, rfl, rfl⟩)
      (Or.inl ⟨rfl, by decide⟩)).1,
    (compare_fails_fast (fun _ _ _ => 0) sampleGraph ⟨[.GenericParam 0, .Name "A"]⟩
      ⟨[.GenericParam 0, .Name "B"]⟩ 1 (.Name "A") (.Name "B") rfl rfl rfl
      (by
        intro j hj
        have hj0 : j = 0 := by omega
        subst hj0
        exact ⟨.GenericParam 0, rfl, rfl, rfl⟩)
      (Or.inl ⟨rfl, by decide⟩)).2 sampleCompare sampleGraph
      (sampleCompare_eq_zero_iff sampleGraph) _ _⟩

/-- After the first symbol the loop of `dump` writes a separator in front of
every symbol. -/
theorem dumpLoop_rest (symbolDump : SymbolDump) :
    ∀ (next : Symbol) (rest : List Symbol) (out : String),
      dumpLoop symbolDump false (next :: rest) out
        = out ++ ("." ++ joinedRendering symbolDump (next :: rest))
  | next, [], out => by
    simp [dumpLoop, joinedRendering, String.append_assoc]
  | next, after :: rest, out => by
    have ih := dumpLoop_rest symbolDump after rest ((out ++ ".") ++ symbolDump next)
    have hstep : dumpLoop symbolDump false (next :: after :: rest) out
        = dumpLoop symbolDump false (after :: rest) ((out ++ ".") ++ symbolDump next) := by
      simp [dumpLoop]
    rw [hstep, ih]
    simp only [joinedRendering, String.append_assoc]

/-- The method `dump` appends the joined rendering to the stream. -/
theorem dump_eq (symbolDump : SymbolDump) (t : MutableTerm) (out : String) :
    t.dump symbolDump out = out ++ joinedRendering symbolDump t.Symbols := by
  cases t with
  | mk symbols =>
    cases symbols with
    | nil => simp [MutableTerm.dump, dumpLoop, joinedRendering]
    | cons first rest =>
      cases rest with
      | nil => simp [MutableTerm.dump, dumpLoop, joinedRendering]
      | cons next rest =>
        have hstep : MutableTerm.dump symbolDump ⟨first :: next :: rest⟩ out
            = dumpLoop symbolDump false (next :: rest) (out ++ symbolDump first) := by
          simp [MutableTerm.dump, dumpLoop]
        rw [hstep, dumpLoop_rest]
        simp only [joinedRendering, String.append_assoc]

/-- The joined rendering is the concatenation of its pieces. -/
theorem joinedRendering_pieces (render : Symbol → String) :
    ∀ symbols : List Symbol, joinedRendering render symbols
      = (renderingPieces render symbols).foldr (fun piece text => piece ++ text) ""
  | [] => rfl
  | [symbol] => by simp [joinedRendering, renderingPieces]
  | symbol :: next :: rest => by
    have ih := joinedRendering_pieces render (next :: rest)
    simp only [renderingPieces, List.map_cons, List.intersperse_cons₂, List.foldr_cons]
      at ih ⊢
    rw [joinedRendering, ih, String.append_assoc]

/-- The pieces are `n` renderings and `n - 1` separators. -/
theorem renderingPieces_length (render : Symbol → String) :
    ∀ symbols : List Symbol, (renderingPieces render symbols).length + 1
      = 2 * symbols.length ∨ symbols = []
  | [] => Or.inr rfl
  | [symbol] => Or.inl rfl
  | symbol :: next :: rest => by
    left
    rcases renderingPieces_length render (next :: rest) with ih | ih
    · simp only [renderingPieces, List.map_cons, List.intersperse_cons₂, List.length_cons]
        at ih ⊢
      omega
    · cases ih

/-- C27: the method `MutableTerm::dump` appends to the stream the renderings
of the symbols in order with a `"."` between neighbours, none leading or
trailing: the text is the concatenation of `2n - 1` pieces, the `n`
renderings and `n - 1` separators between them; and `Term::dump` of the
term interned from `t` writes the same text as `MutableTerm::dump` of `t`. -/
theorem dump_joined (symbolDump : SymbolDump) (getOpaquePointer : SymbolPointer)
    (hinj : Function.Injective getOpaquePointer) (t : MutableTerm) (out : String)
    (ctx ctx' : RewriteContext) (interned : Term)
    (hget : Term.get getOpaquePointer t ctx = Except.ok (interned, ctx')) :
    t.dump symbolDump out = out ++ joinedRendering symbolDump t.Symbols ∧
    joinedRendering symbolDump t.Symbols
      = (renderingPieces symbolDump t.Symbols).foldr (fun piece text => piece ++ text) "" ∧
    renderingPieces symbolDump t.Symbols = (t.Symbols.map symbolDump).intersperse "." ∧
    (renderingPieces symbolDump t.Symbols).length + 1 = 2 * t.size ∧
    Term.dump symbolDump ctx' interned out = some (t.dump symbolDump out) := by
  have hne := get_ok_nonempty getOpaquePointer t ctx interned ctx' hget
  obtain ⟨_, storage, hload, _, helems⟩ :=
    get_load getOpaquePointer hinj t ctx interned ctx' hget
  refine ⟨dump_eq symbolDump t out, joinedRendering_pieces symbolDump t.Symbols, rfl, ?_, ?_⟩
  · rcases renderingPieces_length symbolDump t.Symbols with h | h
    · exact h
    · exact absurd h hne
  · simp [Term.dump, MutableTerm.ofTerm, Term.elements, hload, helems]

/-- Witness for C27: the term `T.A.B`, every generic parameter rendered as `T`
and every name as itself. -/
theorem dump_joined_witness :
    MutableTerm.dump (fun s => match s with | Symbol.Name name => name | _ => "T")
        ⟨[.GenericParam 0, .Name "A", .Name "B"]⟩ "" = "T.A.B" ∧
    Term.dump (fun s => match s with | Symbol.Name name => name | _ => "T")
        ⟨[⟨3, [.GenericParam 0, .Name "A", .Name "B"]⟩], [0]⟩ ⟨0⟩ ""
      = some "T.A.B" :=
  ⟨(dump_joined (fun s => match s with | Symbol.Name name => name | _ => "T") Symbol.rank
      (fun a b h => rank_injective a b h) ⟨[.GenericParam 0, .Name "A", .Name "B"]⟩ ""
      RewriteContext.empty ⟨[⟨3, [.GenericParam 0, .Name "A", .Name "B"]⟩], [0]⟩ ⟨0⟩ rfl).1,
    (dump_joined (fun s => match s with | Symbol.Name name => name | _ => "T") Symbol.rank
      (fun a b h => rank_injective a b h) ⟨[.GenericParam 0, .Name "A", .Name "B"]⟩ ""
      RewriteContext.empty ⟨[⟨3, [.GenericParam 0, .Name "A", .Name "B"]⟩], [0]⟩ ⟨0⟩
      rfl).2.2.2.2⟩

/-! ## Interning: the reachable-state invariant -/

/-- A storage with the size and the symbols of `m` has the lookup key of `m`. -/
theorem profile_of_elements (getOpaquePointer : SymbolPointer) (storage : Storage)
    (m : MutableTerm) (hsize : storage.Size = m.size)
    (helems : storage.getElements = m.Symbols) :
    storage.Profile getOpaquePointer { Bits := [] } = lookupKey getOpaquePointer m := by
  rw [profile_eq, lookupKey_eq, hsize, helems]

/-- A call of `Term::get` preserves the invariant of the table, whatever the
opaque pointers of the symbols are. -/
theorem invariant_preserved (getOpaquePointer : SymbolPointer) (m : MutableTerm)
    (ctx : RewriteContext) (t : Term) (ctx' : RewriteContext)
    (hinv : ctx.Invariant)
    (h : Term.get getOpaquePointer m ctx = Except.ok (t, ctx')) : ctx'.Invariant := by
  have hm := get_ok_nonempty getOpaquePointer m ctx t ctx' h
  rcases get_cases getOpaquePointer m ctx t ctx' h with ⟨_, hctx⟩ | ⟨hfind, _, hctx⟩
  · rw [hctx]
    exact hinv
  · obtain ⟨hvalid, hsize, huniq⟩ := hinv
    have hterms : ctx'.Terms = ctx.Terms ++ [ctx.Allocator.length] := by rw [hctx]
    -- how the new memory reads at a registered node
    have hload : ∀ node storage, node ∈ ctx'.Terms → ctx'.load node = some storage →
        (node ∈ ctx.Terms ∧ ctx.load node = some storage) ∨
        (node = ctx.Allocator.length ∧
          storage = { Size := m.size, Trailing := m.Symbols }) := by
      intro node storage hmem hl
      rw [hterms] at hmem
      rw [hctx] at hl
      simp only [RewriteContext.load] at hl
      simp only [List.mem_append, List.mem_singleton] at hmem
      rcases hmem with hmem | hmem
      · left
        rw [List.getElem?_append_left (hvalid node hmem)] at hl
        exact ⟨hmem, hl⟩
      · right
        subst hmem
        simp only [List.getElem?_concat_length, Option.some.injEq] at hl
        exact ⟨rfl, hl.symm⟩
    -- a registered storage with the symbols of `m` would have been found
    have hfresh : ∀ node storage, node ∈ ctx.Terms → ctx.load node = some storage →
        storage.getElements = m.Symbols → False := by
      intro node storage hmem hl helems
      obtain ⟨hsz, _⟩ := hsize node storage hmem hl
      have hsz' : storage.Size = m.size := by
        have hlen : storage.getElements.length = storage.Size := by
          simp [Storage.getElements, hsz]
        rw [← hlen, helems]
        rfl
      exact find_none getOpaquePointer ctx _ hfind node storage hmem hl
        (profile_of_elements getOpaquePointer storage m hsz' helems)
    have hnewElems : Storage.getElements { Size := m.size, Trailing := m.Symbols }
        = m.Symbols := by
      simp [Storage.getElements, MutableTerm.size]
    refine ⟨?_, ?_, ?_⟩
    · intro node hmem
      rw [hctx] at hmem ⊢
      simp only [List.mem_append, List.mem_singleton, List.length_append,
        List.length_singleton] at hmem ⊢
      rcases hmem with hmem | hmem
      · have := hvalid node hmem
        omega
      · omega
    · intro node storage hmem hl
      rcases hload node storage hmem hl with ⟨hmem', hl'⟩ | ⟨_, hst⟩
      · exact hsize node storage hmem' hl'
      · rw [hst]
        exact ⟨rfl, List.length_pos.2 hm⟩
    · intro n₁ n₂ s₁ s₂ hm₁ hm₂ hl₁ hl₂ helems
      rcases hload n₁ s₁ hm₁ hl₁ with ⟨hm₁', hl₁'⟩ | ⟨hn₁, hs₁⟩
      · rcases hload n₂ s₂ hm₂ hl₂ with ⟨hm₂', hl₂'⟩ | ⟨_, hs₂⟩
        · exact huniq n₁ n₂ s₁ s₂ hm₁' hm₂' hl₁' hl₂' helems
        · exact absurd (by rw [helems, hs₂, hnewElems]) (hfresh n₁ s₁ hm₁' hl₁')
      · rcases hload n₂ s₂ hm₂ hl₂ with ⟨hm₂', hl₂'⟩ | ⟨hn₂, _⟩
        · exact absurd (by rw [← helems, hs₁, hnewElems]) (hfresh n₂ s₂ hm₂' hl₂')
        · rw [hn₁, hn₂]

/-- Every context reached from the empty one satisfies the invariant. -/
theorem invariant_reachable (getOpaquePointer : SymbolPointer) (ctx₀ ctx : RewriteContext)
    (hinv : ctx₀.Invariant) (h : GetSteps getOpaquePointer ctx₀ ctx) : ctx.Invariant := by
  induction h with
  | refl => exact hinv
  | step m t _ hget ih => exact invariant_preserved getOpaquePointer m _ t _ ih hget

/-- An allocated address can be dereferenced. -/
theorem load_of_valid (ctx : RewriteContext) (node : Nat)
    (h : node < ctx.Allocator.length) : ∃ storage, ctx.load node = some storage := by
  cases hl : ctx.load node with
  | some storage => exact ⟨storage, rfl⟩
  | none =>
    simp only [RewriteContext.load, List.getElem?_eq_none_iff] at hl
    omega

/-- Under the invariant, registered terms with the same symbols are identical. -/
theorem invariant_unique (ctx : RewriteContext) (hinv : ctx.Invariant) (h₁ h₂ : Term)
    (hr₁ : h₁.Ptr ∈ ctx.Terms) (hr₂ : h₂.Ptr ∈ ctx.Terms)
    (helems : Term.elements ctx h₁ = Term.elements ctx h₂) : h₁ = h₂ := by
  obtain ⟨hvalid, _, huniq⟩ := hinv
  obtain ⟨s₁, hl₁⟩ := load_of_valid ctx _ (hvalid _ hr₁)
  obtain ⟨s₂, hl₂⟩ := load_of_valid ctx _ (hvalid _ hr₂)
  simp only [Term.elements, hl₁, hl₂, Option.map_some', Option.some.injEq] at helems
  have := huniq _ _ _ _ hr₁ hr₂ hl₁ hl₂ helems
  cases h₁
  cases h₂
  simpa using this

/-- Under the invariant, a registered term has symbols, as many as its size
says and at least one. -/
theorem invariant_nonempty (ctx : RewriteContext) (hinv : ctx.Invariant) (h : Term)
    (hr : h.Ptr ∈ ctx.Terms) :
    ∃ symbols, Term.elements ctx h = some symbols ∧ symbols ≠ [] ∧
      Term.size ctx h = some symbols.length := by
  obtain ⟨hvalid, hsize, _⟩ := hinv
  obtain ⟨storage, hl⟩ := load_of_valid ctx _ (hvalid _ hr)
  obtain ⟨hsz, hpos⟩ := hsize _ _ hr hl
  have hel : storage.getElements = storage.Trailing := by
    simp [Storage.getElements, hsz]
  refine ⟨storage.getElements, by simp [Term.elements, hl], ?_, ?_⟩
  · rw [hel]
    intro hnil
    rw [hnil] at hsz
    simp only [List.length_nil] at hsz
    omega
  · simp [Term.size, hl, hel, hsz]

/-- C30: in every context reached from the empty context by `Term::get` calls
the invariant of the table holds: two registered terms with the same symbol
sequence are identical and every registered term is non-empty; and every
`Term::get` call takes a context that satisfies the invariant to one that
satisfies it. -/
theorem table_invariant (getOpaquePointer : SymbolPointer) :
    (∀ ctx, GetSteps getOpaquePointer RewriteContext.empty ctx →
      ctx.Invariant ∧
      (∀ h₁ h₂ : Term, h₁.Ptr ∈ ctx.Terms → h₂.Ptr ∈ ctx.Terms →
        Term.elements ctx h₁ = Term.elements ctx h₂ → h₁ = h₂) ∧
      (∀ h : Term, h.Ptr ∈ ctx.Terms →
        ∃ symbols, Term.elements ctx h = some symbols ∧ symbols ≠ [] ∧
          Term.size ctx h = some symbols.length)) ∧
    (∀ (ctx : RewriteContext) (m : MutableTerm) (t : Term) (ctx' : RewriteContext),
      ctx.Invariant → Term.get getOpaquePointer m ctx = Except.ok (t, ctx') →
      ctx'.Invariant ∧
      (∀ h₁ h₂ : Term, h₁.Ptr ∈ ctx'.Terms → h₂.Ptr ∈ ctx'.Terms →
        Term.elements ctx' h₁ = Term.elements ctx' h₂ → h₁ = h₂) ∧
      (∀ h : Term, h.Ptr ∈ ctx'.Terms →
        ∃ symbols, Term.elements ctx' h = some symbols ∧ symbols ≠ [] ∧
          Term.size ctx' h = some symbols.length)) := by
  have hall : ∀ ctx : RewriteContext, ctx.Invariant →
      ctx.Invariant ∧
      (∀ h₁ h₂ : Term, h₁.Ptr ∈ ctx.Terms → h₂.Ptr ∈ ctx.Terms →
        Term.elements ctx h₁ = Term.elements ctx h₂ → h₁ = h₂) ∧
      (∀ h : Term, h.Ptr ∈ ctx.Terms →
        ∃ symbols, Term.elements ctx h = some symbols ∧ symbols ≠ [] ∧
          Term.size ctx h = some symbols.length) :=
    fun ctx hinv => ⟨hinv, invariant_unique ctx hinv, invariant_nonempty ctx hinv⟩
  exact ⟨fun ctx hreach =>
      hall ctx (invariant_reachable getOpaquePointer _ ctx invariant_empty hreach),
    fun ctx m t ctx' hinv hget =>
      hall ctx' (invariant_preserved getOpaquePointer m ctx t ctx' hinv hget)⟩

/-! ## Strictly oriented and shrinking rules -/

/-- C31: if the symbol comparator returns 0 exactly on identical symbols and
`compare(rhs, lhs) < 0`, then whenever `rewriteSubTerm(t, lhs, rhs)` returns
true, `compare(result, t)` returns a negative value. -/
theorem rewriteSubTerm_decreasing (symCompare : SymbolCompare) (graph : ProtocolGraph)
    (t lhs rhs t' : MutableTerm) (c : Int)
    (hcmp : ∀ a b, symCompare a b graph = 0 ↔ a = b)
    (horient : MutableTerm.compare symCompare rhs lhs graph = Except.ok c) (hc : c < 0)
    (hrw : t.rewriteSubTerm lhs rhs = Except.ok (true, t')) :
    ∃ c', MutableTerm.compare symCompare t' t graph = Except.ok c' ∧ c' < 0 :=
  termLt_of_rewrite symCompare graph (fun a => (hcmp a a).2 rfl) t lhs rhs t'
    ⟨c, horient, hc⟩ hrw

/-- Witness for C31: under the sample comparator `A < B`, so the rule `B => A`
is strictly oriented; it takes `T.B.C` to `T.A.C`. -/
theorem rewriteSubTerm_decreasing_witness :
    ∃ c', MutableTerm.compare sampleCompare ⟨[.GenericParam 0, .Name "A", .Name "C"]⟩
        ⟨[.GenericParam 0, .Name "B", .Name "C"]⟩ sampleGraph = Except.ok c' ∧ c' < 0 :=
  rewriteSubTerm_decreasing sampleCompare sampleGraph
    ⟨[.GenericParam 0, .Name "B", .Name "C"]⟩ ⟨[.Name "B"]⟩ ⟨[.Name "A"]⟩
    ⟨[.GenericParam 0, .Name "A", .Name "C"]⟩ (-1)
    (sampleCompare_eq_zero_iff sampleGraph) rfl (by decide) rfl

/-- A successful rewrite by a rule whose right-hand side is shorter than its
left-hand side shortens the term by at least one symbol. -/
theorem rewriteSubTerm_shrinks (t lhs rhs t' : MutableTerm) (hlen : rhs.size < lhs.size)
    (hrw : t.rewriteSubTerm lhs rhs = Except.ok (true, t')) : t'.size + 1 ≤ t.size := by
  obtain ⟨_, pre, post, ht, ht'⟩ := rewriteSubTerm_true_inv t lhs rhs t' hrw
  simp only [MutableTerm.size, ht, ht', List.length_append] at hlen ⊢
  omega

/-- A chain of `k` rewrites by shrinking rules ends at least `k` symbols
shorter than it starts. -/
theorem chain_length_bound (ts : Nat → MutableTerm)
    (rules : Nat → MutableTerm × MutableTerm) :
    ∀ k : Nat, (∀ n, n < k → (rules n).2.size < (rules n).1.size) →
      IsRewriteChainOfLength k ts rules → (ts k).size + k ≤ (ts 0).size
  | 0, _, _ => by simp
  | k + 1, hshrink, hchain => by
    have ih := chain_length_bound ts rules k
      (fun n hn => hshrink n (Nat.lt_succ_of_lt hn))
      (fun n hn => hchain n (Nat.lt_succ_of_lt hn))
    have hstep := rewriteSubTerm_shrinks (ts k) (rules k).1 (rules k).2 (ts (k + 1))
      (hshrink k (Nat.lt_succ_self k)) (hchain k (Nat.lt_succ_self k))
    omega

/-- C32: with rules that all have `len(rhs) < len(lhs)`, a chain of `k`
successful `rewriteSubTerm` applications starting from `t = ts 0` has
`k ≤ len(t)`, each step shortening the term by at least one symbol (the term
after `k` steps has at most `len(t) - k` symbols); so there is no infinite
chain either, whatever the supply of rules. -/
theorem shrinking_chain_bound (k : Nat) (ts : Nat → MutableTerm)
    (rules : Nat → MutableTerm × MutableTerm)
    (hshrink : ∀ n, n < k → (rules n).2.size < (rules n).1.size)
    (hchain : IsRewriteChainOfLength k ts rules) :
    k ≤ (ts 0).size ∧ (ts k).size + k ≤ (ts 0).size ∧
    (∀ n, n < k → (ts (n + 1)).size + 1 ≤ (ts n).size) ∧
    (∀ (ts' : Nat → MutableTerm) (rules' : Nat → MutableTerm × MutableTerm),
      (∀ n, (rules' n).2.size < (rules' n).1.size) → ¬ IsRewriteChain ts' rules') := by
  have hbound := chain_length_bound ts rules k hshrink hchain
  refine ⟨by omega, hbound, ?_, ?_⟩
  · intro n hn
    exact rewriteSubTerm_shrinks (ts n) (rules n).1 (rules n).2 (ts (n + 1))
      (hshrink n hn) (hchain n hn)
  · intro ts' rules' hshrink' hinf
    have := chain_length_bound ts' rules' ((ts' 0).size + 1)
      (fun n _ => hshrink' n) (fun n _ => hinf n)
    omega

/-- Witness for C32: the one-step chain from `A` by the rule `A => ` (empty
right-hand side) has as many steps as the term has symbols. -/
theorem shrinking_chain_bound_witness :
    1 ≤ MutableTerm.size ⟨[.Name "A"]⟩ :=
  (shrinking_chain_bound 1
    (fun n => if n = 0 then ⟨[.Name "A"]⟩ else ⟨[]⟩)
    (fun _ => (⟨[.Name "A"]⟩, ⟨[]⟩))
    (by
      intro n _
      show (0 : Nat) < 1
      decide)
    (by
      intro n hn
      have hn0 : n = 0 := by omega
      subst hn0
      rfl)).1

/-! ## Bounds, edge cases and the head of a term -/

/-- The first copy ends `len(src)` positions after it starts. -/
theorem stdCopy_snd : ∀ (src buf : List Symbol) (d : Nat),
    (stdCopy src buf d).2 = d + src.length
  | [], _, _ => rfl
  | _ :: src, buf, d => by
    rw [stdCopy, stdCopy_snd src _ (d + 1), List.length_cons]
    omega

/-- The first copy keeps the length of the buffer. -/
theorem stdCopy_length : ∀ (src buf : List Symbol) (d : Nat),
    (stdCopy src buf d).1.length = buf.length
  | [], _, _ => rfl
  | _ :: src, buf, d => by
    rw [stdCopy, stdCopy_length src _ (d + 1), List.length_set]

/-- C33: whenever `findSubTerm(t, p)` returns a position `i` other than the
sentinel, `i + len(p) ≤ len(t)`; hence in `rewriteSubTerm`, for `rhs` no
longer than `p`, the span overwritten with `rhs` ends inside the term (the
iterator `newIter` returned by the first copy is `i + len(rhs) ≤ len(t)`) and
the start of the tail `oldIter = i + len(p)` is inside the term too. -/
theorem findSubTerm_in_bounds (t p : MutableTerm) (i : Nat)
    (hret : t.findSubTerm p = i) (hfound : i ≠ t.size) :
    i + p.size ≤ t.size ∧
    ∀ rhs : MutableTerm, rhs.size ≤ p.size →
      (stdCopy rhs.Symbols t.Symbols i).2 = i + rhs.size ∧
      (stdCopy rhs.Symbols t.Symbols i).2 ≤ t.size ∧
      (stdCopy rhs.Symbols t.Symbols i).2 ≤ i + p.size ∧
      (stdCopy rhs.Symbols t.Symbols i).1.length = t.size := by
  subst hret
  obtain ⟨_, _, hle, _⟩ := found_decomp t p hfound
  refine ⟨hle, ?_⟩
  intro rhs hlen
  have h2 := stdCopy_snd rhs.Symbols t.Symbols (t.findSubTerm p)
  have h1 := stdCopy_length rhs.Symbols t.Symbols (t.findSubTerm p)
  simp only [MutableTerm.size] at hle hlen ⊢
  refine ⟨h2, ?_, ?_, h1⟩ <;> omega

/-- Witness for C33: `A.B` is found in `T.A.B.C` at index 1, and `1 + 2 ≤ 4`. -/
theorem findSubTerm_in_bounds_witness :
    1 + MutableTerm.size ⟨[.Name "A", .Name "B"]⟩
      ≤ MutableTerm.size ⟨[.GenericParam 0, .Name "A", .Name "B", .Name "C"]⟩ :=
  (findSubTerm_in_bounds ⟨[.GenericParam 0, .Name "A", .Name "B", .Name "C"]⟩
    ⟨[.Name "A", .Name "B"]⟩ 1 (by decide) (by decide)).1

/-- The empty pattern is found at index 0 of a non-empty term. -/
theorem findSubTerm_nil_pattern (t : MutableTerm) (ht : t.Symbols ≠ []) :
    t.findSubTerm ⟨[]⟩ = 0 := by
  cases t with
  | mk symbols =>
    cases symbols with
    | nil => exact absurd rfl ht
    | cons x rest => simp [MutableTerm.findSubTerm, MutableTerm.size, stdSearch, searchScan]

/-- C34: the empty-pattern edge case.  On a non-empty term `t`,
`findSubTerm(t, [])` returns position 0, which is not the sentinel, and
`rewriteSubTerm(t, [], [])` returns true and leaves `t`; on the empty term
`findSubTerm([], [])` returns 0, which is the sentinel `size`, and
`rewriteSubTerm([], [], rhs)` returns false. -/
theorem empty_pattern_edge_case (t rhs : MutableTerm) (ht : t.Symbols ≠ []) :
    (t.findSubTerm ⟨[]⟩ = 0 ∧ t.findSubTerm ⟨[]⟩ ≠ t.size) ∧
    t.rewriteSubTerm ⟨[]⟩ ⟨[]⟩ = Except.ok (true, t) ∧
    (MutableTerm.findSubTerm ⟨[]⟩ ⟨[]⟩ = 0 ∧
      MutableTerm.findSubTerm ⟨[]⟩ ⟨[]⟩ = MutableTerm.size ⟨[]⟩) ∧
    MutableTerm.rewriteSubTerm ⟨[]⟩ ⟨[]⟩ rhs = Except.ok (false, ⟨[]⟩) := by
  have h0 := findSubTerm_nil_pattern t ht
  have hpos : 0 < t.size := List.length_pos.2 ht
  have hne : t.findSubTerm ⟨[]⟩ ≠ t.size := by omega
  refine ⟨⟨h0, hne⟩, ?_, ⟨rfl, rfl⟩, rewriteSubTerm_nil _ _⟩
  rw [rewriteSubTerm_of_found t ⟨[]⟩ ⟨[]⟩ hne (Nat.le_refl _), h0]
  simp [MutableTerm.size]

/-- Witness for C34, on the term `T.A` and the right-hand side `X`. -/
theorem empty_pattern_edge_case_witness :
    MutableTerm.rewriteSubTerm ⟨[.GenericParam 0, .Name "A"]⟩ ⟨[]⟩ ⟨[]⟩
      = Except.ok (true, ⟨[.GenericParam 0, .Name "A"]⟩) ∧
    MutableTerm.rewriteSubTerm ⟨[]⟩ ⟨[]⟩ ⟨[.Name "X"]⟩ = Except.ok (false, ⟨[]⟩) :=
  ⟨(empty_pattern_edge_case ⟨[.GenericParam 0, .Name "A"]⟩ ⟨[.Name "X"]⟩ (by simp)).2.1,
    (empty_pattern_edge_case ⟨[.GenericParam 0, .Name "A"]⟩ ⟨[.Name "X"]⟩
      (by simp)).2.2.2⟩

/-- C35: as soon as `t` or `lhs` has a symbol (so for every term, a term being
a non-empty symbol sequence), if `lhs` occurs in `t` then
`rewriteSubTerm(t, lhs, lhs)` returns true and leaves `t` as it was, so the
same rule applies again, any number of times. -/
theorem rewriteSubTerm_same_sides (t lhs : MutableTerm)
    (hne : t.Symbols ≠ [] ∨ lhs.Symbols ≠ [])
    (hocc : lhs.Symbols <:+: t.Symbols) :
    t.rewriteSubTerm lhs lhs = Except.ok (true, t) ∧
    IsRewriteChain (fun _ => t) (fun _ => (lhs, lhs)) := by
  have hfound : t.findSubTerm lhs ≠ t.size := by
    intro heq
    rcases (findSubTerm_eq_size_iff t lhs).1 heq with h | ⟨ht, hl⟩
    · exact h hocc
    · rcases hne with h | h
      · exact absurd ht h
      · exact absurd hl h
  have hrw : t.rewriteSubTerm lhs lhs = Except.ok (true, t) := by
    rw [rewriteSubTerm_of_found t lhs lhs hfound (Nat.le_refl _),
      ← (found_decomp t lhs hfound).1]
  exact ⟨hrw, fun _ => hrw⟩

/-- Witness for C35: the rule `A.B => A.B` on the term `T.A.B`. -/
theorem rewriteSubTerm_same_sides_witness :
    MutableTerm.rewriteSubTerm ⟨[.GenericParam 0, .Name "A", .Name "B"]⟩
        ⟨[.Name "A", .Name "B"]⟩ ⟨[.Name "A", .Name "B"]⟩
      = Except.ok (true, ⟨[.GenericParam 0, .Name "A", .Name "B"]⟩) :=
  (rewriteSubTerm_same_sides ⟨[.GenericParam 0, .Name "A", .Name "B"]⟩
    ⟨[.Name "A", .Name "B"]⟩ (Or.inl (by simp)) (by decide)).1

/-- The first index at which the pattern matches a non-empty term is what
`findSubTerm` returns. -/
theorem findSubTerm_of_first_match (t lhs : MutableTerm) (p : Nat)
    (ht : t.Symbols ≠ [])
    (hmatch : MatchesAt t lhs p) (hfirst : ∀ j, j < p → ¬ MatchesAt t lhs j) :
    t.findSubTerm lhs = p ∧ t.findSubTerm lhs ≠ t.size := by
  have hfound : t.findSubTerm lhs ≠ t.size := by
    intro heq
    rcases (findSubTerm_eq_size_iff t lhs).1 heq with h | ⟨h, _⟩
    · exact h (infix_of_prefix_drop ((matchesAt_iff_prefix_drop t lhs p).1 hmatch))
    · exact ht h
  obtain ⟨_, _, _, hmin⟩ := found_decomp t lhs hfound
  refine ⟨?_, hfound⟩
  rcases findSubTerm_spec t lhs with ⟨_, hpre, _⟩ | ⟨heq, _⟩
  · have h1 : t.findSubTerm lhs ≤ p := by
      by_contra hcon
      exact hmin p (by omega) ((matchesAt_iff_prefix_drop t lhs p).1 hmatch)
    have h2 : p ≤ t.findSubTerm lhs := by
      by_contra hcon
      exact hfirst _ (by omega) ((matchesAt_iff_prefix_drop t lhs _).2 hpre)
    omega
  · exact absurd heq hfound

/-- C36: for a term `t` whose first symbol `head` is a generic parameter, a
protocol or an associated type, and `rhs` no longer than `lhs`, if the first
occurrence of `lhs` in `t` starts at an index `p ≥ 1` then `rewriteSubTerm`
returns true, the first symbol of the term after the call is still `head`,
and `getRootProtocols` returns after the call what it returned before. -/
theorem rewriteSubTerm_keeps_head (t lhs rhs : MutableTerm) (head : Symbol) (p : Nat)
    (hhead : t.Symbols.head? = some head)
    (hkind : head.getKind = Kind.GenericParam ∨ head.getKind = Kind.Protocol ∨
      head.getKind = Kind.AssociatedType)
    (hlen : rhs.size ≤ lhs.size) (hp : 1 ≤ p)
    (hmatch : MatchesAt t lhs p) (hfirst : ∀ j, j < p → ¬ MatchesAt t lhs j) :
    ∃ t' protos, t.rewriteSubTerm lhs rhs = Except.ok (true, t') ∧
      t'.Symbols.head? = some head ∧
      t.getRootProtocols = Except.ok protos ∧
      t'.getRootProtocols = Except.ok protos := by
  cases t with
  | mk symbols =>
    cases symbols with
    | nil => simp at hhead
    | cons x rest =>
      simp only [List.head?_cons, Option.some.injEq] at hhead
      subst hhead
      obtain ⟨hidx, hfound⟩ := findSubTerm_of_first_match ⟨x :: rest⟩ lhs p (by simp)
        hmatch hfirst
      have hrw := rewriteSubTerm_of_found ⟨x :: rest⟩ lhs rhs hfound hlen
      rw [hidx] at hrw
      obtain ⟨q, hq⟩ : ∃ q, p = q + 1 := ⟨p - 1, by omega⟩
      subst hq
      simp only [List.take_succ_cons, List.cons_append] at hrw
      have hroot : ∃ protos, MutableTerm.getRootProtocols ⟨x :: rest⟩ = Except.ok protos := by
        rw [getRootProtocols_cons]
        cases x <;> simp [Symbol.getKind] at hkind ⊢
      obtain ⟨protos, hprotos⟩ := hroot
      refine ⟨_, protos, hrw, rfl, hprotos, ?_⟩
      rw [getRootProtocols_cons] at hprotos ⊢
      exact hprotos

/-- Witness for C36: `T.A.B.C` with `A.B => X`, first occurrence at index 1. -/
theorem rewriteSubTerm_keeps_head_witness :
    ∃ t' protos, MutableTerm.rewriteSubTerm
        ⟨[.GenericParam 0, .Name "A", .Name "B", .Name "C"]⟩
        ⟨[.Name "A", .Name "B"]⟩ ⟨[.Name "X"]⟩ = Except.ok (true, t') ∧
      t'.Symbols.head? = some (.GenericParam 0) ∧
      MutableTerm.getRootProtocols ⟨[.GenericParam 0, .Name "A", .Name "B", .Name "C"]⟩
        = Except.ok protos ∧
      t'.getRootProtocols = Except.ok protos :=
  rewriteSubTerm_keeps_head ⟨[.GenericParam 0, .Name "A", .Name "B", .Name "C"]⟩
    ⟨[.Name "A", .Name "B"]⟩ ⟨[.Name "X"]⟩ (.GenericParam 0) 1 rfl (Or.inl rfl)
    (by decide) (by decide)
    (by
      intro k hk
      have hk2 : k < 2 := hk
      interval_cases k <;> rfl)
    (by
      intro j hj hm
      have hj0 : j = 0 := by omega
      subst hj0
      have := hm 0 (by decide)
      simp at this)

/-! ## The lookup key and the profile of a storage -/

/-- Claim C37.  For every non-empty sequence `m`, the pointers of distinct
symbols being distinct: the lookup key that `Term::get` computes for `m` is the
size followed by the opaque pointer of every symbol in order; it equals the
key that `Storage::Profile` computes for the storage that `Term::get` builds
from `m`, both for the storage as the construction loop leaves it and for the
storage behind the term returned on a miss; and the key is injective: `m` and
another sequence have the same key exactly when they have the same length and
the same symbol at every index. -/
theorem lookupKey_refines_profile (getOpaquePointer : SymbolPointer)
    (hinj : Function.Injective getOpaquePointer) (m : MutableTerm) (hm : m.Symbols ≠ []) :
    lookupKey getOpaquePointer m
        = { Bits := m.size :: m.Symbols.map getOpaquePointer } ∧
      (fillElements m m.size 0
          { Size := m.size, Trailing := List.replicate m.size uninitializedSymbol }).Profile
          getOpaquePointer { Bits := [] } = lookupKey getOpaquePointer m ∧
      (∀ ctx : RewriteContext,
        ctx.FindNodeOrInsertPos getOpaquePointer (lookupKey getOpaquePointer m) = none →
        ∃ t ctx' storage, Term.get getOpaquePointer m ctx = Except.ok (t, ctx') ∧
          ctx'.load t.Ptr = some storage ∧
          storage.Profile getOpaquePointer { Bits := [] } = lookupKey getOpaquePointer m) ∧
      (∀ other : MutableTerm,
        lookupKey getOpaquePointer m = lookupKey getOpaquePointer other ↔
          m.size = other.size ∧ ∀ i, i < m.size → m.Symbols[i]? = other.Symbols[i]?) := by
  refine ⟨lookupKey_eq getOpaquePointer m, ?_, ?_, ?_⟩
  · rw [fillElements_new]
    exact new_storage_profile getOpaquePointer m
  · intro ctx hfind
    refine ⟨_, _, { Size := m.size, Trailing := m.Symbols },
      get_of_miss getOpaquePointer m ctx hm hfind, ?_,
      new_storage_profile getOpaquePointer m⟩
    simp [RewriteContext.load]
  · intro other
    rw [← mutableTerm_eq_iff, lookupKey_eq, lookupKey_eq]
    constructor
    · intro h
      simp only [FoldingSetNodeID.mk.injEq, List.cons.injEq] at h
      have hsym : m.Symbols = other.Symbols := List.map_injective_iff.2 hinj h.2
      cases m
      cases other
      simp only at hsym
      rw [hsym]
    · rintro rfl
      rfl

/-- Witness for C37: the sequence `τ_0_0.A` with the rank of a symbol as its
opaque pointer. -/
theorem lookupKey_refines_profile_witness :
    lookupKey Symbol.rank ⟨[.GenericParam 0, .Name "A"]⟩
        = { Bits := MutableTerm.size ⟨[.GenericParam 0, .Name "A"]⟩
            :: [Symbol.GenericParam 0, Symbol.Name "A"].map Symbol.rank } ∧
      (fillElements ⟨[.GenericParam 0, .Name "A"]⟩
          (MutableTerm.size ⟨[.GenericParam 0, .Name "A"]⟩) 0
          { Size := MutableTerm.size ⟨[.GenericParam 0, .Name "A"]⟩,
            Trailing := List.replicate (MutableTerm.size ⟨[.GenericParam 0, .Name "A"]⟩)
              uninitializedSymbol }).Profile
          Symbol.rank { Bits := [] } = lookupKey Symbol.rank ⟨[.GenericParam 0, .Name "A"]⟩ ∧
      (∀ ctx : RewriteContext,
        ctx.FindNodeOrInsertPos Symbol.rank
          (lookupKey Symbol.rank ⟨[.GenericParam 0, .Name "A"]⟩) = none →
        ∃ t ctx' storage,
          Term.get Symbol.rank ⟨[.GenericParam 0, .Name "A"]⟩ ctx = Except.ok (t, ctx') ∧
          ctx'.load t.Ptr = some storage ∧
          storage.Profile Symbol.rank { Bits := [] }
            = lookupKey Symbol.rank ⟨[.GenericParam 0, .Name "A"]⟩) ∧
      (∀ other : MutableTerm,
        lookupKey Symbol.rank ⟨[.GenericParam 0, .Name "A"]⟩ = lookupKey Symbol.rank other ↔
          MutableTerm.size ⟨[.GenericParam 0, .Name "A"]⟩ = other.size ∧
          ∀ i, i < MutableTerm.size ⟨[.GenericParam 0, .Name "A"]⟩ →
            [Symbol.GenericParam 0, Symbol.Name "A"][i]? = other.Symbols[i]?) :=
  lookupKey_refines_profile Symbol.rank rank_injective ⟨[.GenericParam 0, .Name "A"]⟩
    (by simp)

/-! ## Macro expansion buffers -/

/-- The result of `adjustMacroExpansionBufferName` on a non-empty name. -/
theorem adjustMacroExpansionBufferName_cons
    (MANGLING_PREFIX_STR MACRO_EXPANSION_BUFFER_MANGLING_PREFIX : StringRef)
    (c : Char) (rest : StringRef) :
    adjustMacroExpansionBufferName MANGLING_PREFIX_STR MACRO_EXPANSION_BUFFER_MANGLING_PREFIX
        (c :: rest)
      = if MANGLING_PREFIX_STR <+: c :: rest then
          MACRO_EXPANSION_BUFFER_MANGLING_PREFIX
            ++ (c :: rest).drop MANGLING_PREFIX_STR.length ++ ".swift".toList
        else (c :: rest) ++ ".swift".toList := by
  by_cases h : MANGLING_PREFIX_STR <+: c :: rest
  · have hb : MANGLING_PREFIX_STR.isPrefixOf (c :: rest) = true :=
      List.isPrefixOf_iff_prefix.2 h
    simp [adjustMacroExpansionBufferName, h, hb]
  · have hb : MANGLING_PREFIX_STR.isPrefixOf (c :: rest) = false := by
      cases hx : MANGLING_PREFIX_STR.isPrefixOf (c :: rest) with
      | false => rfl
      | true => exact absurd (List.isPrefixOf_iff_prefix.1 hx) h
    simp [adjustMacroExpansionBufferName, h, hb]

/-- Claim C38.  The function `adjustMacroExpansionBufferName` gives
`<macro-expansion>` for the empty name; for every non-empty name the result
ends with `.swift`, it is the name followed by `.swift` when the name does
not start with the mangling prefix, and it is the macro-expansion buffer
prefix, then the name with the mangling prefix dropped, then `.swift`, when
it does. -/
theorem adjustMacroExpansionBufferName_spec
    (MANGLING_PREFIX_STR MACRO_EXPANSION_BUFFER_MANGLING_PREFIX name : StringRef) :
    adjustMacroExpansionBufferName MANGLING_PREFIX_STR MACRO_EXPANSION_BUFFER_MANGLING_PREFIX []
        = "<macro-expansion>".toList ∧
      (name ≠ [] →
        ".swift".toList <:+ adjustMacroExpansionBufferName MANGLING_PREFIX_STR
            MACRO_EXPANSION_BUFFER_MANGLING_PREFIX name ∧
          (¬ MANGLING_PREFIX_STR <+: name →
            adjustMacroExpansionBufferName MANGLING_PREFIX_STR
                MACRO_EXPANSION_BUFFER_MANGLING_PREFIX name
              = name ++ ".swift".toList) ∧
          (MANGLING_PREFIX_STR <+: name →
            adjustMacroExpansionBufferName MANGLING_PREFIX_STR
                MACRO_EXPANSION_BUFFER_MANGLING_PREFIX name
              = MACRO_EXPANSION_BUFFER_MANGLING_PREFIX
                  ++ name.drop MANGLING_PREFIX_STR.length ++ ".swift".toList)) := by
  refine ⟨rfl, ?_⟩
  intro hname
  cases name with
  | nil => exact absurd rfl hname
  | cons c rest =>
    rw [adjustMacroExpansionBufferName_cons]
    refine ⟨?_, ?_, ?_⟩
    · split_ifs
      · exact List.suffix_append _ _
      · exact List.suffix_append _ _
    · intro h
      rw [if_neg h]
    · intro h
      rw [if_pos h]

/-- Witness for C38: the mangled name `$s4main3foo` with the mangling prefix
`$s` and the buffer prefix `@__swiftmacro_`. -/
theorem adjustMacroExpansionBufferName_spec_witness :
    adjustMacroExpansionBufferName "$s".toList "@__swiftmacro_".toList []
        = "<macro-expansion>".toList ∧
      "$s4main3foo".toList ≠ [] ∧
      "$s".toList <+: "$s4main3foo".toList ∧
      adjustMacroExpansionBufferName "$s".toList "@__swiftmacro_".toList "$s4main3foo".toList
        = "@__swiftmacro_".toList ++ "$s4main3foo".toList.drop "$s".toList.length
            ++ ".swift".toList :=
  have hname : "$s4main3foo".toList ≠ [] := by decide
  have hstart : "$s".toList <+: "$s4main3foo".toList := ⟨"4main3foo".toList, by decide⟩
  have h := adjustMacroExpansionBufferName_spec "$s".toList "@__swiftmacro_".toList
    "$s4main3foo".toList
  ⟨h.1, hname, hstart, (h.2 hname).2.2 hstart⟩

/-! ## Expansion of a macro definition -/

/-- An append of a range inside the text appends the slice. -/
theorem appendRange_ok (expandedResult originalText : StringRef) (first last : Nat)
    (h1 : first ≤ last) (h2 : last ≤ originalText.length) :
    appendRange expandedResult originalText first last
      = Except.ok (expandedResult ++ textSlice originalText first last) := by
  simp [appendRange, textSlice, h1, h2]

/-- An append of a range that is not inside the text fails. -/
theorem appendRange_fails (expandedResult originalText : StringRef) (first last : Nat)
    (h : ¬ (first ≤ last ∧ last ≤ originalText.length)) :
    appendRange expandedResult originalText first last
      = Except.error "iterator range outside the text" := by
  simp only [appendRange, if_neg h]

/-- The loop of `expandMacroDefinition` followed by the last append, from any
state of the loop: with every range inside the text and every index inside
the argument list the result is the text built so far followed by the
spliced text. -/
theorem expandLoop_spliced {Expr : Type} (x : StringRef) (extract : Expr → StringRef)
    (args : Option (List Expr)) :
    ∀ (rs : List ExpandedMacroReplacement) (acc : StringRef) (start : Nat),
      OrderedNonOverlapping x.length rs →
      (∀ r, rs.head? = some r → start ≤ r.startOffset ∧ r.startOffset ≤ x.length) →
      (∀ r, rs.getLast? = some r → r.endOffset ≤ x.length) →
      (rs = [] → start ≤ x.length) →
      (∀ r, r ∈ rs → ∃ argExpr, getArgExpr args r.parameterIndex = some argExpr) →
      (match expandLoop x extract args rs acc start with
        | Except.error e => Except.error e
        | Except.ok (expandedResult, startIdx) =>
          appendRange expandedResult x startIdx x.length)
        = Except.ok (acc ++ splicedText x (argumentText extract args) start rs) := by
  intro rs
  induction rs with
  | nil =>
    intro acc start _ _ _ hstart _
    simp only [expandLoop, splicedText]
    exact appendRange_ok acc x start x.length (hstart rfl) (Nat.le_refl _)
  | cons r rest ih =>
    intro acc start hord hhead hlast _ hindex
    obtain ⟨h1, h2⟩ := hhead r rfl
    obtain ⟨argExpr, harg⟩ := hindex r (List.mem_cons_self r rest)
    simp only [expandLoop, splicedText, argumentText, harg,
      appendRange_ok acc x start r.startOffset h1 h2]
    rw [ih (acc ++ textSlice x start r.startOffset ++ extract argExpr) r.endOffset]
    · simp [List.append_assoc, argumentText]
    · cases rest with
      | nil => trivial
      | cons next rest2 => exact hord.2.2
    · intro next hnext
      cases rest with
      | nil => simp at hnext
      | cons n rest2 =>
        simp only [List.head?_cons, Option.some.injEq] at hnext
        subst hnext
        exact ⟨hord.1, hord.2.1⟩
    · intro last hl
      apply hlast
      cases rest with
      | nil => simp at hl
      | cons n rest2 => simpa [List.getLast?_cons_cons] using hl
    · intro hrest
      subst hrest
      exact hlast r rfl
    · intro r' hr'
      exact hindex r' (List.mem_cons_of_mem r hr')

/-- Counterexample to claim C39 as stated.  A single replacement is ordered and
non-overlapping in the sense of the claim, which bounds only the start of a
replacement that follows another one and says nothing of the parameter
index.  On the text `abc` with the one argument `y`: the replacement with
offsets 5 and 7 makes the first append read the range from `begin()` to
`begin() + 5`; the replacement with offsets 1 and 7 makes the last append
read the range from `begin() + 7` to `end()`; the replacement with offsets 1
and 2 and parameter index 3 reads the argument list at index 3.  In none of
the three calls does the function produce the spliced text. -/
theorem expandMacroDefinition_out_of_range :
    (OrderedNonOverlapping "abc".toList.length [⟨5, 7, 0⟩] ∧
      expandMacroDefinition "abc".toList [⟨5, 7, 0⟩] (fun e : StringRef => e)
          (some ["y".toList])
        = Except.error "iterator range outside the text") ∧
    (OrderedNonOverlapping "abc".toList.length [⟨1, 7, 0⟩] ∧
      expandMacroDefinition "abc".toList [⟨1, 7, 0⟩] (fun e : StringRef => e)
          (some ["y".toList])
        = Except.error "iterator range outside the text") ∧
    (OrderedNonOverlapping "abc".toList.length [⟨1, 2, 3⟩] ∧
      expandMacroDefinition "abc".toList [⟨1, 2, 3⟩] (fun e : StringRef => e)
          (some ["y".toList])
        = Except.error "getArgExprs()[parameterIndex] outside the argument list") ∧
    (∀ rs : List ExpandedMacroReplacement,
      rs = [⟨5, 7, 0⟩] ∨ rs = [⟨1, 7, 0⟩] ∨ rs = [⟨1, 2, 3⟩] →
      expandMacroDefinition "abc".toList rs (fun e : StringRef => e) (some ["y".toList])
        ≠ Except.ok (splicedText "abc".toList
            (argumentText (fun e : StringRef => e) (some ["y".toList])) 0 rs)) := by
  have h1 : expandMacroDefinition "abc".toList [⟨5, 7, 0⟩] (fun e : StringRef => e)
      (some ["y".toList]) = Except.error "iterator range outside the text" := rfl
  have h2 : expandMacroDefinition "abc".toList [⟨1, 7, 0⟩] (fun e : StringRef => e)
      (some ["y".toList]) = Except.error "iterator range outside the text" := rfl
  have h3 : expandMacroDefinition "abc".toList [⟨1, 2, 3⟩] (fun e : StringRef => e)
      (some ["y".toList])
      = Except.error "getArgExprs()[parameterIndex] outside the argument list" := rfl
  refine ⟨⟨trivial, h1⟩, ⟨trivial, h2⟩, ⟨trivial, h3⟩, ?_⟩
  rintro rs (rfl | rfl | rfl)
  · rw [h1]
    intro h
    cases h
  · rw [h2]
    intro h
    cases h
  · rw [h3]
    intro h
    cases h

/-- Claim C39, amended.  For an expansion text `x` and replacements `r1..rn`
that are ordered and non-overlapping, `r_k.endOffset ≤ r_{k+1}.startOffset ≤
len(x)`, with `r1.startOffset ≤ len(x)`, `rn.endOffset ≤ len(x)` and every
`r.parameterIndex` the index of an argument of the argument list, the
function `expandMacroDefinition` returns `x[0..r1.start) ++ arg(r1) ++
x[r1.end..r2.start) ++ ... ++ arg(rn) ++ x[rn.end..len(x))`, where `arg(r)` is
the inlinable text of the argument at `r.parameterIndex`; with no replacements
the result is `x` unchanged, whatever the argument list. -/
theorem expandMacroDefinition_splices {Expr : Type} (x : StringRef)
    (replacements : List ExpandedMacroReplacement)
    (extractInlinableText : Expr → StringRef) (args : Option (List Expr))
    (hord : OrderedNonOverlapping x.length replacements)
    (hfirst : ∀ r, replacements.head? = some r → r.startOffset ≤ x.length)
    (hlast : ∀ r, replacements.getLast? = some r → r.endOffset ≤ x.length)
    (hindex : ∀ r, r ∈ replacements →
      ∃ argExprs, args = some argExprs ∧ r.parameterIndex < argExprs.length) :
    expandMacroDefinition x replacements extractInlinableText args
        = Except.ok (splicedText x (argumentText extractInlinableText args) 0 replacements) ∧
      (∀ anyArgs : Option (List Expr),
        expandMacroDefinition x [] extractInlinableText anyArgs = Except.ok x) := by
  constructor
  · have h := expandLoop_spliced x extractInlinableText args replacements [] 0 hord
      (fun r hr => ⟨Nat.zero_le _, hfirst r hr⟩) hlast (fun _ => Nat.zero_le _)
      (fun r hr => by
        obtain ⟨argExprs, hargs, hlt⟩ := hindex r hr
        exact ⟨argExprs[r.parameterIndex], by
          rw [hargs]
          exact List.getElem?_eq_getElem hlt⟩)
    simpa [expandMacroDefinition] using h
  · intro anyArgs
    have h := expandLoop_spliced x extractInlinableText anyArgs [] [] 0 trivial (by simp)
      (by simp) (fun _ => Nat.zero_le _) (by simp)
    simpa [expandMacroDefinition, splicedText, textSlice] using h

/-- Witness for C39: the text `f(a) + b` with the parameter `a` at offsets 2
to 3 and the parameter `b` at offsets 7 to 8, and the arguments `x` and
`y * 2`. -/
theorem expandMacroDefinition_splices_witness :
    expandMacroDefinition "f(a) + b".toList [⟨2, 3, 1⟩, ⟨7, 8, 0⟩]
        (fun e : StringRef => e) (some ["x".toList, "y * 2".toList])
        = Except.ok (splicedText "f(a) + b".toList
            (argumentText (fun e : StringRef => e) (some ["x".toList, "y * 2".toList])) 0
            [⟨2, 3, 1⟩, ⟨7, 8, 0⟩]) ∧
      (∀ anyArgs : Option (List StringRef),
        expandMacroDefinition "f(a) + b".toList [] (fun e : StringRef => e) anyArgs
          = Except.ok "f(a) + b".toList) :=
  expandMacroDefinition_splices "f(a) + b".toList [⟨2, 3, 1⟩, ⟨7, 8, 0⟩]
    (fun e : StringRef => e) (some ["x".toList, "y * 2".toList])
    ⟨by decide, by decide, trivial⟩
    (by
      intro r hr
      simp only [List.head?_cons, Option.some.injEq] at hr
      subst hr
      decide)
    (by
      intro r hr
      simp only [List.getLast?_cons_cons, List.getLast?_singleton, Option.some.injEq] at hr
      subst hr
      decide)
    (by
      intro r hr
      refine ⟨_, rfl, ?_⟩
      simp only [List.mem_cons, List.mem_singleton, List.not_mem_nil, or_false] at hr
      rcases hr with rfl | rfl <;> decide)

/-! ## Arguments that designate the term itself -/

/-- With two objects other than the term as arguments, the method is the one
that takes its arguments by value. -/
theorem rewriteSubTermByRef_objects (t lhs rhs : MutableTerm) :
    t.rewriteSubTermByRef (.object lhs) (.object rhs) = t.rewriteSubTerm lhs rhs := rfl

/-- A copy of a range onto itself leaves the buffer as it is. -/
theorem stdCopyWithin_same : ∀ (n : Nat) (buf : List Symbol) (k : Nat),
    stdCopyWithin n buf k k = (buf, k + n)
  | 0, _, _ => rfl
  | n + 1, buf, k => by
    rw [stdCopyWithin]
    cases h : buf[k]? with
    | none =>
      simp only
      rw [stdCopyWithin_same n buf (k + 1)]
      simp only [Prod.mk.injEq, true_and]
      omega
    | some x =>
      have hset : buf.set k x = buf := by
        apply List.ext_getElem?
        intro i
        by_cases h1 : k = i
        · subst h1
          have hk : k < buf.length := by
            by_contra hc
            rw [List.getElem?_eq_none (by omega)] at h
            cases h
          simp [List.getElem?_set, h, hk]
        · simp [List.getElem?_set, h1]
      simp only [hset]
      rw [stdCopyWithin_same n buf (k + 1)]
      simp only [Prod.mk.injEq, true_and]
      omega

/-- A non-empty term is found in itself at the start. -/
theorem findSubTerm_self (t : MutableTerm) (ht : t.Symbols ≠ []) :
    t.findSubTerm t = 0 ∧ t.findSubTerm t ≠ t.size :=
  findSubTerm_of_first_match t t 0 ht (fun k hk => by simp [List.getElem?_eq_getElem hk])
    (fun j hj => absurd hj (Nat.not_lt_zero j))

/-- The empty term is not found in itself: `std::search` returns `begin()`,
which is `end()`. -/
theorem findSubTerm_self_nil : MutableTerm.findSubTerm ⟨[]⟩ ⟨[]⟩ = MutableTerm.size ⟨[]⟩ := rfl

/-- The method returns false and leaves the term when `findSubTerm` returns
`end()`. -/
theorem rewriteSubTermByRef_of_absent (t : MutableTerm) (lhs rhs : TermRef)
    (h : t.findSubTerm (lhs.deref t) = t.size) :
    t.rewriteSubTermByRef lhs rhs = Except.ok (false, t) := by
  simp [MutableTerm.rewriteSubTermByRef, h]

/-- The method fails the first assertion when an occurrence was found and `rhs`
is longer than `lhs`. -/
theorem rewriteSubTermByRef_of_found_longer (t : MutableTerm) (lhs rhs : TermRef)
    (hfound : t.findSubTerm (lhs.deref t) ≠ t.size)
    (hlen : (lhs.deref t).size < (rhs.deref t).size) :
    t.rewriteSubTermByRef lhs rhs = Except.error "assert(rhs.size() <= lhs.size())" := by
  have h : ¬ (rhs.deref t).size ≤ (lhs.deref t).size := by omega
  simp [MutableTerm.rewriteSubTermByRef, hfound, h]

/-- The two copies and the erase, on the term as `findSubTerm` found `l` in it. -/
theorem splice_found (t l r : MutableTerm) (hfound : t.findSubTerm l ≠ t.size)
    (hlen : r.size ≤ l.size) :
    (if (stdCopy r.Symbols t.Symbols (t.findSubTerm l)).2 ≠ t.findSubTerm l + l.size then
        (stdCopyWithin
            ((stdCopy r.Symbols t.Symbols (t.findSubTerm l)).1.length
              - (t.findSubTerm l + l.size))
            (stdCopy r.Symbols t.Symbols (t.findSubTerm l)).1 (t.findSubTerm l + l.size)
            (stdCopy r.Symbols t.Symbols (t.findSubTerm l)).2).1.take
          (stdCopyWithin
            ((stdCopy r.Symbols t.Symbols (t.findSubTerm l)).1.length
              - (t.findSubTerm l + l.size))
            (stdCopy r.Symbols t.Symbols (t.findSubTerm l)).1 (t.findSubTerm l + l.size)
            (stdCopy r.Symbols t.Symbols (t.findSubTerm l)).2).2
      else (stdCopy r.Symbols t.Symbols (t.findSubTerm l)).1)
      = t.Symbols.take (t.findSubTerm l) ++ r.Symbols
          ++ t.Symbols.drop (t.findSubTerm l + l.size) := by
  obtain ⟨hdec, hlt, _, _⟩ := found_decomp t l hfound
  have hprelen : (t.Symbols.take (t.findSubTerm l)).length = t.findSubTerm l := by
    simp only [List.length_take, MutableTerm.size] at hlt ⊢
    omega
  have key := splice_spec (t.Symbols.take (t.findSubTerm l)) l.Symbols
    (t.Symbols.drop (t.findSubTerm l + l.size)) r.Symbols hlen
  rw [← hdec, hprelen] at key
  exact key

/-- The method called with the term itself as `lhs` and another object as
`rhs`, no longer than the term: the term becomes `rhs`, and the final
assertion, which reads the size of `lhs` after the erase, holds only when
`rhs` has the size the term had. -/
theorem rewriteSubTermByRef_receiver_object (t r : MutableTerm) (ht : t.Symbols ≠ [])
    (hlen : r.size ≤ t.size) :
    t.rewriteSubTermByRef .receiver (.object r)
      = if r.size = t.size then Except.ok (true, r)
        else Except.error "assert(size() == oldSize - lhs.size() + rhs.size())" := by
  obtain ⟨h0, hfound⟩ := findSubTerm_self t ht
  have hsplice := splice_found t t r hfound hlen
  have hne : ¬ (0 = t.size) := by rw [h0] at hfound; exact hfound
  have hdrop : t.Symbols.drop t.Symbols.length = [] := by simp
  simp only [h0, MutableTerm.size, Nat.zero_add, List.take_zero, List.nil_append, hdrop,
    List.append_nil, stdCopy_length] at hsplice hne hlen
  unfold MutableTerm.rewriteSubTermByRef
  simp only [TermRef.deref, h0, MutableTerm.size, hne, if_false, Nat.zero_add,
    stdCopy_length, not_le.symm, hlen, not_true_eq_false, not_not]
  rw [hsplice, Nat.sub_add_cancel hlen]

/-- The method called with the term itself as `rhs`, when an occurrence of `lhs`
was found and the first assertion holds: `lhs` has then the size of the
term, the copy of the term onto itself changes nothing, and the method
returns true. -/
theorem rewriteSubTermByRef_rhs_receiver (t : MutableTerm) (lhs : TermRef)
    (hfound : t.findSubTerm (lhs.deref t) ≠ t.size) (hlen : t.size ≤ (lhs.deref t).size) :
    t.rewriteSubTermByRef lhs .receiver = Except.ok (true, t) := by
  obtain ⟨_, _, hle, _⟩ := found_decomp t (lhs.deref t) hfound
  have h0 : t.findSubTerm (lhs.deref t) = 0 := by omega
  have hsz : (lhs.deref t).size = t.size := by omega
  have hne : ¬ (0 = t.size) := by rw [h0] at hfound; exact hfound
  cases lhs with
  | receiver =>
    simp only [TermRef.deref] at h0
    simp only [MutableTerm.size] at hne
    unfold MutableTerm.rewriteSubTermByRef
    simp only [TermRef.deref, h0, hne, if_false, Nat.le_refl, not_true_eq_false,
      stdCopyWithin_same, Nat.zero_add, MutableTerm.size, ne_eq, if_true, Nat.sub_self]
  | object l =>
    simp only [TermRef.deref] at h0 hsz hlen
    simp only [MutableTerm.size] at hne hsz hlen
    unfold MutableTerm.rewriteSubTermByRef
    simp only [TermRef.deref, h0, hne, if_false, stdCopyWithin_same, Nat.zero_add, hsz,
      ne_eq, if_true, MutableTerm.size, Nat.le_refl, not_true_eq_false, Nat.sub_self]

/-- A read through a reference to the term itself. -/
theorem deref_receiver (t : MutableTerm) : TermRef.deref t TermRef.receiver = t := rfl

/-- A read through a reference to another object. -/
theorem deref_object (t m : MutableTerm) : TermRef.deref t (TermRef.object m) = m := rfl

/-- The four outcomes of the method, as soon as `t` or `lhs` has a symbol:
`lhs` does not occur and the method returns false; `lhs` occurs and `rhs` is
longer, which fails the first assertion; `lhs` is the term itself and `rhs`
is shorter, which fails the final assertion; otherwise the method returns
true with a term of the expected size. -/
theorem rewriteSubTermByRef_cases (t : MutableTerm) (lhs rhs : TermRef)
    (hne : t.Symbols ≠ [] ∨ (lhs.deref t).Symbols ≠ []) :
    (¬ (lhs.deref t).Symbols <:+: t.Symbols ∧
      t.rewriteSubTermByRef lhs rhs = Except.ok (false, t)) ∨
    ((lhs.deref t).Symbols <:+: t.Symbols ∧ (lhs.deref t).size < (rhs.deref t).size ∧
      t.rewriteSubTermByRef lhs rhs = Except.error "assert(rhs.size() <= lhs.size())") ∨
    ((lhs.deref t).Symbols <:+: t.Symbols ∧ lhs = TermRef.receiver ∧
      (rhs.deref t).size < (lhs.deref t).size ∧
      t.rewriteSubTermByRef lhs rhs
        = Except.error "assert(size() == oldSize - lhs.size() + rhs.size())") ∨
    ((lhs.deref t).Symbols <:+: t.Symbols ∧ (rhs.deref t).size ≤ (lhs.deref t).size ∧
      (lhs = TermRef.receiver → (rhs.deref t).size = (lhs.deref t).size) ∧
      ∃ t', t.rewriteSubTermByRef lhs rhs = Except.ok (true, t') ∧
        (lhs.deref t).size ≤ t.size ∧
        t'.size = t.size - (lhs.deref t).size + (rhs.deref t).size) := by
  by_cases hfound : t.findSubTerm (lhs.deref t) = t.size
  · left
    refine ⟨?_, rewriteSubTermByRef_of_absent t lhs rhs hfound⟩
    rcases (findSubTerm_eq_size_iff t (lhs.deref t)).1 hfound with h | ⟨ht, hl⟩
    · exact h
    · rcases hne with h | h
      · exact absurd ht h
      · exact absurd hl h
  · right
    obtain ⟨hdec, _, hle, _⟩ := found_decomp t (lhs.deref t) hfound
    have hocc : (lhs.deref t).Symbols <:+: t.Symbols := ⟨_, _, hdec.symm⟩
    have hlt_size : (lhs.deref t).size ≤ t.size := by omega
    by_cases hlen : (rhs.deref t).size ≤ (lhs.deref t).size
    · right
      cases rhs with
      | receiver =>
        right
        rw [deref_receiver] at hlen ⊢
        have hsz : t.size = (lhs.deref t).size := by omega
        refine ⟨hocc, hlen, fun _ => hsz, t,
          rewriteSubTermByRef_rhs_receiver t lhs hfound hlen, hlt_size, ?_⟩
        omega
      | object r =>
        rw [deref_object] at hlen ⊢
        cases lhs with
        | receiver =>
          rw [deref_receiver] at hlen hfound hocc ⊢
          have ht : t.Symbols ≠ [] := by
            intro h
            apply hfound
            cases t
            simp only at h
            subst h
            rfl
          have hrw := rewriteSubTermByRef_receiver_object t r ht hlen
          by_cases heq : r.size = t.size
          · right
            rw [if_pos heq] at hrw
            exact ⟨hocc, hlen, fun _ => heq, r, hrw, Nat.le_refl _, by omega⟩
          · left
            rw [if_neg heq] at hrw
            exact ⟨hocc, rfl, by omega, hrw⟩
        | object l =>
          right
          rw [deref_object] at hlen hfound hocc hlt_size ⊢
          have hsize := rewriteSubTerm_size_objects t l r hlen
          have hrw := rewriteSubTerm_of_found t l r hfound hlen
          have hnot : TermRef.object l = TermRef.receiver → r.size = l.size :=
            fun h => TermRef.noConfusion h
          rw [rewriteSubTermByRef_objects]
          exact ⟨hocc, hlen, hnot, _, hrw, hsize.2 _ hrw⟩
    · left
      have hlt : (lhs.deref t).size < (rhs.deref t).size := by omega
      exact ⟨hocc, hlt, rewriteSubTermByRef_of_found_longer t lhs rhs hfound hlt⟩

end Rewriting
